import Mathlib

/-!
# Edge multiplicity inference of the repeat graph

A shallow embedding of `src/repeat_graph/multiplicity_inferer.cpp`
(`MultiplicityInferer::estimateByCoverage`, `::balanceGraph`,
`::fixEdgesMultiplicity`) and the properties proved about it.

Conventions of the embedding.

* A `GraphEdge*` / `GraphNode*` is the position of the edge / node in the
  enumeration `iterEdges()` / `iterNodes()` of the graph.
* A finite `float` is the rational number it denotes, and every float
  operation of `estimateByCoverage` rounds its exact result to `float` (IEEE
  754 binary32, round to nearest, ties to even, one rounding per operation):
  `roundFloat`. The non-finite results (`+inf`, `-inf`, `NaN`) are kept apart
  in `FloatVal`. A zero has no sign: the only zero divisor of the code comes
  from an `int`.
* Converting a float to an integer type discards the fractional part and has
  no defined result in C++ when the float is not finite or the value does not
  fit the type; the embedding returns `none` there (`toInt` for `int`,
  `toInt64` for `int64_t`). Converting the `int64_t` quotient to `int` keeps
  the value modulo `2^32` (`wrapInt32`).
* `sumLength` adds lengths in a 64-bit accumulator and is kept as the exact
  integer sum; the counters `numberEdges`, `numberNodes` and the positions are
  natural numbers.
* The solver is a parameter; its values are rational numbers, and the
  write-back converts them by discarding the fractional part.
* In `balanceGraph` the lower bound `(float)multiplicity` of an edge variable
  is the multiplicity itself: the multiplicities that `fixEdgesMultiplicity`
  hands to `balanceGraph` are integers converted from a float, and these
  convert back without rounding.
-/

namespace MultiplicityInferer

/-! ## Numbers -/

/-- Conversion of a finite floating value to an integer type: the fractional
part is discarded (truncation toward zero), as in `int x = f;`. -/
def truncQ (q : ℚ) : Int :=
  if 0 ≤ q then ⌊q⌋ else -⌊-q⌋

/-- The value of `roundf` on a finite argument: the nearest integer, halfway
cases away from zero. -/
def roundHalfAway (q : ℚ) : Int :=
  if 0 ≤ q then ⌊q + 1 / 2⌋ else -⌊-q + 1 / 2⌋

/-- The power `2^z` of an integer exponent, as a rational number. -/
def pow2 (z : Int) : ℚ :=
  if 0 ≤ z then ((2 ^ z.toNat : Nat) : ℚ) else 1 / ((2 ^ (-z).toNat : Nat) : ℚ)

/-- Rounding to the nearest integer, a halfway case to the even neighbour. -/
def roundHalfEven (q : ℚ) : Int :=
  if q - ⌊q⌋ < 1 / 2 then ⌊q⌋
  else if 1 / 2 < q - ⌊q⌋ then ⌊q⌋ + 1
  else if ⌊q⌋ % 2 = 0 then ⌊q⌋ else ⌊q⌋ + 1

/-- The number of binary digits of `n`, counted by halving `n` until it is 0;
the first argument bounds the number of halvings. -/
def bitLengthAux : Nat → Nat → Nat
  | 0, _ => 0
  | fuel + 1, n => if n = 0 then 0 else bitLengthAux fuel (n / 2) + 1

/-- The number of binary digits of `n`: the least `k` with `n < 2^k`. -/
def bitLength (n : Nat) : Nat := bitLengthAux n n

/-- The binary exponent of a positive number `q`: the integer `e` with
`2^e ≤ q < 2^(e+1)`. -/
def binaryExponent (q : ℚ) : Int :=
  if 1 ≤ q then (bitLength ⌊q⌋.toNat : Int) - 1
  else -(bitLength (⌈1 / q⌉.toNat - 1) : Int)

/-- A `float` result: finite, or one of the three special values. -/
inductive FloatVal where
  | fin (q : ℚ)
  | posInf
  | negInf
  | nan
  deriving DecidableEq

/-- Rounding of an exact value to `float` (IEEE 754 binary32, round to
nearest, ties to even): the value is rounded to a multiple of the spacing
`2^(e-23)` of the floats of its binary exponent `e`, the exponent not taken
below -126 (subnormal numbers), and the result is an infinity when the rounded
magnitude reaches `2^128`. -/
def roundFloat (q : ℚ) : FloatVal :=
  if q = 0 then FloatVal.fin 0
  else if pow2 128 ≤
      (roundHalfEven (|q| / pow2 (max (binaryExponent |q|) (-126) - 23)) : ℚ) *
        pow2 (max (binaryExponent |q|) (-126) - 23) then
    (if 0 < q then FloatVal.posInf else FloatVal.negInf)
  else if 0 < q then
    FloatVal.fin ((roundHalfEven (|q| / pow2 (max (binaryExponent |q|) (-126) - 23)) : ℚ) *
      pow2 (max (binaryExponent |q|) (-126) - 23))
  else
    FloatVal.fin (-((roundHalfEven (|q| / pow2 (max (binaryExponent |q|) (-126) - 23)) : ℚ) *
      pow2 (max (binaryExponent |q|) (-126) - 23)))

/-- Conversion `(float)z` of an integer. -/
def intToFloat (z : Int) : FloatVal :=
  roundFloat (z : ℚ)

/-- The number `q` is a float: rounding to float returns it unchanged. -/
def isFloat (q : ℚ) : Prop :=
  roundFloat q = FloatVal.fin q

instance (q : ℚ) : Decidable (isFloat q) := by
  unfold isFloat
  infer_instance

/-- Float product `a * b` of a finite `a` with a float `b`. -/
def fmul (a : ℚ) : FloatVal → FloatVal
  | FloatVal.fin b => roundFloat (a * b)
  | FloatVal.posInf =>
    if 0 < a then FloatVal.posInf else if a < 0 then FloatVal.negInf else FloatVal.nan
  | FloatVal.negInf =>
    if 0 < a then FloatVal.negInf else if a < 0 then FloatVal.posInf else FloatVal.nan
  | FloatVal.nan => FloatVal.nan

/-- Float sum `a + b`. -/
def fadd : FloatVal → FloatVal → FloatVal
  | FloatVal.fin a, FloatVal.fin b => roundFloat (a + b)
  | FloatVal.nan, _ => FloatVal.nan
  | _, FloatVal.nan => FloatVal.nan
  | FloatVal.posInf, FloatVal.negInf => FloatVal.nan
  | FloatVal.negInf, FloatVal.posInf => FloatVal.nan
  | FloatVal.posInf, _ => FloatVal.posInf
  | _, FloatVal.posInf => FloatVal.posInf
  | FloatVal.negInf, _ => FloatVal.negInf
  | _, FloatVal.negInf => FloatVal.negInf

/-- Float division `x / y` of a finite `x` by a float `y` (IEEE 754: a
non-zero number over zero is an infinity of the sign of the numerator, zero
over zero is NaN, a finite number over an infinity is zero). The divisor comes
from an `int`, so a zero divisor is `+0`. -/
def fdiv (x : ℚ) : FloatVal → FloatVal
  | FloatVal.fin y =>
    if y = 0 then
      (if 0 < x then FloatVal.posInf else if x < 0 then FloatVal.negInf else FloatVal.nan)
    else roundFloat (x / y)
  | FloatVal.posInf => FloatVal.fin 0
  | FloatVal.negInf => FloatVal.fin 0
  | FloatVal.nan => FloatVal.nan

/-- The library function `roundf`: infinities and NaN are returned as they are. -/
def froundf : FloatVal → FloatVal
  | FloatVal.fin q => FloatVal.fin (roundHalfAway q)
  | v => v

/-- The comparison `a < b` of a finite float with a float: false when `b` is NaN. -/
def fltFin (a : ℚ) : FloatVal → Bool
  | FloatVal.fin q => decide (a < q)
  | FloatVal.posInf => true
  | FloatVal.negInf => false
  | FloatVal.nan => false

/-- The call `std::max(a, b)` with a finite first argument: `(a < b) ? b : a`. -/
def fmax (a : ℚ) (b : FloatVal) : FloatVal :=
  if fltFin a b then b else FloatVal.fin a

/-- Conversion of a float to a signed integer type of `bits` bits: the
fractional part is discarded; there is no defined result when the float is not
finite or the truncated value is outside the range of the type. -/
def floatToInt (bits : Nat) : FloatVal → Option Int
  | FloatVal.fin q =>
    if -(2 ^ (bits - 1) : Int) ≤ truncQ q ∧ truncQ q < (2 ^ (bits - 1) : Int) then
      some (truncQ q)
    else none
  | _ => none

/-- Conversion `int x = f;` of a float to the 32-bit `int`. -/
def toInt (f : FloatVal) : Option Int :=
  floatToInt 32 f

/-- Conversion of a float to `int64_t`. -/
def toInt64 (f : FloatVal) : Option Int :=
  floatToInt 64 f

/-- Conversion of an `int64_t` value to the 32-bit `int`: the value modulo
`2^32` in the range of `int`. -/
def wrapInt32 (z : Int) : Int :=
  (z + 2 ^ 31) % 2 ^ 32 - 2 ^ 31

/-! ## The graph -/

/-- Modelled from the spec: the declaration of `GraphEdge` (repeat_graph.h) is
not among the sources. The spec's data model gives an edge a signed id, a
length, a coverage (float), a multiplicity (integer), and the flags `isTip`
and `isLooped`. -/
structure GraphEdge where
  signedId : Int
  length : Int
  coverage : ℚ
  multiplicity : Int
  isTip : Bool
  isLooped : Bool
  deriving DecidableEq

/-- Modelled from the spec: the declaration of `GraphNode` (repeat_graph.h) is
not among the sources. A node has its incoming edges, its outgoing edges and
its neighbour set (`neighbors()`); edges and nodes are named by position. -/
structure GraphNode where
  inEdges : List Nat
  outEdges : List Nat
  neighbors : List Nat
  deriving DecidableEq

/-- Modelled from the spec: the declaration of `RepeatGraph` (repeat_graph.h)
is not among the sources. The graph enumerates its edges and nodes and answers
complement queries: `complementEdge e` is `complementPath(\x7be\x7d).front()` and
`complementNode v` is `complementNode(v)`. -/
structure RepeatGraph where
  edges : List GraphEdge
  nodes : List GraphNode
  complementEdge : Nat → Nat
  complementNode : Nat → Nat

/-- The multiplicity of the edge at position `i` (0 when there is no such edge). -/
def RepeatGraph.multiplicity (g : RepeatGraph) (i : Nat) : Int :=
  match g.edges[i]? with
  | some e => e.multiplicity
  | none => 0

/-- The value of `edge->isLooped()` for the edge at position `i`. -/
def RepeatGraph.isLooped (g : RepeatGraph) (i : Nat) : Bool :=
  match g.edges[i]? with
  | some e => e.isLooped
  | none => false

/-! ## estimateByCoverage -/

/-- One round of the first loop on `sumCov`: `sumCov += edge->coverage * edge->length()`.
The length is converted to float, the product is a float, the sum
`(float)sumCov + product` is formed in float and converted back to `int64_t`. -/
def sumCovStep (sumCov : Int) (e : GraphEdge) : Option Int :=
  toInt64 (fadd (intToFloat sumCov) (fmul e.coverage (intToFloat e.length)))

/-- The rounds of the first loop on `sumCov`, from a given value of `sumCov`. -/
def sumCovFrom : Int → List GraphEdge → Option Int
  | s, [] => some s
  | s, e :: es =>
    match sumCovStep s e with
    | some s' => sumCovFrom s' es
    | none => none

/-- The value of `sumCov` after the first loop. -/
def sumCov (edges : List GraphEdge) : Option Int :=
  sumCovFrom 0 edges

/-- The value of `sumLength` after the first loop. -/
def sumLength (edges : List GraphEdge) : Int :=
  edges.foldl (fun s e => s + e.length) 0

/-- The local `meanCoverage`: `(sumLength != 0) ? sumCov / sumLength : 1`, an
`int64_t` division (C++ truncates the quotient toward zero) whose quotient is
converted to `int`. -/
def meanCoverage (edges : List GraphEdge) : Option Int :=
  match sumCov edges with
  | none => none
  | some c =>
    if sumLength edges ≠ 0 then
      (if -(2 ^ 63 : Int) ≤ Int.tdiv c (sumLength edges) ∧
          Int.tdiv c (sumLength edges) < (2 ^ 63 : Int) then
        some (wrapInt32 (Int.tdiv c (sumLength edges)))
      else none)
    else some 1

/-- The local `minMult` of the second loop. -/
def minMult (e : GraphEdge) : ℚ :=
  if !e.isTip then 1 else 0

/-- The float `std::max(minMult, roundf((float)edge->coverage / meanCoverage))`. -/
def estFloat (mean : Int) (e : GraphEdge) : FloatVal :=
  fmax (minMult e) (froundf (fdiv e.coverage (intToFloat mean)))

/-- The local `estMult` of the second loop. -/
def estMult (mean : Int) (e : GraphEdge) : Option Int :=
  toInt (estFloat mean e)

/-- The second loop of `estimateByCoverage`: every edge gets its estimate. -/
def estimateEdges (mean : Int) : List GraphEdge → Option (List GraphEdge)
  | [] => some []
  | e :: es =>
    match estMult mean e, estimateEdges mean es with
    | some m, some es' => some ({ e with multiplicity := m } :: es')
    | _, _ => none

/-- The function `MultiplicityInferer::estimateByCoverage`. -/
def estimateByCoverage (g : RepeatGraph) : Option RepeatGraph :=
  match meanCoverage g.edges with
  | none => none
  | some mean =>
    match estimateEdges mean g.edges with
    | some es => some { g with edges := es }
    | none => none

/-- The divisor of the first division, `sumCov / sumLength`, when that division
is evaluated (the conditional guards it with `sumLength != 0`). -/
def firstDivisor (edges : List GraphEdge) : Option Int :=
  if sumLength edges ≠ 0 then some (sumLength edges) else none

/-- The divisor of the second division, `(float)edge->coverage / meanCoverage`,
evaluated once for every edge. -/
def secondDivisor (edges : List GraphEdge) : Option Int :=
  meanCoverage edges

/-! ## balanceGraph: canonical numbering -/

/-- A table `std::unordered_map<T*, size_t>`: the id stored for a position, if any. -/
abbrev IdTable := Nat → Option Nat

/-- The empty table. -/
def IdTable.empty : IdTable := fun _ => none

/-- The test `table.count(key)`. -/
def IdTable.count (t : IdTable) (key : Nat) : Bool := (t key).isSome

/-- The assignment `table[key] = id`. -/
def IdTable.set (t : IdTable) (key id : Nat) : IdTable :=
  fun k => if k = key then some id else t k

/-- The read `table[key]`; a key that is absent reads as the default `0`.
(`balanceGraph` reads the table only for edges that are not looped; those among
them that the graph enumerates all have an id, so the entry that the read of an
absent key adds to a C++ map can only belong to an edge outside the
enumeration, which has no position here.) -/
def IdTable.get (t : IdTable) (key : Nat) : Nat := (t key).getD 0

/-- The locals `edgeToId`, `idToEdge`, `numberEdges`. `idToEdge` is a
`std::map` keyed by `0 .. numberEdges - 1`, kept as the list of its values in
key order. -/
structure EdgeIds where
  edgeToId : IdTable
  idToEdge : List Nat
  numberEdges : Nat

/-- One round of the loop "enumerating edges" for the edge at position `edge`. -/
def enumEdgeStep (g : RepeatGraph) (s : EdgeIds) (edge : Nat) : EdgeIds :=
  if g.isLooped edge then s
  else if s.edgeToId.count edge then s
  else
    let complEdge := g.complementEdge edge
    { edgeToId := (s.edgeToId.set edge s.numberEdges).set complEdge s.numberEdges
      idToEdge := s.idToEdge ++ [edge]
      numberEdges := s.numberEdges + 1 }

/-- The loop "enumerating edges". -/
def enumerateEdges (g : RepeatGraph) : EdgeIds :=
  (List.range g.edges.length).foldl (enumEdgeStep g) ⟨IdTable.empty, [], 0⟩

/-- The locals `nodeToId`, `idToNode`, `numberNodes`. -/
structure NodeIds where
  nodeToId : IdTable
  idToNode : List Nat
  numberNodes : Nat

/-- The two `continue` tests of the node loop, negated: the node has an
incoming edge, an outgoing edge and at least two neighbours. -/
def GraphNode.eligible (v : GraphNode) : Bool :=
  !(v.inEdges.isEmpty || v.outEdges.isEmpty) && !(decide (v.neighbors.length < 2))

/-- One round of the loop "enumerating nodes" for the node at position `node`. -/
def enumNodeStep (g : RepeatGraph) (s : NodeIds) (node : Nat) : NodeIds :=
  match g.nodes[node]? with
  | none => s
  | some v =>
    if v.inEdges.isEmpty || v.outEdges.isEmpty then s
    else if v.neighbors.length < 2 then s
    else if s.nodeToId.count node then s
    else
      let complNode := g.complementNode node
      { nodeToId := (s.nodeToId.set complNode s.numberNodes).set node s.numberNodes
        idToNode := s.idToNode ++ [node]
        numberNodes := s.numberNodes + 1 }

/-- The loop "enumerating nodes". -/
def enumerateNodes (g : RepeatGraph) : NodeIds :=
  (List.range g.nodes.length).foldl (enumNodeStep g) ⟨IdTable.empty, [], 0⟩

/-! ## balanceGraph: the linear program -/

/-- The comparison of a constraint (`optimization::ConstraintType`). -/
inductive ConstraintType where
  | CT_MORE_EQUAL
  | CT_LESS_EQUAL
  | CT_EQUAL
  deriving DecidableEq

/-- A constraint handed to `add_constraint`: a `1 x numVariables` coefficient
row, a comparison and a bound. -/
structure Constraint where
  coefficients : List ℚ
  type : ConstraintType
  value : ℚ
  deriving DecidableEq

/-- What the `Simplex` object has been given when `solve()` is called: the
names of the variables in the order of `add_variable`, the constraints in the order of
`add_constraint`, and the cost row of the objective (`OFT_MINIMIZE`). -/
structure Simplex where
  variableNames : List String
  constraints : List Constraint
  costs : List ℚ
  deriving DecidableEq

/-- What the `Simplex` object reports after `solve()`. -/
structure Solved where
  has_solutions : Bool
  must_be_fixed : Bool
  is_unlimited : Bool
  solution : List ℚ

/-- The element `get_solution()(i)`. -/
def Solved.value (r : Solved) (i : Nat) : ℚ := r.solution.getD i 0

/-- A row `pilal::Matrix(1, n, 0)` with `row(i) = 1`. -/
def unitRow (n i : Nat) : List ℚ := (List.replicate n 0).set i 1

/-- The lower-bound constraint of the edge loop for canonical edge id `id`. -/
def edgeConstraint (g : RepeatGraph) (E : EdgeIds) (numVariables id : Nat) : Constraint :=
  { coefficients := unitRow numVariables id
    type := ConstraintType.CT_MORE_EQUAL
    value := ((g.multiplicity (E.idToEdge.getD id 0) : Int) : ℚ) }

/-- The name of the variable of canonical edge id `id`: the signed id of its edge. -/
def edgeVarName (g : RepeatGraph) (E : EdgeIds) (id : Nat) : String :=
  match g.edges[E.idToEdge.getD id 0]? with
  | some e => toString e.signedId
  | none => ""

/-- The rounds `coefficients[edgeToId[edge]] += d` over a list of edges,
looped edges left out. -/
def addCoefficients (g : RepeatGraph) (E : EdgeIds) (d : Int) :
    List Int → List Nat → List Int
  | coefficients, [] => coefficients
  | coefficients, edge :: rest =>
    if g.isLooped edge then addCoefficients g E d coefficients rest
    else addCoefficients g E d
      (coefficients.modify (fun c => c + d) (E.edgeToId.get edge)) rest

/-- The vector `coefficients` built for a node. -/
def nodeCoefficients (g : RepeatGraph) (E : EdgeIds) (v : GraphNode) : List Int :=
  addCoefficients g E (-1)
    (addCoefficients g E 1 (List.replicate E.numberEdges 0) v.inEdges) v.outEdges

/-- The row `coefMatrix` of the equality constraint of a node. -/
def coefMatrix (numberEdges numVariables sourceId sinkId : Nat)
    (coefficients : List Int) : List ℚ :=
  (((coefficients.map (fun (c : Int) => (c : ℚ))) ++
      List.replicate (numVariables - numberEdges) 0).set sourceId 1).set sinkId (-1)

/-- The state carried through the node loop: variables and constraints added
so far, and `incorporatedEquations`. -/
structure NodeLoop where
  variableNames : List String
  constraints : List Constraint
  incorporatedEquations : List (List Int)

/-- One round of the node loop for canonical node id `id`. `indep` is
`rows_linearly_independent` applied to `problemMatrix`, given by its rows. -/
def nodeStep (indep : List (List Int) → Bool) (g : RepeatGraph) (E : EdgeIds)
    (N : NodeIds) (s : NodeLoop) (id : Nat) : NodeLoop :=
  let numVariables := E.numberEdges + N.numberNodes * 2
  let sourceId := E.numberEdges + id * 2
  let sinkId := E.numberEdges + id * 2 + 1
  let variableNames := s.variableNames ++ [toString id ++ "_source", toString id ++ "_sink"]
  let constraints := s.constraints ++
    [⟨unitRow numVariables sourceId, ConstraintType.CT_MORE_EQUAL, 0⟩,
     ⟨unitRow numVariables sinkId, ConstraintType.CT_MORE_EQUAL, 0⟩]
  let coefficients :=
    match g.nodes[N.idToNode.getD id 0]? with
    | some v => nodeCoefficients g E v
    | none => List.replicate E.numberEdges 0
  if !indep (s.incorporatedEquations ++ [coefficients]) then
    { variableNames := variableNames, constraints := constraints,
      incorporatedEquations := s.incorporatedEquations }
  else
    { variableNames := variableNames
      constraints := constraints ++
        [⟨coefMatrix E.numberEdges numVariables sourceId sinkId coefficients,
          ConstraintType.CT_EQUAL, 0⟩]
      incorporatedEquations := s.incorporatedEquations ++ [coefficients] }

/-- The state of the node loop before the round of canonical node id `k`. -/
def nodeLoop (indep : List (List Int) → Bool) (g : RepeatGraph) (E : EdgeIds)
    (N : NodeIds) (k : Nat) : NodeLoop :=
  (List.range k).foldl (nodeStep indep g E N)
    { variableNames := (List.range E.numberEdges).map (edgeVarName g E)
      constraints := (List.range E.numberEdges).map
        (edgeConstraint g E (E.numberEdges + N.numberNodes * 2))
      incorporatedEquations := [] }

/-- The cost row: `1` for an edge variable, `1000` for a slack variable. -/
def costs (numberEdges numVariables : Nat) : List ℚ :=
  (List.range numVariables).map (fun i => if i < numberEdges then 1 else 1000)

/-- The linear program `balanceGraph` hands to the solver. -/
def buildModel (indep : List (List Int) → Bool) (g : RepeatGraph) : Simplex :=
  let E := enumerateEdges g
  let N := enumerateNodes g
  let s := nodeLoop indep g E N N.numberNodes
  { variableNames := s.variableNames
    constraints := s.constraints
    costs := costs E.numberEdges (E.numberEdges + N.numberNodes * 2) }

/-! ## balanceGraph: solve, write-back, diagnostics -/

/-- The write-back loop over `edgeToId`: the edge at position `i` gets the
truncated solver value of its id when the table has `i` as a key. The loop
visits every key once, so the order of the visit does not matter. -/
def writeBack (E : EdgeIds) (r : Solved) : Nat → List GraphEdge → List GraphEdge
  | _, [] => []
  | i, e :: es =>
    (match E.edgeToId i with
      | some id =>
        let inferredMult := truncQ (r.value id)
        if e.multiplicity ≠ inferredMult then { e with multiplicity := inferredMult } else e
      | none => e) :: writeBack E r (i + 1) es

/-- The local `nodeSource` of the diagnostics loop for canonical node id `i`. -/
def nodeSource (E : EdgeIds) (r : Solved) (i : Nat) : Int :=
  truncQ (r.value (E.numberEdges + i * 2))

/-- The local `nodeSink` of the diagnostics loop for canonical node id `i`. -/
def nodeSink (E : EdgeIds) (r : Solved) (i : Nat) : Int :=
  truncQ (r.value (E.numberEdges + i * 2 + 1))

/-- The test `nodeSource + nodeSink > 0` that counts a node as unbalanced. -/
def countedUnbalanced (E : EdgeIds) (r : Solved) (i : Nat) : Bool :=
  decide (nodeSource E r i + nodeSink E r i > 0)

/-- The locals `nodesAffected`, `sumSource`, `sumSink` after the diagnostics loop. -/
structure Diagnostics where
  nodesAffected : Int
  sumSource : Int
  sumSink : Int
  deriving DecidableEq

/-- The diagnostics loop. -/
def diagnostics (E : EdgeIds) (N : NodeIds) (r : Solved) : Diagnostics :=
  (List.range N.numberNodes).foldl
    (fun d i =>
      { nodesAffected :=
          if nodeSource E r i + nodeSink E r i > 0 then d.nodesAffected + 1 else d.nodesAffected
        sumSource := d.sumSource + nodeSource E r i
        sumSink := d.sumSink + nodeSink E r i })
    ⟨0, 0, 0⟩

/-- How a call of `balanceGraph` ends: the graph as the call leaves it, the
message of the `std::runtime_error` it throws (if it throws), and the numbers
of the warning it logs (if it logs one). -/
structure Outcome where
  graph : RepeatGraph
  error : Option String
  warning : Option Diagnostics

/-- The function `MultiplicityInferer::balanceGraph`. `indep` stands for
`pilal::Matrix::rows_linearly_independent` and `solve` for the solver behind
`Simplex::solve`; neither is part of this source file. -/
def balanceGraph (indep : List (List Int) → Bool) (solve : Simplex → Solved)
    (g : RepeatGraph) : Outcome :=
  let E := enumerateEdges g
  let N := enumerateNodes g
  let r := solve (buildModel indep g)
  if !r.has_solutions || r.must_be_fixed || r.is_unlimited then
    { graph := g, error := some "Error while solving LP", warning := none }
  else
    let d := diagnostics E N r
    { graph := { g with edges := writeBack E r 0 g.edges }
      error := none
      warning := if d.nodesAffected ≠ 0 then some d else none }

/-- The function `MultiplicityInferer::fixEdgesMultiplicity`: `none` when the
estimate has no defined value. -/
def fixEdgesMultiplicity (indep : List (List Int) → Bool) (solve : Simplex → Solved)
    (g : RepeatGraph) : Option Outcome :=
  match estimateByCoverage g with
  | some g' => some (balanceGraph indep solve g')
  | none => none

/-! ## Linear independence of integer rows -/

/-- The position of the first non-zero entry of a row. -/
def leadingIndex : List Int → Option Nat
  | [] => none
  | a :: as => if a ≠ 0 then some 0 else (leadingIndex as).map (fun j => j + 1)

/-- Row `r` with its entry at the leading position of `p` cancelled by a
multiple of `p` (without fractions). -/
def eliminate (p r : List Int) : List Int :=
  match leadingIndex p with
  | none => r
  | some j => List.zipWith (fun a b => p.getD j 0 * a - r.getD j 0 * b) r p

/-- Row `r` reduced by the rows of a basis, in their order. -/
def reduceBy (basis : List (List Int)) (r : List Int) : List Int :=
  basis.foldl (fun acc p => eliminate p acc) r

/-- The reduced rows that remain non-zero, in the order of the rows. -/
def echelonBasis (rows : List (List Int)) : List (List Int) :=
  rows.foldl
    (fun basis r =>
      let reduced := reduceBy basis r
      if leadingIndex reduced = none then basis else basis ++ [reduced])
    []

/-- Modelled from the spec: `pilal::Matrix::rows_linearly_independent` is not
among the sources. The spec has it test a row "for linear independence against
all previously admitted rows"; here the rows of the matrix are linearly
independent when elimination leaves none of them zero. -/
def rowsLinearlyIndependent (rows : List (List Int)) : Bool :=
  (echelonBasis rows).length == rows.length

/-! ## Reading the linear program -/

/-- The product of a coefficient row with a vector of variable values. -/
def dot (row x : List ℚ) : ℚ :=
  (List.zipWith (fun a b => a * b) row x).sum

/-- The vector `x` satisfies the constraint. -/
def Constraint.holds (c : Constraint) (x : List ℚ) : Prop :=
  match c.type with
  | ConstraintType.CT_MORE_EQUAL => c.value ≤ dot c.coefficients x
  | ConstraintType.CT_LESS_EQUAL => dot c.coefficients x ≤ c.value
  | ConstraintType.CT_EQUAL => dot c.coefficients x = c.value

/-- The vector `x` satisfies every constraint of the program. -/
def Simplex.feasible (m : Simplex) (x : List ℚ) : Prop :=
  ∀ c ∈ m.constraints, c.holds x

/-- The value of the objective at `x`. -/
def Simplex.cost (m : Simplex) (x : List ℚ) : ℚ :=
  dot m.costs x

/-- The conservation row of canonical node id `k` was admitted: the test
`problemMatrix.rows_linearly_independent()` succeeded in its round. -/
def rowAdmitted (indep : List (List Int) → Bool) (g : RepeatGraph) (k : Nat) : Bool :=
  let E := enumerateEdges g
  let N := enumerateNodes g
  indep ((nodeLoop indep g E N k).incorporatedEquations ++
    [match g.nodes[N.idToNode.getD k 0]? with
      | some v => nodeCoefficients g E v
      | none => List.replicate E.numberEdges 0])

/-! ## Quantities of the specification -/

/-- The length-weighted mean coverage of the specification,
`Σ(coverage·length) / Σ(length)`, as an exact number. -/
def specMeanCoverage (edges : List GraphEdge) : ℚ :=
  (edges.map (fun e => e.coverage * (e.length : ℚ))).sum /
    (edges.map (fun e => (e.length : ℚ))).sum

/-- The sum of the multiplicities of a list of edges of the graph. -/
def multiplicitySum (g : RepeatGraph) (edges : List Nat) : Int :=
  (edges.map g.multiplicity).sum

instance (c : Constraint) (x : List ℚ) : Decidable (c.holds x) := by
  unfold Constraint.holds
  cases c.type <;> infer_instance

instance (m : Simplex) (x : List ℚ) : Decidable (m.feasible x) := by
  unfold Simplex.feasible
  infer_instance

/-! ## Concrete graphs used below -/

/-- Two edges of length 1 with coverages 3 and 4. -/
def meanTruncationEdges : List GraphEdge :=
  [⟨1, 1, 3, 0, false, false⟩, ⟨2, 1, 4, 0, false, false⟩]

/-- An edge of coverage 1 and length 1 next to an edge of coverage 0 and
length 2: the weighted coverage sum 1 is smaller than the total length 3. -/
def lowCoverageGraph : RepeatGraph :=
  { edges := [⟨1, 1, 1, 0, false, false⟩, ⟨2, 2, 0, 0, false, false⟩]
    nodes := []
    complementEdge := fun e => e
    complementNode := fun v => v }

/-- A single edge of coverage 0 and length 1. -/
def zeroCoverageEdges : List GraphEdge :=
  [⟨1, 1, 0, 0, false, false⟩]

/-- A single edge that is not a tip, of coverage 3/2 and length 1. -/
def fractionalCoverageGraph : RepeatGraph :=
  { edges := [⟨1, 1, 3 / 2, 0, false, false⟩]
    nodes := []
    complementEdge := fun e => e
    complementNode := fun v => v }

/-- Three edges of coverage 7: lengths 2, 5 and 1, the second one a tip. -/
def uniformCoverageGraph : RepeatGraph :=
  { edges := [⟨1, 2, 7, 0, false, false⟩, ⟨2, 5, 7, 0, true, false⟩, ⟨-1, 1, 7, 0, false, true⟩]
    nodes := []
    complementEdge := fun e => e
    complementNode := fun v => v }

/-- Three edges of coverage 2 that are not tips, of lengths `2^24`, 1 and 1. -/
def longFirstEdges : List GraphEdge :=
  [⟨1, 16777216, 2, 0, false, false⟩, ⟨2, 1, 2, 0, false, false⟩, ⟨3, 1, 2, 0, false, false⟩]

/-- A single edge that is not a tip, of coverage 2 and length `2^24 + 1`. -/
def longEdgeGraph : RepeatGraph :=
  { edges := [⟨1, 16777217, 2, 0, false, false⟩]
    nodes := []
    complementEdge := fun e => e
    complementNode := fun v => v }

/-- A single edge that is not a tip, of coverage 3000000000 (a float) and
length 1. -/
def highCoverageEdges : List GraphEdge :=
  [⟨1, 1, 3000000000, 0, false, false⟩]

/-- Two edges of coverage 1 that are not tips, of lengths `2^24` and 1. -/
def unitCoverageGraph : RepeatGraph :=
  { edges := [⟨1, 16777216, 1, 0, false, false⟩, ⟨2, 1, 1, 0, false, false⟩]
    nodes := []
    complementEdge := fun e => e
    complementNode := fun v => v }

/-- Two edges of length 1, of coverages 3/2 and 1/2. -/
def halfCoverageEdges : List GraphEdge :=
  [⟨1, 1, 3 / 2, 0, false, false⟩, ⟨2, 1, 1 / 2, 0, false, false⟩]

/-- Two edges of length 1 that are not tips: one of coverage `1 - 2^-24`, the
float just below 1, and one of coverage 1. -/
def nearOneEdges : List GraphEdge :=
  [⟨1, 1, 16777215 / 16777216, 0, false, false⟩, ⟨2, 1, 1, 0, false, false⟩]

/-- The state of the loop "enumerating edges" before the round of position `k`. -/
def edgesUpTo (g : RepeatGraph) (k : Nat) : EdgeIds :=
  (List.range k).foldl (enumEdgeStep g) ⟨IdTable.empty, [], 0⟩

/-- The state of the loop "enumerating nodes" before the round of position `k`. -/
def nodesUpTo (g : RepeatGraph) (k : Nat) : NodeIds :=
  (List.range k).foldl (enumNodeStep g) ⟨IdTable.empty, [], 0⟩

/-- What the enumeration of the edges keeps true of its tables: the counter is
the number of ids given out, and a position that has an id is the
representative stored for that id, or its complement; a representative is an
edge of the graph that is not looped. -/
structure EdgeIdsInv (g : RepeatGraph) (s : EdgeIds) : Prop where
  count : s.numberEdges = s.idToEdge.length
  rep : ∀ j id, s.edgeToId j = some id →
    ∃ r, s.idToEdge[id]? = some r ∧ g.isLooped r = false ∧ r < g.edges.length ∧
      (j = r ∨ j = g.complementEdge r)

/-- The complement relation of a graph of two edges that are each other's
complement. -/
def swapComplement (e : Nat) : Nat :=
  if e = 0 then 1 else if e = 1 then 0 else e

/-- Two looped edges of length 1, complements of each other, of coverages 1 and 3. -/
def loopedPairGraph : RepeatGraph :=
  { edges := [⟨1, 1, 1, 0, false, true⟩, ⟨-1, 1, 3, 0, false, true⟩]
    nodes := []
    complementEdge := swapComplement
    complementNode := fun v => v }

/-- Two edges of length 1 and coverage 2 that are not looped, complements of
each other. -/
def symmetricPairGraph : RepeatGraph :=
  { edges := [⟨1, 1, 2, 0, false, false⟩, ⟨-1, 1, 2, 0, false, false⟩]
    nodes := []
    complementEdge := swapComplement
    complementNode := fun v => v }

/-- The graph `symmetricPairGraph` with multiplicity 1 on both edges. -/
def symmetricPairEstimated : RepeatGraph :=
  { symmetricPairGraph with
    edges := [⟨1, 1, 2, 1, false, false⟩, ⟨-1, 1, 2, 1, false, false⟩] }

/-- A solver that reports success with the given values. -/
def solvedWith (x : List ℚ) : Simplex → Solved :=
  fun _ => ⟨true, false, false, x⟩

/-- A graph without edges, with one node that has no edges. -/
def emptyGraph : RepeatGraph :=
  { edges := []
    nodes := [⟨[], [], []⟩]
    complementEdge := fun e => e
    complementNode := fun v => v }

/-- Three nodes `P`, `Q`, `R` (positions 0, 1, 2) and five edges of
multiplicity 1: `P → Q` (0), `Q → R` (1), `P → R` (2), a loop at `P` (3) and a
loop at `R` (4). Every edge and node is its own complement. -/
def sourceSinkGraph : RepeatGraph :=
  { edges := [⟨1, 10, 5, 1, false, false⟩, ⟨2, 10, 5, 1, false, false⟩,
      ⟨3, 10, 5, 1, false, false⟩, ⟨4, 10, 5, 1, false, true⟩, ⟨5, 10, 5, 1, false, true⟩]
    nodes := [⟨[3], [0, 2, 3], [1, 2]⟩, ⟨[0], [1], [0, 2]⟩, ⟨[1, 2, 4], [4], [1, 0]⟩]
    complementEdge := fun e => e
    complementNode := fun v => v }

/-- Values for the nine variables of the model of `sourceSinkGraph`: the three
edge variables at 1, the source slack of node `P` at 2, the other slacks at 0. -/
def sourceSinkSolution : List ℚ := [1, 1, 1, 2, 0, 0, 0, 0, 0]

/-- A junction `V` (position 2) entered by an edge (0) and by its complement
(1), both of multiplicity 1, and left by one edge (2) of multiplicity 3 that is
its own complement. -/
def invertedRepeatGraph : RepeatGraph :=
  { edges := [⟨1, 10, 5, 1, false, false⟩, ⟨-1, 10, 5, 1, false, false⟩,
      ⟨2, 10, 15, 3, false, false⟩]
    nodes := [⟨[], [0], [2]⟩, ⟨[], [1], [2]⟩, ⟨[0, 1], [2], [0, 1, 3]⟩, ⟨[2], [], [2]⟩]
    complementEdge := swapComplement
    complementNode := fun v => v }

/-- Values for the four variables of the model of `invertedRepeatGraph`: 3/2
for the pair of incoming edges, 3 for the outgoing edge, 0 for the slacks. -/
def invertedRepeatSolution : List ℚ := [3 / 2, 3, 0, 0]

/-- Two nodes `V` (position 0) and `V'` (position 1) that are complements of
each other without being strand-symmetric: every edge is its own complement,
`V` has the incoming edge 0 and the outgoing edge 1, `V'` the incoming edge 2
of multiplicity 1 and the outgoing edge 3 of multiplicity 5. -/
def asymmetricNodesGraph : RepeatGraph :=
  { edges := [⟨1, 10, 5, 1, false, false⟩, ⟨2, 10, 5, 1, false, false⟩,
      ⟨3, 10, 5, 1, false, false⟩, ⟨4, 10, 5, 5, false, false⟩]
    nodes := [⟨[0], [1], [2, 3]⟩, ⟨[2], [3], [4, 5]⟩]
    complementEdge := fun e => e
    complementNode := swapComplement }

/-- Values for the six variables of the model of `asymmetricNodesGraph`: the
four edge variables at their lower bounds and the two slacks at 0. -/
def asymmetricNodesSolution : List ℚ :=
  ([1, 1, 1, 5, 0, 0] : List Int).map (fun (z : Int) => (z : ℚ))

/-- An edge that is not looped (position 0, multiplicity 1) whose complement
(position 1, multiplicity 5) is looped. -/
def loopedComplementGraph : RepeatGraph :=
  { edges := [⟨1, 10, 5, 1, false, false⟩, ⟨-1, 10, 5, 5, false, true⟩]
    nodes := []
    complementEdge := swapComplement
    complementNode := fun v => v }

/-- The vector `coefficients` built in the round of the node loop for
canonical node id `id`. -/
def nodeRow (g : RepeatGraph) (E : EdgeIds) (N : NodeIds) (id : Nat) : List Int :=
  match g.nodes[N.idToNode.getD id 0]? with
  | some v => nodeCoefficients g E v
  | none => List.replicate E.numberEdges 0

/-- The equality constraint that the round of canonical node id `id` adds when
its row is admitted. -/
def nodeEquality (g : RepeatGraph) (E : EdgeIds) (N : NodeIds) (id : Nat) : Constraint :=
  ⟨coefMatrix E.numberEdges (E.numberEdges + N.numberNodes * 2) (E.numberEdges + id * 2)
      (E.numberEdges + id * 2 + 1) (nodeRow g E N id),
    ConstraintType.CT_EQUAL, 0⟩

/-- The constraint `variable ≥ 0` on the column `col` of a model of `n` columns. -/
def nonNegative (n col : Nat) : Constraint :=
  ⟨unitRow n col, ConstraintType.CT_MORE_EQUAL, 0⟩

/-- A chain `A → B → C` of three nodes (positions 0, 1, 2) joined by the two
edges `first` (position 0) and `second` (position 1), with the complement
relations given for its edges and nodes. -/
def threeNodeChain (first second : GraphEdge) (complementEdge complementNode : Nat → Nat) :
    RepeatGraph :=
  { edges := [first, second]
    nodes := [⟨[], [0], [1]⟩, ⟨[0], [1], [0, 2]⟩, ⟨[1], [], [1]⟩]
    complementEdge := complementEdge
    complementNode := complementNode }

/-- The chain `A → B → C` with two edges of multiplicity 1 that are not looped;
every edge and node is its own complement. -/
def unitChain : RepeatGraph :=
  threeNodeChain ⟨1, 10, 5, 1, false, false⟩ ⟨2, 10, 5, 1, false, false⟩ (fun e => e)
    (fun v => v)

/-- The complement relation on the nodes of a chain that is its own reverse
complement: the end nodes are exchanged, the middle node is its own complement. -/
def endSwap (v : Nat) : Nat :=
  if v = 0 then 2 else if v = 2 then 0 else v

/-- The chain `A → B → C` that is its own reverse complement: its two edges,
of multiplicity 1 and not looped, are complements of each other, and so are
its end nodes. -/
def pairedChain : RepeatGraph :=
  threeNodeChain ⟨1, 10, 5, 1, false, false⟩ ⟨-1, 10, 5, 1, false, false⟩ swapComplement
    endSwap

/-- The strand pairs of the edges of the graph that are not looped: the sets
`{a, complement a}`. -/
def strandPairs (g : RepeatGraph) : Finset (Finset Nat) :=
  ((Finset.range g.edges.length).filter (fun a => g.isLooped a = false)).image
    (fun a => {a, g.complementEdge a})

/-- The complement relation of four edges paired `0 ↔ 1` and `2 ↔ 3`. -/
def fourEdgeComplement (e : Nat) : Nat :=
  if e = 0 then 1 else if e = 1 then 0 else if e = 2 then 3 else if e = 3 then 2 else e

/-- Four edges that are not looped, paired `0 ↔ 1` and `2 ↔ 3`: `e : U → V`
(0), `f : V → W` (2) and their complements `e' : V' → U'` (1), `f' : W' → V'`
(3). The nodes `V` (position 0) and `V'` (position 1) are complements of each
other. -/
def strandSymmetricGraph : RepeatGraph :=
  { edges := [⟨1, 10, 5, 1, false, false⟩, ⟨-1, 10, 5, 1, false, false⟩,
      ⟨2, 10, 5, 1, false, false⟩, ⟨-2, 10, 5, 1, false, false⟩]
    nodes := [⟨[0], [2], [2, 3]⟩, ⟨[3], [1], [4, 5]⟩]
    complementEdge := fourEdgeComplement
    complementNode := swapComplement }

/-- The node at position `v` passes the two tests of the node enumeration. -/
def RepeatGraph.eligible (g : RepeatGraph) (v : Nat) : Bool :=
  match g.nodes[v]? with
  | some node => node.eligible
  | none => false

/-- What the enumeration of the nodes keeps true of its tables: the counter is
the number of ids given out, and a position that has an id is the
representative stored for that id, or its complement; a representative is an
eligible node of the graph. -/
structure NodeIdsInv (g : RepeatGraph) (s : NodeIds) : Prop where
  count : s.numberNodes = s.idToNode.length
  rep : ∀ v id, s.nodeToId v = some id →
    ∃ r, s.idToNode[id]? = some r ∧ g.eligible r = true ∧ r < g.nodes.length ∧
      (v = r ∨ v = g.complementNode r)

/-- The number of edges of a list that are not looped and for which the table
`edgeToId` reads the column `col`. -/
def columnCount (g : RepeatGraph) (E : EdgeIds) (es : List Nat) (col : Nat) : Int :=
  ((es.filter (fun e => !g.isLooped e && decide (E.edgeToId.get e = col))).length : Int)

/-- The number of edges of a list that are not looped and have the canonical
id `k`. -/
def canonicalCount (g : RepeatGraph) (E : EdgeIds) (es : List Nat) (k : Nat) : Int :=
  ((es.filter (fun e => !g.isLooped e && decide (E.edgeToId e = some k))).length : Int)

/-- The lower bounds of the edge variables, in the order of the canonical edge ids. -/
def lowerBounds (g : RepeatGraph) : List ℚ :=
  (List.range (enumerateEdges g).numberEdges).map
    (fun i => ((g.multiplicity ((enumerateEdges g).idToEdge.getD i 0) : Int) : ℚ))

/-- The imbalance of canonical node id `n` when every edge variable is at its
lower bound: the product of its coefficient vector with the lower bounds. -/
def imbalance (g : RepeatGraph) (n : Nat) : ℚ :=
  dot ((nodeRow g (enumerateEdges g) (enumerateNodes g) n).map (fun (c : Int) => (c : ℚ)))
    (lowerBounds g)

/-- The slack value at position `j` among the slack variables: for an admitted
row the source slack (even `j`) takes a negative imbalance and the sink slack
(odd `j`) a positive one; the slacks of a discarded row are 0. -/
def absorbingSlack (indep : List (List Int) → Bool) (g : RepeatGraph) (j : Nat) : ℚ :=
  if rowAdmitted indep g (j / 2) = true then
    (if j % 2 = 0 then max 0 (-imbalance g (j / 2)) else max 0 (imbalance g (j / 2)))
  else 0

/-- The point of the claim: every edge variable at its lower bound, the slacks
of the admitted rows absorbing the imbalance. -/
def lowerBoundPoint (indep : List (List Int) → Bool) (g : RepeatGraph) : List ℚ :=
  lowerBounds g ++
    (List.range ((enumerateNodes g).numberNodes * 2)).map (absorbingSlack indep g)

/-- A row of `problemMatrix` as a vector over the rationals: the entries of
the integer vector at the `n` edge columns. -/
def rowVec (n : Nat) (r : List Int) : Fin n → ℚ :=
  fun i => ((r.getD i.val 0 : Int) : ℚ)

/-- The rows of a matrix of `n` columns, given as a list, are linearly
independent over the rationals. -/
def RowsIndependent (n : Nat) (rows : List (List Int)) : Prop :=
  LinearIndependent ℚ (fun (i : Fin rows.length) => rowVec n (rows.get i))

/-- The row space of a matrix of `n` columns given by its rows: the span of
the rows over the rationals. -/
def rowSpace (n : Nat) (rows : List (List Int)) : Submodule ℚ (Fin n → ℚ) :=
  Submodule.span ℚ {v | ∃ r, r ∈ rows ∧ rowVec n r = v}

/-- The number of equality constraints in a list of constraints. -/
def equalityCount (cs : List Constraint) : Nat :=
  (cs.filter (fun c => decide (c.type = ConstraintType.CT_EQUAL))).length

/-- The value of `incorporatedEquations` before the round of canonical node id
`k` of the node loop of `balanceGraph`. -/
def admittedRows (indep : List (List Int) → Bool) (g : RepeatGraph) (k : Nat) :
    List (List Int) :=
  (nodeLoop indep g (enumerateEdges g) (enumerateNodes g) k).incorporatedEquations

/-- The constraints handed to the solver before the round of canonical node
id `k` of the node loop of `balanceGraph`. -/
def constraintsBefore (indep : List (List Int) → Bool) (g : RepeatGraph) (k : Nat) :
    List Constraint :=
  (nodeLoop indep g (enumerateEdges g) (enumerateNodes g) k).constraints

/-- The vector `coefficients` of canonical node id `k` in `balanceGraph`. -/
def canonicalRow (g : RepeatGraph) (k : Nat) : List Int :=
  nodeRow g (enumerateEdges g) (enumerateNodes g) k

/-- The rows of all canonical nodes, in the order of the node loop. -/
def allNodeRows (g : RepeatGraph) : List (List Int) :=
  (List.range (enumerateNodes g).numberNodes).map (canonicalRow g)

/-! ## Lemmas on the numbers -/

theorem truncQ_intCast (z : Int) : truncQ (z : ℚ) = z := by
  unfold truncQ
  split_ifs with h
  · exact Int.floor_intCast z
  · rw [← Int.cast_neg, Int.floor_intCast]; omega

theorem roundHalfEven_intCast (m : Int) : roundHalfEven (m : ℚ) = m := by
  unfold roundHalfEven
  rw [Int.floor_intCast, sub_self, if_pos (by norm_num)]

theorem bitLengthAux_zero (fuel : Nat) : bitLengthAux fuel 0 = 0 := by
  cases fuel <;> simp [bitLengthAux]

theorem bitLengthAux_spec (fuel : Nat) : ∀ n, n ≤ fuel → 0 < n →
    0 < bitLengthAux fuel n ∧ 2 ^ (bitLengthAux fuel n - 1) ≤ n ∧
      n < 2 ^ bitLengthAux fuel n := by
  induction fuel with
  | zero => intro n h1 h2; omega
  | succ fuel ih =>
    intro n hn hpos
    have hne : n ≠ 0 := by omega
    simp only [bitLengthAux, if_neg hne]
    by_cases h2 : n / 2 = 0
    · rw [h2, bitLengthAux_zero]
      have : n = 1 := by omega
      subst this
      simp
    · obtain ⟨ha, hb, hc⟩ := ih (n / 2) (by omega) (by omega)
      refine ⟨by omega, ?_, ?_⟩
      · rw [Nat.add_sub_cancel]
        have : 2 ^ bitLengthAux fuel (n / 2) = 2 * 2 ^ (bitLengthAux fuel (n / 2) - 1) := by
          rw [← pow_succ']
          congr 1
          omega
        omega
      · rw [pow_succ]
        omega

theorem bitLength_spec (n : Nat) (h : 0 < n) :
    0 < bitLength n ∧ 2 ^ (bitLength n - 1) ≤ n ∧ n < 2 ^ bitLength n :=
  bitLengthAux_spec n n le_rfl h

theorem bitLength_le (n k : Nat) (h : 0 < n) (hk : n < 2 ^ k) : bitLength n ≤ k := by
  obtain ⟨h0, h1, _⟩ := bitLength_spec n h
  by_contra hlt
  have hle : k ≤ bitLength n - 1 := by omega
  have := Nat.pow_le_pow_right (by norm_num : 0 < 2) hle
  omega

/-- Known values of the rounding to float: `0.1f` and `1/3` (24 significant
bits), the whole numbers around `2^24` (spacing 2, ties to even), the largest
float and the overflow threshold, and the smallest subnormal numbers. -/
theorem roundFloat_values :
    roundFloat (1 / 10) = FloatVal.fin (13421773 / 134217728) ∧
    roundFloat (1 / 3) = FloatVal.fin (11184811 / 33554432) ∧
    roundFloat 16777217 = FloatVal.fin 16777216 ∧
    roundFloat 16777218 = FloatVal.fin 16777218 ∧
    roundFloat 16777219 = FloatVal.fin 16777220 ∧
    roundFloat (-16777219) = FloatVal.fin (-16777220) ∧
    roundFloat (pow2 128 - pow2 104) = FloatVal.fin (pow2 128 - pow2 104) ∧
    roundFloat (pow2 128 - pow2 103 - 1) = FloatVal.fin (pow2 128 - pow2 104) ∧
    roundFloat (pow2 128 - pow2 103) = FloatVal.posInf ∧
    roundFloat (-pow2 128) = FloatVal.negInf ∧
    roundFloat (pow2 (-149)) = FloatVal.fin (pow2 (-149)) ∧
    roundFloat (pow2 (-150)) = FloatVal.fin 0 ∧
    roundFloat (3 * pow2 (-150)) = FloatVal.fin (pow2 (-148)) := by
  refine ⟨by decide!, by decide!, by decide!, by decide!, by decide!, by decide!, by decide!,
    by decide!, by decide!, by decide!, by decide!, by decide!, by decide!⟩

theorem pow2_of_nonpos (z : Int) (hz : z ≤ 0) :
    pow2 z = 1 / ((2 ^ (-z).toNat : Nat) : ℚ) := by
  unfold pow2
  split_ifs with h
  · have : z = 0 := by omega
    subst this
    norm_num
  · rfl

theorem pow2_128 : pow2 128 = 340282366920938463463374607431768211456 := by
  decide!

/-- A positive value that is a whole multiple of the spacing of the floats of
its exponent, below `2^128`, is a float: rounding returns it. -/
theorem roundFloat_of_multiple (q : ℚ) (hq : 0 < q) (u : ℚ) (m : Int)
    (hu : pow2 (max (binaryExponent q) (-126) - 23) = u) (hu0 : 0 < u)
    (hm : q = (m : ℚ) * u) (hlt : q < pow2 128) :
    roundFloat q = FloatVal.fin q := by
  unfold roundFloat
  rw [abs_of_pos hq, hu]
  have hdiv : q / u = (m : ℚ) := by
    rw [hm]
    field_simp
  rw [hdiv, roundHalfEven_intCast, ← hm, if_neg (ne_of_gt hq), if_neg (not_le.mpr hlt),
    if_pos hq]

theorem binaryExponent_natCast (n : Nat) (h : 0 < n) :
    binaryExponent (n : ℚ) = (bitLength n : Int) - 1 := by
  unfold binaryExponent
  have h1 : (1 : ℚ) ≤ (n : ℚ) := by exact_mod_cast h
  rw [if_pos h1, Int.floor_natCast, Int.toNat_natCast]

/-- The whole numbers from 0 to `2^24` are floats: the conversion to float
returns them unchanged. -/
theorem roundFloat_natCast (n : Nat) (hn : n ≤ 2 ^ 24) :
    roundFloat (n : ℚ) = FloatVal.fin (n : ℚ) := by
  rcases Nat.eq_zero_or_pos n with h0 | hpos
  · subst h0
    simp [roundFloat]
  rcases Nat.lt_or_ge n (2 ^ 24) with hlt | hge
  · obtain ⟨hb0, _, _⟩ := bitLength_spec n hpos
    have hb := bitLength_le n 24 hpos hlt
    have hq : (0 : ℚ) < (n : ℚ) := by exact_mod_cast hpos
    have hexp : max (binaryExponent (n : ℚ)) (-126) - 23 = (bitLength n : Int) - 24 := by
      rw [binaryExponent_natCast n hpos, max_eq_left (by omega)]
      ring
    have hk : (-((bitLength n : Int) - 24)).toNat = 24 - bitLength n := by omega
    have hu : pow2 (max (binaryExponent (n : ℚ)) (-126) - 23) =
        1 / ((2 ^ (24 - bitLength n) : Nat) : ℚ) := by
      rw [hexp, pow2_of_nonpos _ (by omega), hk]
    have h2 : (0 : ℚ) < ((2 ^ (24 - bitLength n) : Nat) : ℚ) := by positivity
    refine roundFloat_of_multiple (n : ℚ) hq _ ((n : Int) * ((2 ^ (24 - bitLength n) : Nat) : Int))
      hu (by positivity) ?_ ?_
    · push_cast
      field_simp
    · rw [pow2_128]
      have : (n : ℚ) < 2 ^ 24 := by exact_mod_cast hlt
      linarith
  · have : n = 2 ^ 24 := by omega
    subst this
    decide!

theorem intToFloat_of_nonneg (z : Int) (h0 : 0 ≤ z) (h : z ≤ 2 ^ 24) :
    intToFloat z = FloatVal.fin (z : ℚ) := by
  obtain ⟨n, rfl⟩ := Int.eq_ofNat_of_zero_le h0
  unfold intToFloat
  have hn : n ≤ 2 ^ 24 := by exact_mod_cast h
  have := roundFloat_natCast n hn
  simpa using this

theorem roundFloat_intCast (z : Int) (h0 : 0 ≤ z) (h : z ≤ 2 ^ 24) :
    roundFloat (z : ℚ) = FloatVal.fin (z : ℚ) :=
  intToFloat_of_nonneg z h0 h

theorem isFloat_intCast (z : Int) (h0 : 0 ≤ z) (h : z ≤ 2 ^ 24) : isFloat (z : ℚ) :=
  roundFloat_intCast z h0 h

theorem floatToInt_intCast (bits : Nat) (z : Int) (h1 : -(2 ^ (bits - 1) : Int) ≤ z)
    (h2 : z < (2 ^ (bits - 1) : Int)) :
    floatToInt bits (FloatVal.fin (z : ℚ)) = some z := by
  show (if -(2 ^ (bits - 1) : Int) ≤ truncQ (z : ℚ) ∧ truncQ (z : ℚ) < (2 ^ (bits - 1) : Int)
    then some (truncQ (z : ℚ)) else none) = some z
  rw [truncQ_intCast, if_pos ⟨h1, h2⟩]

theorem toInt64_intCast (z : Int) (h0 : 0 ≤ z) (h : z ≤ 2 ^ 24) :
    toInt64 (FloatVal.fin (z : ℚ)) = some z := by
  unfold toInt64
  apply floatToInt_intCast
  · norm_num; omega
  · norm_num; omega

theorem toInt_intCast (z : Int) (h0 : 0 ≤ z) (h : z ≤ 2 ^ 24) :
    toInt (FloatVal.fin (z : ℚ)) = some z := by
  unfold toInt
  apply floatToInt_intCast
  · norm_num; omega
  · norm_num; omega

theorem wrapInt32_of_nonneg (z : Int) (h0 : 0 ≤ z) (h : z < 2 ^ 31) : wrapInt32 z = z := by
  unfold wrapInt32
  omega

/-! ## Lemmas on estimateByCoverage -/

theorem foldl_sumLength (es : List GraphEdge) (s : Int) :
    es.foldl (fun s e => s + e.length) s = s + (es.map (fun e => e.length)).sum := by
  induction es generalizing s with
  | nil => simp
  | cons e es ih => simp only [List.foldl_cons, List.map_cons, List.sum_cons, ih]; ring

theorem sumLength_eq_sum (es : List GraphEdge) :
    sumLength es = (es.map (fun e => e.length)).sum := by
  unfold sumLength
  rw [foldl_sumLength]; simp

/-- One round of the accumulation is exact when the length is a float and the
product and the two sums are whole numbers from 0 to `2^24`. -/
theorem sumCovStep_exact (s k : Int) (e : GraphEdge) (hs : 0 ≤ s)
    (hl : isFloat (e.length : ℚ)) (hk : 0 ≤ k)
    (hprod : e.coverage * (e.length : ℚ) = (k : ℚ)) (hsum : s + k ≤ 2 ^ 24) :
    sumCovStep s e = some (s + k) := by
  have hlen : intToFloat e.length = FloatVal.fin (e.length : ℚ) := hl
  unfold sumCovStep
  rw [intToFloat_of_nonneg s hs (by omega), hlen]
  show toInt64 (fadd (FloatVal.fin (s : ℚ)) (roundFloat (e.coverage * (e.length : ℚ)))) = _
  rw [hprod, roundFloat_intCast k hk (by omega)]
  show toInt64 (roundFloat ((s : ℚ) + (k : ℚ))) = _
  rw [← Int.cast_add, roundFloat_intCast (s + k) (by omega) hsum,
    toInt64_intCast _ (by omega) hsum]

theorem floor_product_nonneg (e : GraphEdge) (hc : 0 ≤ e.coverage) (hl : 0 ≤ e.length) :
    0 ≤ ⌊e.coverage * (e.length : ℚ)⌋ :=
  Int.floor_nonneg.mpr (mul_nonneg hc (by exact_mod_cast hl))

theorem sum_floor_product_nonneg (es : List GraphEdge)
    (h : ∀ e ∈ es, 0 ≤ e.coverage ∧ 0 ≤ e.length) :
    0 ≤ (es.map (fun e => ⌊e.coverage * (e.length : ℚ)⌋)).sum := by
  apply List.sum_nonneg
  intro x hx
  obtain ⟨e, he, rfl⟩ := List.mem_map.mp hx
  exact floor_product_nonneg e (h e he).1 (h e he).2

theorem sumCovFrom_exact (es : List GraphEdge) (s : Int) (hs : 0 ≤ s)
    (h : ∀ e ∈ es, 0 ≤ e.coverage ∧ 0 ≤ e.length ∧ isFloat (e.length : ℚ) ∧
      ∃ k : Int, e.coverage * (e.length : ℚ) = (k : ℚ))
    (hsum : s + (es.map (fun e => ⌊e.coverage * (e.length : ℚ)⌋)).sum ≤ 2 ^ 24) :
    sumCovFrom s es = some (s + (es.map (fun e => ⌊e.coverage * (e.length : ℚ)⌋)).sum) := by
  induction es generalizing s with
  | nil => simp [sumCovFrom]
  | cons e es ih =>
    obtain ⟨hc, hl0, hl, k, hk⟩ := h e (List.mem_cons_self _ _)
    have htail : ∀ e' ∈ es, 0 ≤ e'.coverage ∧ 0 ≤ e'.length ∧ isFloat (e'.length : ℚ) ∧
        ∃ k : Int, e'.coverage * (e'.length : ℚ) = (k : ℚ) :=
      fun e' he' => h e' (List.mem_cons_of_mem _ he')
    have hfl : ⌊e.coverage * (e.length : ℚ)⌋ = k := by rw [hk, Int.floor_intCast]
    have hk0 : 0 ≤ k := by rw [← hfl]; exact floor_product_nonneg e hc hl0
    have hrest := sum_floor_product_nonneg es (fun e' he' => ⟨(htail e' he').1, (htail e' he').2.1⟩)
    simp only [List.map_cons, List.sum_cons, hfl] at hsum ⊢
    have hstep := sumCovStep_exact s k e hs hl hk0 hk (by omega)
    simp only [sumCovFrom, hstep]
    rw [ih (s + k) (by omega) htail (by omega)]
    congr 1
    ring

theorem cast_sum_floor_product (es : List GraphEdge)
    (h : ∀ e ∈ es, ∃ k : Int, e.coverage * (e.length : ℚ) = (k : ℚ)) :
    (((es.map (fun e => ⌊e.coverage * (e.length : ℚ)⌋)).sum : Int) : ℚ) =
      (es.map (fun e => e.coverage * (e.length : ℚ))).sum := by
  rw [Int.cast_list_sum, List.map_map]
  congr 1
  apply List.map_congr_left
  intro e he
  obtain ⟨k, hk⟩ := h e he
  simp only [Function.comp, hk, Int.floor_intCast]

theorem cast_sum_length (es : List GraphEdge) :
    (((es.map (fun e => e.length)).sum : Int) : ℚ) = (es.map (fun e => (e.length : ℚ))).sum := by
  rw [Int.cast_list_sum, List.map_map]
  rfl

/-- In the range where the float accumulation is exact (coverages and lengths
not negative, every length a float, every product coverage·length a whole
number, the products adding up to at most `2^24`), `sumCov` is the sum of the
products. -/
theorem sumCov_exact (es : List GraphEdge)
    (h : ∀ e ∈ es, 0 ≤ e.coverage ∧ 0 ≤ e.length ∧ isFloat (e.length : ℚ) ∧
      ∃ k : Int, e.coverage * (e.length : ℚ) = (k : ℚ))
    (hsum : (es.map (fun e => e.coverage * (e.length : ℚ))).sum ≤ 2 ^ 24) :
    sumCov es = some (es.map (fun e => ⌊e.coverage * (e.length : ℚ)⌋)).sum := by
  have hint : (es.map (fun e => ⌊e.coverage * (e.length : ℚ)⌋)).sum ≤ 2 ^ 24 := by
    have hc := cast_sum_floor_product es (fun e he => (h e he).2.2.2)
    rw [← hc] at hsum
    exact_mod_cast hsum
  unfold sumCov
  rw [sumCovFrom_exact es 0 le_rfl h (by omega)]
  simp

theorem meanCoverage_exact (es : List GraphEdge)
    (h : ∀ e ∈ es, 0 ≤ e.coverage ∧ 0 ≤ e.length ∧ isFloat (e.length : ℚ) ∧
      ∃ k : Int, e.coverage * (e.length : ℚ) = (k : ℚ))
    (hsum : (es.map (fun e => e.coverage * (e.length : ℚ))).sum ≤ 2 ^ 24) :
    meanCoverage es =
      some (if (es.map (fun e => e.length)).sum = 0 then 1 else ⌊specMeanCoverage es⌋) := by
  have hC := sumCov_exact es h hsum
  have hL := sumLength_eq_sum es
  have hcast := cast_sum_floor_product es (fun e he => (h e he).2.2.2)
  have hCnn := sum_floor_product_nonneg es (fun e he => ⟨(h e he).1, (h e he).2.1⟩)
  have hCle : (es.map (fun e => ⌊e.coverage * (e.length : ℚ)⌋)).sum ≤ 2 ^ 24 := by
    rw [← hcast] at hsum
    exact_mod_cast hsum
  have hLnn : 0 ≤ (es.map (fun e => e.length)).sum :=
    List.sum_nonneg (by
      intro x hx
      obtain ⟨e, he, rfl⟩ := List.mem_map.mp hx
      exact (h e he).2.1)
  unfold meanCoverage
  rw [hC, hL]
  dsimp only
  by_cases h0 : (es.map (fun e => e.length)).sum = 0
  · rw [if_neg (by simpa using h0), if_pos h0]
  · rw [if_pos h0, if_neg h0]
    have hdiv : Int.tdiv (es.map (fun e => ⌊e.coverage * (e.length : ℚ)⌋)).sum
          (es.map (fun e => e.length)).sum = ⌊specMeanCoverage es⌋ := by
      rw [Int.tdiv_eq_ediv hCnn hLnn]
      obtain ⟨d, hd⟩ := Int.eq_ofNat_of_zero_le hLnn
      unfold specMeanCoverage
      rw [← hcast, ← cast_sum_length, hd]
      exact (Rat.floor_intCast_div_natCast _ d).symm
    have hq0 : 0 ≤ Int.tdiv (es.map (fun e => ⌊e.coverage * (e.length : ℚ)⌋)).sum
          (es.map (fun e => e.length)).sum := by
      rw [Int.tdiv_eq_ediv hCnn hLnn]
      exact Int.ediv_nonneg hCnn hLnn
    have hqle : Int.tdiv (es.map (fun e => ⌊e.coverage * (e.length : ℚ)⌋)).sum
          (es.map (fun e => e.length)).sum ≤ 2 ^ 24 := by
      rw [Int.tdiv_eq_ediv hCnn hLnn]
      exact le_trans (Int.ediv_le_self _ hCnn) hCle
    rw [if_pos ⟨by omega, by omega⟩, wrapInt32_of_nonneg _ hq0 (by omega), hdiv]

theorem estimateEdges_eq_map (mean : Int) (f : GraphEdge → Int) (es : List GraphEdge)
    (h : ∀ e ∈ es, estMult mean e = some (f e)) :
    estimateEdges mean es = some (es.map (fun e => { e with multiplicity := f e })) := by
  induction es with
  | nil => rfl
  | cons e es ih =>
    have he := h e (List.mem_cons_self _ _)
    have ih' := ih (fun e' he' => h e' (List.mem_cons_of_mem _ he'))
    simp only [estimateEdges, he, ih', List.map_cons]

theorem estMult_isSome_of_estimateEdges (mean : Int) (es r : List GraphEdge)
    (h : estimateEdges mean es = some r) : ∀ e ∈ es, ∃ k, estMult mean e = some k := by
  induction es generalizing r with
  | nil => intro e he; cases he
  | cons a as ih =>
    intro e he
    unfold estimateEdges at h
    cases ha : estMult mean a with
    | none => simp [ha] at h
    | some k =>
      cases has : estimateEdges mean as with
      | none => simp [ha, has] at h
      | some r' =>
        rcases List.mem_cons.mp he with rfl | he'
        · exact ⟨k, ha⟩
        · exact ih r' has e he'

theorem estimateEdges_perm (mean : Int) (l₁ l₂ r₁ : List GraphEdge) (hperm : l₁.Perm l₂)
    (h : estimateEdges mean l₁ = some r₁) :
    ∃ r₂, estimateEdges mean l₂ = some r₂ ∧ r₁.Perm r₂ := by
  have hsome := estMult_isSome_of_estimateEdges mean l₁ r₁ h
  have hf : ∀ l : List GraphEdge, (∀ e ∈ l, ∃ k, estMult mean e = some k) →
      ∀ e ∈ l, estMult mean e = some ((estMult mean e).getD 0) := by
    intro l hl e he
    obtain ⟨k, hk⟩ := hl e he
    rw [hk]; rfl
  have h1 := estimateEdges_eq_map mean (fun e => (estMult mean e).getD 0) l₁ (hf l₁ hsome)
  have hsome₂ : ∀ e ∈ l₂, ∃ k, estMult mean e = some k :=
    fun e he => hsome e (hperm.mem_iff.mpr he)
  have h2 := estimateEdges_eq_map mean (fun e => (estMult mean e).getD 0) l₂ (hf l₂ hsome₂)
  refine ⟨_, h2, ?_⟩
  have hr : r₁ = l₁.map (fun e => { e with multiplicity := (estMult mean e).getD 0 }) := by
    rw [h1] at h; exact (Option.some.inj h).symm
  rw [hr]
  exact hperm.map _

theorem estMult_congr (mean : Int) (a b : GraphEdge) (hc : a.coverage = b.coverage)
    (ht : a.isTip = b.isTip) : estMult mean a = estMult mean b := by
  unfold estMult estFloat minMult
  rw [hc, ht]

theorem firstDivisor_ne_zero (edges : List GraphEdge) : firstDivisor edges ≠ some 0 := by
  unfold firstDivisor
  split_ifs with h
  · intro h0; exact h (Option.some.inj h0)
  · simp

theorem roundHalfAway_one : roundHalfAway 1 = 1 := by
  unfold roundHalfAway
  norm_num

/-- The estimate of an edge whose coverage is the mean, a whole number from 0
to `2^24`: the ratio is 1, or `0 / 0`, which `std::max` replaces by `minMult`. -/
theorem estMult_uniform (c : Int) (e : GraphEdge) (hc : e.coverage = (c : ℚ))
    (h0 : 0 ≤ c) (hle : c ≤ 2 ^ 24) :
    estMult c e = some (if c = 0 then (if e.isTip then 0 else 1) else 1) := by
  unfold estMult estFloat
  rw [intToFloat_of_nonneg c h0 hle, hc]
  by_cases hz : c = 0
  · subst hz
    rw [if_pos rfl]
    have : fdiv ((0 : Int) : ℚ) (FloatVal.fin ((0 : Int) : ℚ)) = FloatVal.nan := by
      simp [fdiv]
    rw [this]
    cases ht : e.isTip
    · have : fmax (minMult e) (froundf FloatVal.nan) = FloatVal.fin ((1 : Int) : ℚ) := by
        simp [fmax, fltFin, froundf, minMult, ht]
      rw [this, toInt_intCast 1 (by norm_num) (by norm_num)]
      rfl
    · have : fmax (minMult e) (froundf FloatVal.nan) = FloatVal.fin ((0 : Int) : ℚ) := by
        simp [fmax, fltFin, froundf, minMult, ht]
      rw [this, toInt_intCast 0 (by norm_num) (by norm_num)]
      rfl
  · rw [if_neg hz]
    have hq : ((c : Int) : ℚ) ≠ 0 := by exact_mod_cast hz
    have hdiv : fdiv ((c : Int) : ℚ) (FloatVal.fin ((c : Int) : ℚ)) =
        FloatVal.fin ((1 : Int) : ℚ) := by
      show (if ((c : Int) : ℚ) = 0 then _ else roundFloat (((c : Int) : ℚ) / ((c : Int) : ℚ))) = _
      rw [if_neg hq, div_self hq]
      have := roundFloat_intCast 1 (by norm_num) (by norm_num)
      simpa using this
    rw [hdiv]
    have : fmax (minMult e) (froundf (FloatVal.fin ((1 : Int) : ℚ))) =
        FloatVal.fin ((1 : Int) : ℚ) := by
      cases ht : e.isTip <;> simp [fmax, fltFin, froundf, minMult, ht, roundHalfAway_one]
    rw [this, toInt_intCast 1 (by norm_num) (by norm_num)]

/-! ## The claims on estimateByCoverage -/

/-- C5. The estimate formula `max(minMult, round(coverage / meanCoverage))`
with its bounds fails on the graph `lowCoverageGraph`: the mean coverage is
truncated to 0, the ratio of the first edge is `1 / 0 = +inf`, and the
conversion of `+inf` to `int` leaves the multiplicity without a defined value. -/
theorem estimate_undefined_at_zero_mean :
    meanCoverage lowCoverageGraph.edges = some 0 ∧
    estFloat 0 ⟨1, 1, 1, 0, false, false⟩ = FloatVal.posInf ∧
    estimateByCoverage lowCoverageGraph = none := by
  refine ⟨by decide!, by decide!, ?_⟩
  have hm : meanCoverage lowCoverageGraph.edges = some 0 := by decide!
  have h : estimateEdges 0 lowCoverageGraph.edges = none := by decide!
  unfold estimateByCoverage
  rw [hm]
  dsimp only
  rw [h]

/-- C6 (as stated, refuted). For two edges of length 1 and coverages 3 and 4
the total length is not zero and `meanCoverage` is 3, not the length-weighted
mean 7/2. -/
theorem meanCoverage_ne_weighted_mean :
    sumLength meanTruncationEdges ≠ 0 ∧
    meanCoverage meanTruncationEdges = some 3 ∧
    specMeanCoverage meanTruncationEdges = 7 / 2 ∧
    ((3 : Int) : ℚ) ≠ specMeanCoverage meanTruncationEdges := by
  decide!

theorem sumCovStep_zero_length (e : GraphEdge) (h : e.length = 0) :
    sumCovStep 0 e = some 0 := by
  have h0 : intToFloat 0 = FloatVal.fin 0 := by simp [intToFloat, roundFloat]
  have hr : roundFloat 0 = FloatVal.fin 0 := by simp [roundFloat]
  unfold sumCovStep
  rw [h, h0]
  show toInt64 (fadd (FloatVal.fin 0) (roundFloat (e.coverage * 0))) = some 0
  rw [mul_zero, hr]
  show toInt64 (roundFloat (0 + 0)) = some 0
  rw [add_zero, hr]
  have := toInt64_intCast 0 le_rfl (by norm_num)
  simpa using this

theorem sumCov_zero_lengths (es : List GraphEdge) (h : ∀ e ∈ es, e.length = 0) :
    sumCov es = some 0 := by
  unfold sumCov
  induction es with
  | nil => rfl
  | cons e es ih =>
    simp only [sumCovFrom, sumCovStep_zero_length e (h e (List.mem_cons_self _ _))]
    exact ih (fun e' he' => h e' (List.mem_cons_of_mem _ he'))

theorem lengths_zero_of_sum_zero (es : List GraphEdge) (hnn : ∀ e ∈ es, 0 ≤ e.length)
    (hsum : (es.map (fun e => e.length)).sum = 0) : ∀ e ∈ es, e.length = 0 := by
  induction es with
  | nil => intro e he; cases he
  | cons a as ih =>
    have ha := hnn a (List.mem_cons_self _ _)
    have hrest : 0 ≤ (as.map (fun e => e.length)).sum :=
      List.sum_nonneg (by
        intro x hx
        obtain ⟨e, he, rfl⟩ := List.mem_map.mp hx
        exact hnn e (List.mem_cons_of_mem _ he))
    simp only [List.map_cons, List.sum_cons] at hsum
    intro e he
    rcases List.mem_cons.mp he with rfl | he'
    · omega
    · exact ih (fun e' h' => hnn e' (List.mem_cons_of_mem _ h')) (by omega) e he'

/-- C6 (amended). For lengths that are not negative, `meanCoverage` is 1 when
the total length is 0. When the total length is not 0 and the float
accumulation of `sumCov` is exact (coverages not negative, every length a
float, every product coverage·length a whole number, the products adding up to
at most `2^24`), `meanCoverage` is the integer part of the length-weighted mean
`Σ(coverage·length) / Σ(length)`. -/
theorem meanCoverage_value (edges : List GraphEdge)
    (hlen : ∀ e ∈ edges, 0 ≤ e.length) :
    ((edges.map (fun e => e.length)).sum = 0 → meanCoverage edges = some 1) ∧
    ((edges.map (fun e => e.length)).sum ≠ 0 →
      (∀ e ∈ edges, 0 ≤ e.coverage ∧ isFloat (e.length : ℚ) ∧
        ∃ k : Int, e.coverage * (e.length : ℚ) = (k : ℚ)) →
      (edges.map (fun e => e.coverage * (e.length : ℚ))).sum ≤ 2 ^ 24 →
      meanCoverage edges = some ⌊specMeanCoverage edges⌋) := by
  constructor
  · intro h0
    have hz := sumCov_zero_lengths edges (lengths_zero_of_sum_zero edges hlen h0)
    unfold meanCoverage
    rw [hz, sumLength_eq_sum, h0]
    rfl
  · intro h0 h hsum
    rw [meanCoverage_exact edges
      (fun e he => ⟨(h e he).1, hlen e he, (h e he).2.1, (h e he).2.2⟩) hsum, if_neg h0]

theorem meanTruncationEdges_exact :
    ∀ e ∈ meanTruncationEdges, 0 ≤ e.coverage ∧ isFloat (e.length : ℚ) ∧
      ∃ k : Int, e.coverage * (e.length : ℚ) = (k : ℚ) := by
  intro e he
  simp only [meanTruncationEdges, List.mem_cons, List.mem_singleton, List.not_mem_nil,
    or_false] at he
  rcases he with rfl | rfl
  · exact ⟨by norm_num, by decide!, 3, by norm_num⟩
  · exact ⟨by norm_num, by decide!, 4, by norm_num⟩

/-- C6 (amended), at the two edges of coverages 3 and 4 and length 1: the
conditions hold and `meanCoverage` is `⌊7/2⌋ = 3`. -/
theorem meanCoverage_value_witness :
    (∀ e ∈ meanTruncationEdges, 0 ≤ e.length) ∧
    (meanTruncationEdges.map (fun e => e.length)).sum ≠ 0 ∧
    (∀ e ∈ meanTruncationEdges, 0 ≤ e.coverage ∧ isFloat (e.length : ℚ) ∧
      ∃ k : Int, e.coverage * (e.length : ℚ) = (k : ℚ)) ∧
    (meanTruncationEdges.map (fun e => e.coverage * (e.length : ℚ))).sum ≤ 2 ^ 24 ∧
    ⌊specMeanCoverage meanTruncationEdges⌋ = 3 ∧
    meanCoverage meanTruncationEdges = some ⌊specMeanCoverage meanTruncationEdges⌋ :=
  ⟨by decide, by decide, meanTruncationEdges_exact, by decide!, by decide!,
   (meanCoverage_value meanTruncationEdges (by decide)).2 (by decide)
     meanTruncationEdges_exact (by decide!)⟩

/-- Beyond the exact range the accumulation rounds. One edge of coverage 2 and
length `2^24 + 1`: the length is rounded to `2^24` when it is converted to
float, `sumCov` is `2^25` where the sum of the products is `2^25 + 2`, and
`meanCoverage` is 1 where the length-weighted mean is 2. -/
theorem meanCoverage_rounds_in_float :
    (∀ e ∈ longEdgeGraph.edges, 0 ≤ e.coverage ∧ 0 ≤ e.length ∧
      e.coverage * (e.length : ℚ) = 33554434) ∧
    intToFloat 16777217 = FloatVal.fin 16777216 ∧
    sumCov longEdgeGraph.edges = some 33554432 ∧
    meanCoverage longEdgeGraph.edges = some 1 ∧
    specMeanCoverage longEdgeGraph.edges = 2 := by
  decide!

/-- C7. On a single edge of coverage 0 and length 1 (coverages and lengths
non-negative, total length positive) the first division has the divisor 1 and
the second division, `(float)edge->coverage / meanCoverage`, has the divisor 0. -/
theorem second_division_by_zero :
    (∀ e ∈ zeroCoverageEdges, 0 ≤ e.coverage ∧ 0 ≤ e.length) ∧
    0 < sumLength zeroCoverageEdges ∧
    firstDivisor zeroCoverageEdges = some 1 ∧
    secondDivisor zeroCoverageEdges = some 0 := by
  decide!

theorem sum_uniform_product (c : ℚ) (es : List GraphEdge) (hc : ∀ e ∈ es, e.coverage = c) :
    (es.map (fun e => e.coverage * (e.length : ℚ))).sum =
      c * (((es.map (fun e => e.length)).sum : Int) : ℚ) := by
  induction es with
  | nil => simp
  | cons e es ih =>
    have he := hc e (List.mem_cons_self _ _)
    have ih' := ih (fun e' he' => hc e' (List.mem_cons_of_mem _ he'))
    simp only [List.map_cons, List.sum_cons, ih', he, Int.cast_add]
    ring

/-- C8 (as stated, refuted). A graph whose only edge, not a tip, has coverage
3/2 and length 1: all edges have the same coverage and the total length is
positive, yet `meanCoverage` is 1 and the edge gets multiplicity 2. -/
theorem uniform_fractional_coverage :
    (∀ e ∈ fractionalCoverageGraph.edges, e.coverage = 3 / 2 ∧ e.isTip = false) ∧
    0 < sumLength fractionalCoverageGraph.edges ∧
    meanCoverage fractionalCoverageGraph.edges = some 1 ∧
    ∃ g, estimateByCoverage fractionalCoverageGraph = some g ∧ g.multiplicity 0 = 2 := by
  refine ⟨by decide!, by decide!, by decide!, ?_⟩
  have hm : meanCoverage fractionalCoverageGraph.edges = some 1 := by decide!
  have h : estimateEdges 1 fractionalCoverageGraph.edges =
      some [⟨1, 1, 3 / 2, 2, false, false⟩] := by
    decide!
  unfold estimateByCoverage
  rw [hm]
  dsimp only
  rw [h]
  exact ⟨_, rfl, rfl⟩

/-- C8 (amended). When all edges have the same coverage `c`, a whole number
that is not negative, the lengths are not negative and are floats, the total
length is greater than 0 and `c` times the total length is at most `2^24`,
`estimateByCoverage` computes `meanCoverage == c`, has a defined result, and
assigns multiplicity 1 to every edge that is not a tip. -/
theorem uniform_integer_coverage (g : RepeatGraph) (c : Int) (hc0 : 0 ≤ c)
    (hc : ∀ e ∈ g.edges, e.coverage = (c : ℚ) ∧ 0 ≤ e.length ∧ isFloat (e.length : ℚ))
    (hlen : 0 < (g.edges.map (fun e => e.length)).sum)
    (hsum : c * (g.edges.map (fun e => e.length)).sum ≤ 2 ^ 24) :
    meanCoverage g.edges = some c ∧
    ∃ g', estimateByCoverage g = some g' ∧
      g'.edges.length = g.edges.length ∧
      ∀ i e, g.edges[i]? = some e → e.isTip = false → g'.multiplicity i = 1 := by
  have hprod := sum_uniform_product (c : ℚ) g.edges (fun e he => (hc e he).1)
  have hLq : (((g.edges.map (fun e => e.length)).sum : Int) : ℚ) ≠ 0 := by
    have : (g.edges.map (fun e => e.length)).sum ≠ 0 := by omega
    exact_mod_cast this
  have hmean : meanCoverage g.edges = some c := by
    rw [meanCoverage_exact g.edges
      (fun e he => ⟨by rw [(hc e he).1]; exact_mod_cast hc0, (hc e he).2.1, (hc e he).2.2,
        c * e.length, by rw [(hc e he).1, Int.cast_mul]⟩)
      (by rw [hprod]; exact_mod_cast hsum),
      if_neg (by omega)]
    unfold specMeanCoverage
    rw [hprod, ← cast_sum_length, mul_div_assoc, div_self hLq, mul_one, Int.floor_intCast]
  have hcle : c ≤ 2 ^ 24 := by nlinarith
  refine ⟨hmean, ?_⟩
  have hmap := estimateEdges_eq_map c
    (fun e => if c = 0 then (if e.isTip then 0 else 1) else 1) g.edges
    (fun e he => estMult_uniform c e (hc e he).1 hc0 hcle)
  unfold estimateByCoverage
  rw [hmean]
  dsimp only
  rw [hmap]
  refine ⟨_, rfl, by simp, ?_⟩
  intro i e hi htip
  simp only [RepeatGraph.multiplicity, List.getElem?_map, hi, Option.map_some', htip]
  split_ifs with h1 h2
  · exact absurd h2 id
  · rfl
  · rfl

/-- C8 (amended), at three edges of coverage 7 and lengths 2, 5 and 1. -/
theorem uniform_integer_coverage_witness :
    meanCoverage uniformCoverageGraph.edges = some 7 ∧
    ∃ g', estimateByCoverage uniformCoverageGraph = some g' ∧
      g'.edges.length = uniformCoverageGraph.edges.length ∧
      ∀ i e, uniformCoverageGraph.edges[i]? = some e → e.isTip = false →
        g'.multiplicity i = 1 :=
  uniform_integer_coverage uniformCoverageGraph 7 (by decide) (by decide!) (by decide)
    (by decide)

/-- A uniform whole coverage beyond the exact range. One edge, not a tip, of
coverage 2 and length `2^24 + 1`: the total length is positive, `meanCoverage`
is 1 and the edge gets multiplicity 2. -/
theorem uniform_coverage_long_edge :
    (∀ e ∈ longEdgeGraph.edges, e.coverage = 2 ∧ e.isTip = false) ∧
    0 < sumLength longEdgeGraph.edges ∧
    meanCoverage longEdgeGraph.edges = some 1 ∧
    ∃ g, estimateByCoverage longEdgeGraph = some g ∧ g.multiplicity 0 = 2 := by
  refine ⟨by decide!, by decide!, by decide!, ?_⟩
  have hm : meanCoverage longEdgeGraph.edges = some 1 := by decide!
  have h : estimateEdges 1 longEdgeGraph.edges =
      some [⟨1, 16777217, 2, 2, false, false⟩] := by
    decide!
  unfold estimateByCoverage
  rw [hm]
  dsimp only
  rw [h]
  exact ⟨_, rfl, rfl⟩

/-- C10 (as stated, refuted). Three edges of coverage 2, none a tip, of
lengths `2^24`, 1 and 1. Enumerated in this order, the two short edges add
nothing to the float sum `2^25`: `meanCoverage` is 1 and every edge gets
multiplicity 2. Enumerated in the reverse order the sum is exact:
`meanCoverage` is 2 and every edge gets multiplicity 1. -/
theorem estimate_order_dependent :
    longFirstEdges.reverse.Perm longFirstEdges ∧
    (∀ e ∈ longFirstEdges, 0 ≤ e.coverage ∧ 0 ≤ e.length) ∧
    sumCov longFirstEdges = some 33554432 ∧
    sumCov longFirstEdges.reverse = some 33554436 ∧
    meanCoverage longFirstEdges = some 1 ∧
    meanCoverage longFirstEdges.reverse = some 2 ∧
    estimateEdges 1 longFirstEdges =
      some [⟨1, 16777216, 2, 2, false, false⟩, ⟨2, 1, 2, 2, false, false⟩,
        ⟨3, 1, 2, 2, false, false⟩] ∧
    estimateEdges 2 longFirstEdges.reverse =
      some [⟨3, 1, 2, 1, false, false⟩, ⟨2, 1, 2, 1, false, false⟩,
        ⟨1, 16777216, 2, 1, false, false⟩] := by
  refine ⟨List.reverse_perm _, by decide!, by decide!, by decide!, by decide!, by decide!,
    by decide!, by decide!⟩

/-- C10 (amended). In the range where the float accumulation is exact
(coverages and lengths not negative, every length a float, every product
coverage·length a whole number, the products adding up to at most `2^24`) the
estimate does not depend on the order in which the edges are enumerated: for
two enumerations of the same edges `meanCoverage` is the same defined value,
the estimate of an edge is a function of its coverage and tip flag and of the
mean alone, and the edges written by one run are those written by the other. -/
theorem estimate_order_independent (l₁ l₂ : List GraphEdge) (hperm : l₁.Perm l₂)
    (h : ∀ e ∈ l₁, 0 ≤ e.coverage ∧ 0 ≤ e.length ∧ isFloat (e.length : ℚ) ∧
      ∃ k : Int, e.coverage * (e.length : ℚ) = (k : ℚ))
    (hsum : (l₁.map (fun e => e.coverage * (e.length : ℚ))).sum ≤ 2 ^ 24) :
    ∃ mean, meanCoverage l₁ = some mean ∧ meanCoverage l₂ = some mean ∧
      (∀ e e' : GraphEdge, e.coverage = e'.coverage → e.isTip = e'.isTip →
        estMult mean e = estMult mean e') ∧
      (∀ r₁, estimateEdges mean l₁ = some r₁ →
        ∃ r₂, estimateEdges mean l₂ = some r₂ ∧ r₁.Perm r₂) ∧
      (estimateEdges mean l₁ = none → estimateEdges mean l₂ = none) := by
  have h₂ : ∀ e ∈ l₂, 0 ≤ e.coverage ∧ 0 ≤ e.length ∧ isFloat (e.length : ℚ) ∧
      ∃ k : Int, e.coverage * (e.length : ℚ) = (k : ℚ) :=
    fun e he => h e (hperm.mem_iff.mpr he)
  have hs : (l₂.map (fun e => e.coverage * (e.length : ℚ))).sum =
      (l₁.map (fun e => e.coverage * (e.length : ℚ))).sum := ((hperm.map _).sum_eq).symm
  have hl : (l₂.map (fun e => e.length)).sum = (l₁.map (fun e => e.length)).sum :=
    ((hperm.map _).sum_eq).symm
  have hq : (l₂.map (fun e => (e.length : ℚ))).sum = (l₁.map (fun e => (e.length : ℚ))).sum :=
    ((hperm.map _).sum_eq).symm
  have hm₁ := meanCoverage_exact l₁ h hsum
  have hm₂ := meanCoverage_exact l₂ h₂ (by rw [hs]; exact hsum)
  have hspec : specMeanCoverage l₂ = specMeanCoverage l₁ := by
    unfold specMeanCoverage
    rw [hs, hq]
  rw [hl, hspec] at hm₂
  refine ⟨_, hm₁, hm₂, ?_, ?_, ?_⟩
  · intro e e' hcov htip
    exact estMult_congr _ e e' hcov htip
  · intro r₁ hr
    exact estimateEdges_perm _ l₁ l₂ r₁ hperm hr
  · intro hn
    cases h2 : estimateEdges _ l₂ with
    | none => rfl
    | some r₂ =>
      obtain ⟨r, hr, _⟩ := estimateEdges_perm _ l₂ l₁ r₂ hperm.symm h2
      rw [hn] at hr
      cases hr

/-- C10 (amended), at the two enumerations of the edges of coverages 3 and 4. -/
theorem estimate_order_independent_witness :
    (meanTruncationEdges.map (fun e => e.coverage * (e.length : ℚ))).sum ≤ 2 ^ 24 ∧
    ∃ mean, meanCoverage meanTruncationEdges = some mean ∧
      meanCoverage meanTruncationEdges.reverse = some mean ∧
      (∀ e e' : GraphEdge, e.coverage = e'.coverage → e.isTip = e'.isTip →
        estMult mean e = estMult mean e') ∧
      (∀ r₁, estimateEdges mean meanTruncationEdges = some r₁ →
        ∃ r₂, estimateEdges mean meanTruncationEdges.reverse = some r₂ ∧ r₁.Perm r₂) ∧
      (estimateEdges mean meanTruncationEdges = none →
        estimateEdges mean meanTruncationEdges.reverse = none) :=
  ⟨by decide!,
   estimate_order_independent meanTruncationEdges meanTruncationEdges.reverse
    (List.reverse_perm meanTruncationEdges).symm
    (by
      intro e he
      simp only [meanTruncationEdges, List.mem_cons, List.mem_singleton, List.not_mem_nil,
        or_false] at he
      rcases he with rfl | rfl
      · exact ⟨by norm_num, by norm_num, by decide!, 3, by norm_num⟩
      · exact ⟨by norm_num, by norm_num, by decide!, 4, by norm_num⟩)
    (by decide!)⟩

/-! ## The limits of the exact range -/

/-- The bound `2^24` on the sum of the products is the best one. Two edges of
coverage 1, not tips, of lengths `2^24` and 1: coverages and lengths are
floats, every product is a whole number and the products add up to `2^24 + 1`.
The float sum `2^24 + 1` is rounded to `2^24`, so `sumCov` is `2^24`,
`meanCoverage` is 0 where the length-weighted mean is 1, and the estimate
`1 / 0` of the edges has no defined value as an `int`. -/
theorem exact_range_is_tight :
    (∀ e ∈ unitCoverageGraph.edges, e.coverage = 1 ∧ e.isTip = false ∧ 0 ≤ e.length ∧
      isFloat (e.length : ℚ)) ∧
    (unitCoverageGraph.edges.map (fun e => e.coverage * (e.length : ℚ))).sum = 2 ^ 24 + 1 ∧
    sumCov unitCoverageGraph.edges = some 16777216 ∧
    meanCoverage unitCoverageGraph.edges = some 0 ∧
    specMeanCoverage unitCoverageGraph.edges = 1 ∧
    estimateByCoverage unitCoverageGraph = none := by
  refine ⟨by decide!, by decide!, by decide!, by decide!, by decide!, ?_⟩
  have hm : meanCoverage unitCoverageGraph.edges = some 0 := by decide!
  have h : estimateEdges 0 unitCoverageGraph.edges = none := by decide!
  unfold estimateByCoverage
  rw [hm]
  dsimp only
  rw [h]

/-- Products that are not whole numbers are truncated one by one. Two edges of
length 1 and coverages 3/2 and 1/2 (floats): `sumCov` is 1 where the products
add up to 2, and `meanCoverage` is 0 where the length-weighted mean is 1. -/
theorem fractional_products_truncated :
    (∀ e ∈ halfCoverageEdges, 0 ≤ e.coverage ∧ isFloat e.coverage ∧ 0 ≤ e.length ∧
      isFloat (e.length : ℚ)) ∧
    (halfCoverageEdges.map (fun e => e.coverage * (e.length : ℚ))).sum = 2 ∧
    sumCov halfCoverageEdges = some 1 ∧
    meanCoverage halfCoverageEdges = some 0 ∧
    specMeanCoverage halfCoverageEdges = 1 := by
  decide!

/-- With products that are not whole numbers the order of the edges matters
also for small sums. Two edges of length 1, of coverage `1 - 2^-24` and of
coverage 1: in this order `sumCov` is `0 + 1`, `meanCoverage` is 0 and the
estimates have no defined value; in the reverse order the float sum
`1 + (1 - 2^-24)` is rounded to 2, `meanCoverage` is 1 and both edges get
multiplicity 1. -/
theorem fractional_products_order_dependent :
    (∀ e ∈ nearOneEdges, 0 ≤ e.coverage ∧ isFloat e.coverage ∧ 0 ≤ e.length ∧
      isFloat (e.length : ℚ)) ∧
    (nearOneEdges.map (fun e => e.coverage * (e.length : ℚ))).sum ≤ 2 ^ 24 ∧
    meanCoverage nearOneEdges = some 0 ∧
    meanCoverage nearOneEdges.reverse = some 1 ∧
    estimateEdges 0 nearOneEdges = none ∧
    estimateEdges 1 nearOneEdges.reverse =
      some [⟨2, 1, 1, 1, false, false⟩, ⟨1, 1, 16777215 / 16777216, 1, false, false⟩] := by
  refine ⟨by decide!, by decide!, by decide!, by decide!, by decide!, by decide!⟩

/-- The quotient `sumCov / sumLength` is narrowed to the 32-bit `int`. One
edge of coverage 3000000000 and length 1: `sumCov` is 3000000000 and
`meanCoverage` is 3000000000 - 2^32; the ratio coverage / meanCoverage is
negative and the edge gets `minMult`. -/
theorem mean_narrowed_to_int :
    (∀ e ∈ highCoverageEdges, isFloat e.coverage ∧ isFloat (e.length : ℚ)) ∧
    sumCov highCoverageEdges = some 3000000000 ∧
    meanCoverage highCoverageEdges = some (-1294967296) ∧
    estimateEdges (-1294967296) highCoverageEdges =
      some [⟨1, 1, 3000000000, 1, false, false⟩] := by
  refine ⟨by decide!, by decide!, by decide!, by decide!⟩

/-- An estimate of `2^31` or more does not fit the `int` it is converted to:
with the mean 1, an edge of coverage `2^31` has the float estimate `2^31` and
no defined multiplicity, an edge of coverage `2^31 - 128` (the float just
below) gets that number. -/
theorem estimate_out_of_int_range :
    estFloat 1 ⟨1, 1, 2147483648, 0, false, false⟩ = FloatVal.fin 2147483648 ∧
    estMult 1 ⟨1, 1, 2147483648, 0, false, false⟩ = none ∧
    estMult 1 ⟨1, 1, 2147483520, 0, false, false⟩ = some 2147483520 := by
  refine ⟨by decide!, by decide!, by decide!⟩

/-! ## Lemmas on the canonical numbering -/

theorem edgesUpTo_succ (g : RepeatGraph) (k : Nat) :
    edgesUpTo g (k + 1) = enumEdgeStep g (edgesUpTo g k) k := by
  unfold edgesUpTo
  rw [List.range_succ, List.foldl_append]
  rfl

theorem enumerateEdges_eq (g : RepeatGraph) :
    enumerateEdges g = edgesUpTo g g.edges.length := rfl

theorem nodesUpTo_succ (g : RepeatGraph) (k : Nat) :
    nodesUpTo g (k + 1) = enumNodeStep g (nodesUpTo g k) k := by
  unfold nodesUpTo
  rw [List.range_succ, List.foldl_append]
  rfl

theorem enumerateNodes_eq (g : RepeatGraph) :
    enumerateNodes g = nodesUpTo g g.nodes.length := rfl

theorem enumEdgeStep_inv (g : RepeatGraph) (s : EdgeIds) (edge : Nat)
    (hedge : edge < g.edges.length) (h : EdgeIdsInv g s) :
    EdgeIdsInv g (enumEdgeStep g s edge) := by
  unfold enumEdgeStep
  by_cases hl : g.isLooped edge = true
  · rw [if_pos hl]; exact h
  · rw [if_neg hl]
    by_cases hc : s.edgeToId.count edge = true
    · rw [if_pos hc]; exact h
    · rw [if_neg hc]
      have hlf : g.isLooped edge = false := by simpa using hl
      refine ⟨by simp [h.count], ?_⟩
      intro j id hj
      simp only [IdTable.set] at hj
      have hnew : (s.idToEdge ++ [edge])[s.numberEdges]? = some edge := by
        rw [h.count]; simp
      by_cases h1 : j = g.complementEdge edge
      · rw [if_pos h1] at hj
        have hid : id = s.numberEdges := (Option.some.inj hj).symm
        exact ⟨edge, by rw [hid]; exact hnew, hlf, hedge, Or.inr h1⟩
      · rw [if_neg h1] at hj
        by_cases h2 : j = edge
        · rw [if_pos h2] at hj
          have hid : id = s.numberEdges := (Option.some.inj hj).symm
          exact ⟨edge, by rw [hid]; exact hnew, hlf, hedge, Or.inl h2⟩
        · rw [if_neg h2] at hj
          obtain ⟨r, hr, hrl, hrn, hrj⟩ := h.rep j id hj
          refine ⟨r, ?_, hrl, hrn, hrj⟩
          have hlt : id < s.idToEdge.length := by
            by_contra hge
            rw [List.getElem?_eq_none (not_lt.mp hge)] at hr
            cases hr
          rw [List.getElem?_append_left hlt]
          exact hr

theorem edgesUpTo_inv (g : RepeatGraph) (k : Nat) (hk : k ≤ g.edges.length) :
    EdgeIdsInv g (edgesUpTo g k) := by
  induction k with
  | zero =>
    refine ⟨rfl, ?_⟩
    intro j id hj
    cases hj
  | succ k ih =>
    rw [edgesUpTo_succ]
    exact enumEdgeStep_inv g _ k (by omega) (ih (by omega))

theorem enumEdgeStep_isSome (g : RepeatGraph) (s : EdgeIds) (edge j : Nat)
    (h : (s.edgeToId j).isSome = true) :
    ((enumEdgeStep g s edge).edgeToId j).isSome = true := by
  unfold enumEdgeStep
  split_ifs
  · exact h
  · exact h
  · simp only [IdTable.set]
    split_ifs <;> simp [h]

theorem enumEdgeStep_self (g : RepeatGraph) (s : EdgeIds) (edge : Nat)
    (hl : g.isLooped edge = false) :
    ((enumEdgeStep g s edge).edgeToId edge).isSome = true := by
  unfold enumEdgeStep
  rw [if_neg (by simp [hl])]
  by_cases hc : s.edgeToId.count edge = true
  · rw [if_pos hc]; exact hc
  · rw [if_neg hc]
    simp only [IdTable.set]
    split_ifs <;> simp

theorem edgesUpTo_isSome (g : RepeatGraph) (k j : Nat) (hj : j < k)
    (hl : g.isLooped j = false) : ((edgesUpTo g k).edgeToId j).isSome = true := by
  induction k with
  | zero => omega
  | succ k ih =>
    rw [edgesUpTo_succ]
    by_cases hjk : j = k
    · subst hjk
      exact enumEdgeStep_self g _ j hl
    · exact enumEdgeStep_isSome g _ k j (ih (by omega))

theorem enumEdgeStep_compl (g : RepeatGraph) (s : EdgeIds) (edge : Nat)
    (hinv : ∀ j, g.complementEdge (g.complementEdge j) = j)
    (h : ∀ j, s.edgeToId (g.complementEdge j) = s.edgeToId j) :
    ∀ j, (enumEdgeStep g s edge).edgeToId (g.complementEdge j) =
      (enumEdgeStep g s edge).edgeToId j := by
  intro j
  unfold enumEdgeStep
  split_ifs
  · exact h j
  · exact h j
  · simp only [IdTable.set]
    by_cases h1 : j = edge
    · subst h1
      simp
    · by_cases h2 : j = g.complementEdge edge
      · subst h2
        simp [hinv]
      · have h3 : g.complementEdge j ≠ g.complementEdge edge := by
          intro hc
          apply h1
          rw [← hinv j, hc, hinv]
        have h4 : g.complementEdge j ≠ edge := by
          intro hc
          apply h2
          rw [← hc, hinv]
        simp [h1, h2, h3, h4, h j]

theorem edgesUpTo_compl (g : RepeatGraph) (k : Nat)
    (hinv : ∀ j, g.complementEdge (g.complementEdge j) = j) :
    ∀ j, (edgesUpTo g k).edgeToId (g.complementEdge j) = (edgesUpTo g k).edgeToId j := by
  induction k with
  | zero => intro j; rfl
  | succ k ih =>
    rw [edgesUpTo_succ]
    exact enumEdgeStep_compl g _ k hinv ih

/-! ## Lemmas on the write-back -/

theorem writeBack_length (E : EdgeIds) (r : Solved) (i : Nat) (es : List GraphEdge) :
    (writeBack E r i es).length = es.length := by
  induction es generalizing i with
  | nil => rfl
  | cons e es ih => simp [writeBack, ih]

theorem writeBack_getElem? (E : EdgeIds) (r : Solved) (i j : Nat) (es : List GraphEdge)
    (e : GraphEdge) (h : es[j]? = some e) :
    ∃ e', (writeBack E r i es)[j]? = some e' ∧
      e'.multiplicity =
        (match E.edgeToId (i + j) with
          | some id => truncQ (r.value id)
          | none => e.multiplicity) := by
  induction es generalizing i j with
  | nil => simp at h
  | cons a as ih =>
    cases j with
    | zero =>
      simp only [List.getElem?_cons_zero, Option.some.injEq] at h
      subst h
      simp only [writeBack, List.getElem?_cons_zero, Nat.add_zero]
      cases hE : E.edgeToId i with
      | none => exact ⟨_, rfl, rfl⟩
      | some id =>
        refine ⟨_, rfl, ?_⟩
        dsimp only
        by_cases hne : a.multiplicity ≠ truncQ (r.value id)
        · rw [if_pos hne]
        · rw [if_neg hne]
          exact not_not.mp hne
    | succ j =>
      simp only [List.getElem?_cons_succ] at h
      obtain ⟨e', he', hm⟩ := ih (i + 1) j h
      refine ⟨e', ?_, ?_⟩
      · simp only [writeBack, List.getElem?_cons_succ]
        exact he'
      · rw [hm]
        have : i + 1 + j = i + (j + 1) := by omega
        rw [this]

/-- The multiplicity of an edge of the graph after the write-back. -/
theorem multiplicity_writeBack (g : RepeatGraph) (E : EdgeIds) (r : Solved) (j : Nat)
    (hj : j < g.edges.length) :
    RepeatGraph.multiplicity { g with edges := writeBack E r 0 g.edges } j =
      (match E.edgeToId j with
        | some id => truncQ (r.value id)
        | none => g.multiplicity j) := by
  have hsome : g.edges[j]? = some g.edges[j] := List.getElem?_eq_getElem hj
  obtain ⟨e', he', hm⟩ := writeBack_getElem? E r 0 j g.edges _ hsome
  simp only [RepeatGraph.multiplicity, he', hsome, hm, Nat.zero_add]

/-- The two ways `balanceGraph` can end. -/
theorem balanceGraph_cases (indep : List (List Int) → Bool) (solve : Simplex → Solved)
    (g : RepeatGraph) :
    ((!(solve (buildModel indep g)).has_solutions || (solve (buildModel indep g)).must_be_fixed
        || (solve (buildModel indep g)).is_unlimited) = true ∧
      (balanceGraph indep solve g).error = some "Error while solving LP" ∧
      (balanceGraph indep solve g).graph = g) ∨
    ((!(solve (buildModel indep g)).has_solutions || (solve (buildModel indep g)).must_be_fixed
        || (solve (buildModel indep g)).is_unlimited) = false ∧
      (balanceGraph indep solve g).error = none ∧
      (balanceGraph indep solve g).graph =
        { g with edges := writeBack (enumerateEdges g) (solve (buildModel indep g)) 0 g.edges }) := by
  unfold balanceGraph
  by_cases h : (!(solve (buildModel indep g)).has_solutions ||
      (solve (buildModel indep g)).must_be_fixed ||
      (solve (buildModel indep g)).is_unlimited) = true
  · left
    simp only [h, if_true, and_self]
  · right
    simp only [h, Bool.false_eq_true, if_false, and_self, and_true]

/-! ## Lemmas on coefficient rows -/

theorem dot_nil_right (row : List ℚ) : dot row [] = 0 := by
  unfold dot
  cases row <;> simp

theorem dot_cons_cons (a b : ℚ) (row x : List ℚ) :
    dot (a :: row) (b :: x) = a * b + dot row x := by
  unfold dot
  simp

theorem dot_replicate_zero (n : Nat) (x : List ℚ) : dot (List.replicate n 0) x = 0 := by
  induction n generalizing x with
  | zero => simp [dot]
  | succ n ih =>
    cases x with
    | nil => exact dot_nil_right _
    | cons b x => rw [List.replicate_succ, dot_cons_cons, ih]; simp

theorem dot_set (row : List ℚ) (i : Nat) (a : ℚ) (x : List ℚ) (hi : i < row.length) :
    dot (row.set i a) x = dot row x + (a - row.getD i 0) * x.getD i 0 := by
  induction row generalizing i x with
  | nil => simp at hi
  | cons b row ih =>
    cases x with
    | nil => simp [dot_nil_right]
    | cons y x =>
      cases i with
      | zero => simp [dot_cons_cons]; ring
      | succ i =>
        have hi' : i < row.length := by simpa using hi
        simp only [List.set_cons_succ, dot_cons_cons, ih i x hi', List.getD_cons_succ]
        ring

theorem getD_replicate_zero (n i : Nat) : (List.replicate n (0 : ℚ)).getD i 0 = 0 := by
  rw [List.getD_eq_getElem?_getD]
  by_cases h : i < n
  · simp [List.getElem?_replicate, h]
  · simp [List.getElem?_replicate, h]

theorem dot_unitRow (n i : Nat) (x : List ℚ) (hi : i < n) :
    dot (unitRow n i) x = x.getD i 0 := by
  unfold unitRow
  rw [dot_set _ _ _ _ (by simpa using hi), dot_replicate_zero, getD_replicate_zero]
  ring

theorem dot_append_zeros (row : List ℚ) (m : Nat) (x : List ℚ) :
    dot (row ++ List.replicate m 0) x = dot row x := by
  induction row generalizing x with
  | nil => simpa [dot] using dot_replicate_zero m x
  | cons a row ih =>
    cases x with
    | nil => simp [dot_nil_right]
    | cons b x => simp only [List.cons_append, dot_cons_cons, ih]

/-! ## Lemmas on the node loop -/

theorem nodeLoop_succ (indep : List (List Int) → Bool) (g : RepeatGraph) (E : EdgeIds)
    (N : NodeIds) (k : Nat) :
    nodeLoop indep g E N (k + 1) = nodeStep indep g E N (nodeLoop indep g E N k) k := by
  unfold nodeLoop
  rw [List.range_succ, List.foldl_append]
  rfl

theorem nodeStep_constraints_mono (indep : List (List Int) → Bool) (g : RepeatGraph)
    (E : EdgeIds) (N : NodeIds) (s : NodeLoop) (id : Nat) (c : Constraint)
    (h : c ∈ s.constraints) : c ∈ (nodeStep indep g E N s id).constraints := by
  unfold nodeStep
  dsimp only
  split_ifs <;> simp [h]

theorem nodeLoop_constraints_mono (indep : List (List Int) → Bool) (g : RepeatGraph)
    (E : EdgeIds) (N : NodeIds) (k n : Nat) (hkn : k ≤ n) (c : Constraint)
    (h : c ∈ (nodeLoop indep g E N k).constraints) :
    c ∈ (nodeLoop indep g E N n).constraints := by
  induction n with
  | zero =>
    have : k = 0 := by omega
    subst this; exact h
  | succ n ih =>
    by_cases hk : k = n + 1
    · subst hk; exact h
    · rw [nodeLoop_succ]
      exact nodeStep_constraints_mono indep g E N _ n c (ih (by omega))

theorem edgeConstraint_mem (indep : List (List Int) → Bool) (g : RepeatGraph) (id : Nat)
    (hid : id < (enumerateEdges g).numberEdges) :
    edgeConstraint g (enumerateEdges g)
        ((enumerateEdges g).numberEdges + (enumerateNodes g).numberNodes * 2) id ∈
      (buildModel indep g).constraints := by
  unfold buildModel
  dsimp only
  apply nodeLoop_constraints_mono indep g _ _ 0 _ (Nat.zero_le _)
  unfold nodeLoop
  simp only [List.range_zero, List.foldl_nil, List.mem_map, List.mem_range]
  exact ⟨id, hid, rfl⟩

/-! ## Lemmas on estimateByCoverage as a whole -/

theorem estimateByCoverage_eq (g g' : RepeatGraph) (h : estimateByCoverage g = some g') :
    ∃ mean, meanCoverage g.edges = some mean ∧
      g' = { g with edges := g.edges.map (fun e =>
        { e with multiplicity := (estMult mean e).getD 0 }) } := by
  unfold estimateByCoverage at h
  cases hmean : meanCoverage g.edges with
  | none => simp [hmean] at h
  | some mean =>
    refine ⟨mean, rfl, ?_⟩
    simp only [hmean] at h
    cases hes : estimateEdges mean g.edges with
    | none => simp [hes] at h
    | some es =>
      have hsome := estMult_isSome_of_estimateEdges _ _ _ hes
      have hmap := estimateEdges_eq_map mean
        (fun e => (estMult mean e).getD 0) g.edges
        (by
          intro e he
          obtain ⟨k, hk⟩ := hsome e he
          simp only [hk, Option.getD_some])
      rw [hmap] at h
      simp only [Option.some.injEq] at h
      exact h.symm

/-! ## The claims on balanceGraph -/

/-- C4. `balanceGraph` throws "Error while solving LP" exactly when the solver
reports no solution, or that the problem must be fixed, or that it is
unlimited; it throws nothing else; and when it throws, the graph, and with it
every multiplicity, is as it was before the call. -/
theorem lp_failure_fatal_atomic (indep : List (List Int) → Bool) (solve : Simplex → Solved)
    (g : RepeatGraph) :
    ((balanceGraph indep solve g).error = some "Error while solving LP" ↔
      ((solve (buildModel indep g)).has_solutions = false ∨
        (solve (buildModel indep g)).must_be_fixed = true ∨
        (solve (buildModel indep g)).is_unlimited = true)) ∧
    ((balanceGraph indep solve g).error = none ∨
      (balanceGraph indep solve g).error = some "Error while solving LP") ∧
    ((balanceGraph indep solve g).error ≠ none →
      (balanceGraph indep solve g).graph = g ∧
      ∀ e, (balanceGraph indep solve g).graph.multiplicity e = g.multiplicity e) := by
  rcases balanceGraph_cases indep solve g with ⟨hs, he, hg⟩ | ⟨hs, he, hg⟩
  · refine ⟨⟨fun _ => ?_, fun _ => he⟩, Or.inr he, fun _ => ⟨hg, fun e => by rw [hg]⟩⟩
    simpa [Bool.or_eq_true, or_assoc] using hs
  · refine ⟨⟨fun h => ?_, fun h => ?_⟩, Or.inl he, fun h => absurd he h⟩
    · rw [he] at h; cases h
    · exfalso
      have : (!(solve (buildModel indep g)).has_solutions ||
          (solve (buildModel indep g)).must_be_fixed ||
          (solve (buildModel indep g)).is_unlimited) = true := by
        simpa [Bool.or_eq_true, or_assoc] using h
      rw [hs] at this
      cases this

theorem swapComplement_involutive (j : Nat) : swapComplement (swapComplement j) = j := by
  by_cases h0 : j = 0
  · subst h0; decide
  · by_cases h1 : j = 1
    · subst h1; decide
    · simp [swapComplement, h0, h1]

theorem isLooped_map (g : RepeatGraph) (f : GraphEdge → Int) (j : Nat) :
    RepeatGraph.isLooped
      { g with edges := g.edges.map (fun e => { e with multiplicity := f e }) } j =
      g.isLooped j := by
  simp only [RepeatGraph.isLooped, List.getElem?_map]
  cases g.edges[j]? <;> rfl

theorem multiplicity_map (g : RepeatGraph) (f : GraphEdge → Int) (j : Nat) (a : GraphEdge)
    (h : g.edges[j]? = some a) :
    RepeatGraph.multiplicity
      { g with edges := g.edges.map (fun e => { e with multiplicity := f e }) } j = f a := by
  simp only [RepeatGraph.multiplicity, List.getElem?_map, h, Option.map_some']

/-- C1 (as stated, refuted). Two looped edges that are each other's complement,
with coverages 1 and 3: the complement relation is involutive, the full pass
returns without error, and the two edges end with multiplicities 1 and 2. -/
theorem looped_pair_not_symmetric :
    (∀ j, loopedPairGraph.complementEdge (loopedPairGraph.complementEdge j) = j) ∧
    ∃ out, fixEdgesMultiplicity rowsLinearlyIndependent (solvedWith []) loopedPairGraph = some out ∧
      out.error = none ∧
      out.graph.multiplicity 0 = 1 ∧
      out.graph.multiplicity (loopedPairGraph.complementEdge 0) = 2 := by
  refine ⟨swapComplement_involutive, ?_⟩
  have hm : meanCoverage loopedPairGraph.edges = some 2 := by decide!
  have h : estimateEdges 2 loopedPairGraph.edges =
      some [⟨1, 1, 1, 1, false, true⟩, ⟨-1, 1, 3, 2, false, true⟩] := by
    decide!
  unfold fixEdgesMultiplicity estimateByCoverage
  rw [hm]
  dsimp only
  rw [h]
  exact ⟨_, rfl, by decide, by decide, by decide⟩

/-- C1 (amended). With an involutive complement relation, after
`fixEdgesMultiplicity` returns (the estimate is defined and the solve
succeeds), an edge and its complement have the same multiplicity whenever one
of the two is not looped, or the two have the same coverage and tip flag. -/
theorem complement_symmetry (indep : List (List Int) → Bool) (solve : Simplex → Solved)
    (g : RepeatGraph) (out : Outcome)
    (hinv : ∀ j, g.complementEdge (g.complementEdge j) = j)
    (hrange : ∀ j, j < g.edges.length → g.complementEdge j < g.edges.length)
    (hfix : fixEdgesMultiplicity indep solve g = some out)
    (hok : out.error = none)
    (e : Nat) (he : e < g.edges.length)
    (hcase : g.isLooped e = false ∨ g.isLooped (g.complementEdge e) = false ∨
      ∃ a b, g.edges[e]? = some a ∧ g.edges[g.complementEdge e]? = some b ∧
        a.coverage = b.coverage ∧ a.isTip = b.isTip) :
    out.graph.multiplicity e = out.graph.multiplicity (g.complementEdge e) := by
  unfold fixEdgesMultiplicity at hfix
  cases hest : estimateByCoverage g with
  | none => simp [hest] at hfix
  | some g' =>
    simp only [hest, Option.some.injEq] at hfix
    obtain ⟨mean, _, hg'⟩ := estimateByCoverage_eq g g' hest
    have hlen : g'.edges.length = g.edges.length := by rw [hg']; simp
    have hcompl : g'.complementEdge = g.complementEdge := by rw [hg']
    have hloop : ∀ j, g'.isLooped j = g.isLooped j := by
      intro j; rw [hg']; exact isLooped_map g _ j
    rcases balanceGraph_cases indep solve g' with ⟨_, herr, _⟩ | ⟨_, _, hgraph⟩
    · rw [hfix, hok] at herr; cases herr
    · rw [hfix] at hgraph
      have he' : e < g'.edges.length := by omega
      have hce' : g.complementEdge e < g'.edges.length := by
        have := hrange e he; omega
      have hinv' : ∀ j, g'.complementEdge (g'.complementEdge j) = j := by
        rw [hcompl]; exact hinv
      have hsame := edgesUpTo_compl g' g'.edges.length hinv' e
      rw [← enumerateEdges_eq, hcompl] at hsame
      rw [hgraph, multiplicity_writeBack g' _ _ e he',
        multiplicity_writeBack g' _ _ (g.complementEdge e) hce', hsame]
      cases hE : (enumerateEdges g').edgeToId e with
      | some id => rfl
      | none =>
        dsimp only
        rcases hcase with h1 | h2 | ⟨a, b, ha, hb, hcov, htip⟩
        · have := edgesUpTo_isSome g' g'.edges.length e he' (by rw [hloop]; exact h1)
          rw [← enumerateEdges_eq, hE] at this
          cases this
        · have := edgesUpTo_isSome g' g'.edges.length (g.complementEdge e) hce'
            (by rw [hloop]; exact h2)
          rw [← enumerateEdges_eq, hsame, hE] at this
          cases this
        · rw [hg', multiplicity_map g _ e a ha, multiplicity_map g _ _ b hb,
            estMult_congr _ a b hcov htip]

/-- C1 (amended), at two edges of coverage 2 that are each other's complement. -/
theorem complement_symmetry_witness :
    (balanceGraph rowsLinearlyIndependent (solvedWith [1]) symmetricPairEstimated).graph.multiplicity 0 =
    (balanceGraph rowsLinearlyIndependent (solvedWith [1]) symmetricPairEstimated).graph.multiplicity
      (symmetricPairGraph.complementEdge 0) :=
  complement_symmetry rowsLinearlyIndependent (solvedWith [1]) symmetricPairGraph
    (balanceGraph rowsLinearlyIndependent (solvedWith [1]) symmetricPairEstimated)
    swapComplement_involutive
    (by
      intro j hj
      have hj2 : j < 2 := hj
      show swapComplement j < 2
      unfold swapComplement
      split_ifs <;> omega)
    (by
      have hm : meanCoverage symmetricPairGraph.edges = some 2 := by decide!
      have h : estimateEdges 2 symmetricPairGraph.edges =
          some [⟨1, 1, 2, 1, false, false⟩, ⟨-1, 1, 2, 1, false, false⟩] := by
        decide!
      unfold fixEdgesMultiplicity estimateByCoverage
      rw [hm]
      dsimp only
      rw [h]
      rfl)
    (by decide) 0 (by decide) (Or.inl (by decide))

theorem enumNodeStep_of_no_inEdges (g : RepeatGraph) (s : NodeIds) (node : Nat)
    (h : ∀ v ∈ g.nodes, v.inEdges = []) : enumNodeStep g s node = s := by
  unfold enumNodeStep
  cases hv : g.nodes[node]? with
  | none => rfl
  | some v =>
    have hmem : v ∈ g.nodes := List.getElem?_mem hv
    simp [h v hmem]

theorem nodesUpTo_of_no_inEdges (g : RepeatGraph) (k : Nat)
    (h : ∀ v ∈ g.nodes, v.inEdges = []) :
    nodesUpTo g k = ⟨IdTable.empty, [], 0⟩ := by
  induction k with
  | zero => rfl
  | succ k ih => rw [nodesUpTo_succ, ih]; exact enumNodeStep_of_no_inEdges g _ k h

/-- C9. For a graph with no edges (the incoming edges of its nodes being edges
of the graph), `estimateByCoverage` computes `meanCoverage == 1` and leaves the
graph as it is, and `balanceGraph` builds a model with no variable
(`numberEdges == 0`, `numberNodes == 0`), no constraint and an empty cost row,
and changes no multiplicity, whatever the solver reports. -/
theorem empty_graph_scenario (indep : List (List Int) → Bool) (solve : Simplex → Solved)
    (g : RepeatGraph) (hedges : g.edges = [])
    (hwf : ∀ v ∈ g.nodes, ∀ e ∈ v.inEdges, e < g.edges.length) :
    meanCoverage g.edges = some 1 ∧
    estimateByCoverage g = some g ∧
    (enumerateEdges g).numberEdges = 0 ∧
    (enumerateNodes g).numberNodes = 0 ∧
    (buildModel indep g).variableNames = [] ∧
    (buildModel indep g).constraints = [] ∧
    (buildModel indep g).costs = [] ∧
    (balanceGraph indep solve g).graph.edges = g.edges ∧
    ∀ e, (balanceGraph indep solve g).graph.multiplicity e = g.multiplicity e := by
  have hin : ∀ v ∈ g.nodes, v.inEdges = [] := by
    intro v hv
    cases hi : v.inEdges with
    | nil => rfl
    | cons a as =>
      have := hwf v hv a (by rw [hi]; exact List.mem_cons_self _ _)
      rw [hedges] at this
      simp at this
  have hE : enumerateEdges g = ⟨IdTable.empty, [], 0⟩ := by
    rw [enumerateEdges_eq, hedges]; rfl
  have hN : enumerateNodes g = ⟨IdTable.empty, [], 0⟩ := by
    rw [enumerateNodes_eq]; exact nodesUpTo_of_no_inEdges g _ hin
  have hgraph : (balanceGraph indep solve g).graph.edges = g.edges := by
    rcases balanceGraph_cases indep solve g with ⟨_, _, hg⟩ | ⟨_, _, hg⟩
    · rw [hg]
    · rw [hg, hedges]; rfl
  refine ⟨by rw [hedges]; rfl, ?_, by rw [hE], by rw [hN], ?_, ?_, ?_, hgraph, ?_⟩
  · have hm : meanCoverage g.edges = some 1 := by rw [hedges]; rfl
    unfold estimateByCoverage
    rw [hm]
    dsimp only
    rw [hedges]
    simp only [estimateEdges]
    cases g
    simp_all
  · unfold buildModel; rw [hE, hN]; rfl
  · unfold buildModel; rw [hE, hN]; rfl
  · unfold buildModel; rw [hE, hN]; rfl
  · intro e
    unfold RepeatGraph.multiplicity
    rw [hgraph]

/-- C9, at a graph with no edges and one node. -/
theorem empty_graph_scenario_witness :
    emptyGraph.edges = [] ∧
    meanCoverage emptyGraph.edges = some 1 ∧
    estimateByCoverage emptyGraph = some emptyGraph ∧
    (enumerateEdges emptyGraph).numberEdges = 0 ∧
    (enumerateNodes emptyGraph).numberNodes = 0 ∧
    (buildModel rowsLinearlyIndependent emptyGraph).variableNames = [] ∧
    (buildModel rowsLinearlyIndependent emptyGraph).constraints = [] ∧
    (buildModel rowsLinearlyIndependent emptyGraph).costs = [] ∧
    (balanceGraph rowsLinearlyIndependent (solvedWith []) emptyGraph).graph.edges =
      emptyGraph.edges ∧
    ∀ e, (balanceGraph rowsLinearlyIndependent (solvedWith []) emptyGraph).graph.multiplicity e =
      emptyGraph.multiplicity e :=
  ⟨rfl, empty_graph_scenario rowsLinearlyIndependent (solvedWith []) emptyGraph rfl
    (by decide)⟩

/-! ## Lemmas on the conservation rows -/

theorem addCoefficients_length (g : RepeatGraph) (E : EdgeIds) (d : Int)
    (coefficients : List Int) (es : List Nat) :
    (addCoefficients g E d coefficients es).length = coefficients.length := by
  induction es generalizing coefficients with
  | nil => rfl
  | cons e es ih =>
    unfold addCoefficients
    split_ifs
    · exact ih _
    · rw [ih]; simp

theorem nodeCoefficients_length (g : RepeatGraph) (E : EdgeIds) (v : GraphNode) :
    (nodeCoefficients g E v).length = E.numberEdges := by
  unfold nodeCoefficients
  rw [addCoefficients_length, addCoefficients_length, List.length_replicate]

theorem getD_append_replicate_zero (l : List ℚ) (m i : Nat) (hi : l.length ≤ i) :
    (l ++ List.replicate m 0).getD i 0 = 0 := by
  rw [List.getD_eq_getElem?_getD, List.getElem?_append_right hi]
  by_cases h : i - l.length < m
  · simp [List.getElem?_replicate, h]
  · simp [List.getElem?_replicate, h]

theorem coefMatrix_dot (numberEdges numVariables sourceId sinkId : Nat)
    (coefficients : List Int) (x : List ℚ) (hlen : coefficients.length = numberEdges)
    (hsrc : numberEdges ≤ sourceId) (hsink : sinkId = sourceId + 1)
    (hnv : sinkId < numVariables) :
    dot (coefMatrix numberEdges numVariables sourceId sinkId coefficients) x =
      dot (coefficients.map (fun (c : Int) => (c : ℚ))) x + x.getD sourceId 0 - x.getD sinkId 0 := by
  unfold coefMatrix
  have hbase : ((coefficients.map (fun (c : Int) => (c : ℚ))) ++
      List.replicate (numVariables - numberEdges) 0).length = numVariables := by
    simp [hlen]; omega
  have hmap : (coefficients.map (fun (c : Int) => (c : ℚ))).length = numberEdges := by simp [hlen]
  rw [dot_set _ _ _ _ (by rw [List.length_set, hbase]; exact hnv),
    dot_set _ _ _ _ (by rw [hbase]; omega), dot_append_zeros,
    getD_append_replicate_zero _ _ _ (by rw [hmap]; exact hsrc)]
  have hne : (((coefficients.map (fun (c : Int) => (c : ℚ))) ++
      List.replicate (numVariables - numberEdges) 0).set sourceId 1).getD sinkId 0 = 0 := by
    rw [List.getD_eq_getElem?_getD, List.getElem?_set_ne (by omega),
      ← List.getD_eq_getElem?_getD]
    exact getD_append_replicate_zero _ _ _ (by rw [hmap]; omega)
  rw [hne]
  ring

theorem node_constraints_mem (indep : List (List Int) → Bool) (g : RepeatGraph) (k : Nat)
    (hk : k < (enumerateNodes g).numberNodes) :
    (⟨unitRow ((enumerateEdges g).numberEdges + (enumerateNodes g).numberNodes * 2)
        ((enumerateEdges g).numberEdges + k * 2), ConstraintType.CT_MORE_EQUAL, 0⟩ : Constraint) ∈
      (buildModel indep g).constraints ∧
    (⟨unitRow ((enumerateEdges g).numberEdges + (enumerateNodes g).numberNodes * 2)
        ((enumerateEdges g).numberEdges + k * 2 + 1), ConstraintType.CT_MORE_EQUAL, 0⟩ :
        Constraint) ∈ (buildModel indep g).constraints ∧
    (rowAdmitted indep g k = true →
      (⟨coefMatrix (enumerateEdges g).numberEdges
          ((enumerateEdges g).numberEdges + (enumerateNodes g).numberNodes * 2)
          ((enumerateEdges g).numberEdges + k * 2) ((enumerateEdges g).numberEdges + k * 2 + 1)
          (match g.nodes[(enumerateNodes g).idToNode.getD k 0]? with
            | some v => nodeCoefficients g (enumerateEdges g) v
            | none => List.replicate (enumerateEdges g).numberEdges 0),
        ConstraintType.CT_EQUAL, 0⟩ : Constraint) ∈ (buildModel indep g).constraints) := by
  have hmono := fun c => nodeLoop_constraints_mono indep g (enumerateEdges g) (enumerateNodes g)
    (k + 1) (enumerateNodes g).numberNodes (by omega) c
  unfold buildModel
  dsimp only
  refine ⟨hmono _ ?_, hmono _ ?_, fun hadm => hmono _ ?_⟩
  · rw [nodeLoop_succ]
    unfold nodeStep
    dsimp only
    split_ifs <;> simp
  · rw [nodeLoop_succ]
    unfold nodeStep
    dsimp only
    split_ifs <;> simp
  · rw [nodeLoop_succ]
    unfold rowAdmitted at hadm
    dsimp only at hadm
    unfold nodeStep
    dsimp only
    rw [if_neg (by rw [hadm]; simp)]
    simp

theorem edgeToId_of_not_looped (g : RepeatGraph) (e : Nat) (he : e < g.edges.length)
    (hl : g.isLooped e = false) :
    ∃ id, (enumerateEdges g).edgeToId e = some id ∧ id < (enumerateEdges g).numberEdges := by
  have hsome := edgesUpTo_isSome g g.edges.length e he hl
  have hinv := edgesUpTo_inv g g.edges.length le_rfl
  rw [← enumerateEdges_eq] at hsome hinv
  cases hE : (enumerateEdges g).edgeToId e with
  | none => rw [hE] at hsome; cases hsome
  | some id =>
    refine ⟨id, rfl, ?_⟩
    obtain ⟨r, hr, _⟩ := hinv.rep e id hE
    rw [hinv.count]
    by_contra hge
    rw [List.getElem?_eq_none (not_lt.mp hge)] at hr
    cases hr

theorem fourEdgeComplement_involutive (j : Nat) :
    fourEdgeComplement (fourEdgeComplement j) = j := by
  by_cases h0 : j = 0
  · subst h0; decide
  · by_cases h1 : j = 1
    · subst h1; decide
    · by_cases h2 : j = 2
      · subst h2; decide
      · by_cases h3 : j = 3
        · subst h3; decide
        · simp [fourEdgeComplement, h0, h1, h2, h3]

/-- Without strand symmetry the complement node is not covered. In
`asymmetricNodesGraph` the nodes `V` and `V'` are complements of each other and
both are eligible; `V` is stored for the canonical id 0, which `V'` shares, and
its row is admitted. The values `asymmetricNodesSolution` satisfy every
constraint and no vector of six values that satisfies them costs less. The
solve succeeds and the id is not counted as unbalanced, yet at `V'` the
incoming multiplicity is 1 and the outgoing one is 5. -/
theorem complement_node_not_conserved :
    asymmetricNodesGraph.nodes[1]? = some ⟨[2], [3], [4, 5]⟩ ∧
    GraphNode.eligible ⟨[2], [3], [4, 5]⟩ = true ∧
    (enumerateNodes asymmetricNodesGraph).idToNode = [0] ∧
    (enumerateNodes asymmetricNodesGraph).nodeToId 1 = some 0 ∧
    rowAdmitted rowsLinearlyIndependent asymmetricNodesGraph 0 = true ∧
    (buildModel rowsLinearlyIndependent asymmetricNodesGraph).feasible
      asymmetricNodesSolution ∧
    (∀ x0 x1 x2 x3 x4 x5 : ℚ,
      (buildModel rowsLinearlyIndependent asymmetricNodesGraph).feasible
        [x0, x1, x2, x3, x4, x5] →
      (buildModel rowsLinearlyIndependent asymmetricNodesGraph).cost asymmetricNodesSolution ≤
        (buildModel rowsLinearlyIndependent asymmetricNodesGraph).cost
          [x0, x1, x2, x3, x4, x5]) ∧
    (balanceGraph rowsLinearlyIndependent (solvedWith asymmetricNodesSolution)
      asymmetricNodesGraph).error = none ∧
    countedUnbalanced (enumerateEdges asymmetricNodesGraph)
      (solvedWith asymmetricNodesSolution
        (buildModel rowsLinearlyIndependent asymmetricNodesGraph)) 0 = false ∧
    multiplicitySum (balanceGraph rowsLinearlyIndependent (solvedWith asymmetricNodesSolution)
      asymmetricNodesGraph).graph [2] = 1 ∧
    multiplicitySum (balanceGraph rowsLinearlyIndependent (solvedWith asymmetricNodesSolution)
      asymmetricNodesGraph).graph [3] = 5 := by
  have hcons : (buildModel rowsLinearlyIndependent asymmetricNodesGraph).constraints =
      [⟨[1, 0, 0, 0, 0, 0], ConstraintType.CT_MORE_EQUAL, 1⟩,
       ⟨[0, 1, 0, 0, 0, 0], ConstraintType.CT_MORE_EQUAL, 1⟩,
       ⟨[0, 0, 1, 0, 0, 0], ConstraintType.CT_MORE_EQUAL, 1⟩,
       ⟨[0, 0, 0, 1, 0, 0], ConstraintType.CT_MORE_EQUAL, 5⟩,
       ⟨[0, 0, 0, 0, 1, 0], ConstraintType.CT_MORE_EQUAL, 0⟩,
       ⟨[0, 0, 0, 0, 0, 1], ConstraintType.CT_MORE_EQUAL, 0⟩,
       ⟨[1, -1, 0, 0, 1, -1], ConstraintType.CT_EQUAL, 0⟩] := by
    decide!
  have hcosts : (buildModel rowsLinearlyIndependent asymmetricNodesGraph).costs =
      [1, 1, 1, 1, 1000, 1000] := by
    decide!
  refine ⟨by decide, by decide, by decide, by decide, by decide, by decide!, ?_, by decide,
    by decide!, by decide!, by decide!⟩
  intro x0 x1 x2 x3 x4 x5 h
  unfold Simplex.feasible at h
  rw [hcons] at h
  simp only [List.forall_mem_cons, List.not_mem_nil, false_implies, implies_true, and_true,
    Constraint.holds, dot, List.zipWith_cons_cons, List.zipWith_nil_left, List.sum_cons,
    List.sum_nil] at h
  obtain ⟨h0, h1, h2, h3, h4, h5, h6⟩ := h
  unfold Simplex.cost
  rw [hcosts]
  simp only [asymmetricNodesSolution, List.map_cons, List.map_nil, dot,
    List.zipWith_cons_cons, List.zipWith_nil_left, List.sum_cons, List.sum_nil]
  push_cast
  linarith

/-- A solver value that is not a whole number. In `invertedRepeatGraph` the
row of the junction is admitted; the values `invertedRepeatSolution` satisfy
every constraint and no vector of four values that satisfies them costs less.
The pair of incoming edges has the value 3/2, written back as 1: the junction
is not counted as unbalanced, its incoming multiplicities sum to 2 and the
outgoing one is 3. -/
theorem fractional_optimum_not_conserved :
    (buildModel rowsLinearlyIndependent invertedRepeatGraph).feasible invertedRepeatSolution ∧
    (∀ x0 x1 x2 x3 : ℚ,
      (buildModel rowsLinearlyIndependent invertedRepeatGraph).feasible [x0, x1, x2, x3] →
      (buildModel rowsLinearlyIndependent invertedRepeatGraph).cost invertedRepeatSolution ≤
        (buildModel rowsLinearlyIndependent invertedRepeatGraph).cost [x0, x1, x2, x3]) ∧
    (enumerateNodes invertedRepeatGraph).idToNode = [2] ∧
    rowAdmitted rowsLinearlyIndependent invertedRepeatGraph 0 = true ∧
    countedUnbalanced (enumerateEdges invertedRepeatGraph)
      (solvedWith invertedRepeatSolution
        (buildModel rowsLinearlyIndependent invertedRepeatGraph)) 0 = false ∧
    (balanceGraph rowsLinearlyIndependent (solvedWith invertedRepeatSolution)
      invertedRepeatGraph).error = none ∧
    multiplicitySum (balanceGraph rowsLinearlyIndependent (solvedWith invertedRepeatSolution)
      invertedRepeatGraph).graph [0, 1] = 2 ∧
    multiplicitySum (balanceGraph rowsLinearlyIndependent (solvedWith invertedRepeatSolution)
      invertedRepeatGraph).graph [2] = 3 := by
  have hcons : (buildModel rowsLinearlyIndependent invertedRepeatGraph).constraints =
      [⟨[1, 0, 0, 0], ConstraintType.CT_MORE_EQUAL, 1⟩,
       ⟨[0, 1, 0, 0], ConstraintType.CT_MORE_EQUAL, 3⟩,
       ⟨[0, 0, 1, 0], ConstraintType.CT_MORE_EQUAL, 0⟩,
       ⟨[0, 0, 0, 1], ConstraintType.CT_MORE_EQUAL, 0⟩,
       ⟨[2, -1, 1, -1], ConstraintType.CT_EQUAL, 0⟩] := by
    decide!
  have hcosts : (buildModel rowsLinearlyIndependent invertedRepeatGraph).costs =
      [1, 1, 1000, 1000] := by
    decide!
  refine ⟨by decide!, ?_, by decide, by decide, by decide!, by decide, by decide!, by decide!⟩
  intro x0 x1 x2 x3 h
  unfold Simplex.feasible at h
  rw [hcons] at h
  simp only [List.forall_mem_cons, List.not_mem_nil, false_implies, implies_true, and_true,
    Constraint.holds, dot, List.zipWith_cons_cons, List.zipWith_nil_left, List.sum_cons,
    List.sum_nil] at h
  obtain ⟨h0, h1, h2, h3, h4⟩ := h
  unfold Simplex.cost
  rw [hcosts]
  simp only [invertedRepeatSolution, dot, List.zipWith_cons_cons, List.zipWith_nil_left,
    List.sum_cons, List.sum_nil]
  linarith

/-! ## Further lemmas on the edge numbering -/

theorem enumEdgeStep_repId (g : RepeatGraph) (s : EdgeIds) (edge : Nat)
    (hcount : s.numberEdges = s.idToEdge.length)
    (hsym : ∀ j, s.edgeToId (g.complementEdge j) = s.edgeToId j)
    (h : ∀ id r, s.idToEdge[id]? = some r → s.edgeToId r = some id) :
    ∀ id r, (enumEdgeStep g s edge).idToEdge[id]? = some r →
      (enumEdgeStep g s edge).edgeToId r = some id := by
  unfold enumEdgeStep
  split_ifs with hl hc
  · exact h
  · exact h
  · intro id r hr
    have hnone : s.edgeToId edge = none := by
      simpa [IdTable.count] using hc
    have hnone' : s.edgeToId (g.complementEdge edge) = none := by rw [hsym]; exact hnone
    dsimp only at hr ⊢
    simp only [IdTable.set]
    by_cases hid : id < s.idToEdge.length
    · rw [List.getElem?_append_left hid] at hr
      have hold := h id r hr
      have h1 : r ≠ g.complementEdge edge := by
        intro heq; rw [heq, hnone'] at hold; cases hold
      have h2 : r ≠ edge := by
        intro heq; rw [heq, hnone] at hold; cases hold
      rw [if_neg h1, if_neg h2]
      exact hold
    · have hge : s.idToEdge.length ≤ id := not_lt.mp hid
      rw [List.getElem?_append_right hge] at hr
      have hz : id - s.idToEdge.length = 0 := by
        by_contra hne
        obtain ⟨m, hm⟩ := Nat.exists_eq_succ_of_ne_zero hne
        rw [hm] at hr
        simp at hr
      rw [hz] at hr
      simp only [List.getElem?_cons_zero, Option.some.injEq] at hr
      subst hr
      have hidv : id = s.numberEdges := by omega
      rw [hidv]
      by_cases h1 : edge = g.complementEdge edge
      · rw [if_pos h1]
      · rw [if_neg h1, if_pos rfl]

theorem edgesUpTo_repId (g : RepeatGraph) (k : Nat) (hk : k ≤ g.edges.length)
    (hinv : ∀ j, g.complementEdge (g.complementEdge j) = j) :
    ∀ id r, (edgesUpTo g k).idToEdge[id]? = some r → (edgesUpTo g k).edgeToId r = some id := by
  induction k with
  | zero => intro id r hr; simp [edgesUpTo] at hr
  | succ k ih =>
    rw [edgesUpTo_succ]
    exact enumEdgeStep_repId g _ k (edgesUpTo_inv g k (by omega)).count
      (edgesUpTo_compl g k hinv) (ih (by omega))

theorem edgeToId_none_of_looped (g : RepeatGraph) (j : Nat)
    (hnl : ∀ e, e < g.edges.length → g.isLooped e = false →
      g.isLooped (g.complementEdge e) = false)
    (hj : g.isLooped j = true) : (enumerateEdges g).edgeToId j = none := by
  have hI := edgesUpTo_inv g g.edges.length le_rfl
  rw [← enumerateEdges_eq] at hI
  cases hE : (enumerateEdges g).edgeToId j with
  | none => rfl
  | some id =>
    obtain ⟨r, _, hrl, hrn, hrj⟩ := hI.rep j id hE
    rcases hrj with rfl | rfl
    · rw [hrl] at hj; cases hj
    · rw [hnl r hrn hrl] at hj; cases hj

theorem lt_length_of_isLooped (g : RepeatGraph) (j : Nat) (hj : g.isLooped j = true) :
    j < g.edges.length := by
  by_contra h
  unfold RepeatGraph.isLooped at hj
  rw [List.getElem?_eq_none (not_lt.mp h)] at hj
  cases hj

theorem addCoefficients_filter_looped (g : RepeatGraph) (E : EdgeIds) (d : Int) (j : Nat)
    (hj : g.isLooped j = true) (coefficients : List Int) (es : List Nat) :
    addCoefficients g E d coefficients (es.filter (fun e => decide (e ≠ j))) =
      addCoefficients g E d coefficients es := by
  induction es generalizing coefficients with
  | nil => rfl
  | cons e es ih =>
    by_cases he : e = j
    · subst he
      simp only [List.filter_cons, ne_eq, not_true_eq_false, decide_False, Bool.false_eq_true,
        if_false]
      rw [ih]
      conv_rhs => unfold addCoefficients
      rw [if_pos hj]
    · simp only [List.filter_cons, ne_eq, he, not_false_eq_true, decide_True, if_true]
      unfold addCoefficients
      split_ifs
      · exact ih _
      · exact ih _

/-! ## The claims on the write-back and on looped edges -/

theorem edgesUpTo_rep_not_looped (g : RepeatGraph) (k : Nat) :
    ∀ (i r : Nat), (edgesUpTo g k).idToEdge[i]? = some r → g.isLooped r = false := by
  induction k with
  | zero => intro i r hr; simp [edgesUpTo] at hr
  | succ k ih =>
    intro i r hr
    rw [edgesUpTo_succ] at hr
    unfold enumEdgeStep at hr
    split_ifs at hr with hl hc
    · exact ih i r hr
    · exact ih i r hr
    · dsimp only at hr
      by_cases hi : i < (edgesUpTo g k).idToEdge.length
      · rw [List.getElem?_append_left hi] at hr
        exact ih i r hr
      · rw [List.getElem?_append_right (not_lt.mp hi)] at hr
        have hmem' : r ∈ [k] := List.getElem?_mem hr
        simp only [List.mem_singleton] at hmem'
        subst hmem'
        simpa using hl

/-- C18 (as stated, refuted). In `loopedComplementGraph` the looped edge at
position 1 is the complement of the edge at position 0, which is not looped:
the looped edge gets the id 0 of the pair, and a successful `balanceGraph` with
the solver value 1 changes its multiplicity from 5 to 1. -/
theorem looped_complement_overwritten :
    loopedComplementGraph.isLooped 1 = true ∧
    (∀ j, loopedComplementGraph.complementEdge (loopedComplementGraph.complementEdge j) = j) ∧
    (enumerateEdges loopedComplementGraph).edgeToId 1 = some 0 ∧
    (buildModel rowsLinearlyIndependent loopedComplementGraph).feasible
      (solvedWith [1] (buildModel rowsLinearlyIndependent loopedComplementGraph)).solution ∧
    (balanceGraph rowsLinearlyIndependent (solvedWith [1]) loopedComplementGraph).error = none ∧
    loopedComplementGraph.multiplicity 1 = 5 ∧
    (balanceGraph rowsLinearlyIndependent (solvedWith [1])
      loopedComplementGraph).graph.multiplicity 1 = 1 :=
  ⟨by decide, swapComplement_involutive, by decide, by decide!, by decide, by decide, by decide⟩

/-- C18 (amended). When the complement of an edge that is not looped is never
looped, every looped edge keeps its multiplicity through `balanceGraph`,
whether the call succeeds or throws; it has no id, so no variable, and is the
representative of no id; and the coefficients built for a node are those built
without the edge among the incoming and outgoing edges. -/
theorem looped_edges_untouched (indep : List (List Int) → Bool) (solve : Simplex → Solved)
    (g : RepeatGraph)
    (hnl : ∀ e, e < g.edges.length → g.isLooped e = false →
      g.isLooped (g.complementEdge e) = false)
    (j : Nat) (hj : g.isLooped j = true) :
    (balanceGraph indep solve g).graph.multiplicity j = g.multiplicity j ∧
    (enumerateEdges g).edgeToId j = none ∧
    j ∉ (enumerateEdges g).idToEdge ∧
    ∀ v : GraphNode, nodeCoefficients g (enumerateEdges g) v =
      nodeCoefficients g (enumerateEdges g)
        ⟨v.inEdges.filter (fun e => decide (e ≠ j)), v.outEdges.filter (fun e => decide (e ≠ j)),
          v.neighbors⟩ := by
  have hnone := edgeToId_none_of_looped g j hnl hj
  refine ⟨?_, hnone, ?_, ?_⟩
  · rcases balanceGraph_cases indep solve g with ⟨_, _, hg⟩ | ⟨_, _, hg⟩
    · rw [hg]
    · rw [hg, multiplicity_writeBack g _ _ j (lt_length_of_isLooped g j hj), hnone]
  · intro hmem
    obtain ⟨id, hid⟩ := List.mem_iff_getElem?.mp hmem
    have := edgesUpTo_rep_not_looped g g.edges.length id j (by rw [← enumerateEdges_eq]; exact hid)
    rw [this] at hj
    cases hj
  · intro v
    unfold nodeCoefficients
    dsimp only
    rw [addCoefficients_filter_looped g _ 1 j hj, addCoefficients_filter_looped g _ (-1) j hj]

/-- C18 (amended), at the loop at `P` of `sourceSinkGraph`. -/
theorem looped_edges_untouched_witness :
    sourceSinkGraph.isLooped 3 = true ∧
    ((balanceGraph rowsLinearlyIndependent (solvedWith sourceSinkSolution)
        sourceSinkGraph).graph.multiplicity 3 = sourceSinkGraph.multiplicity 3 ∧
    (enumerateEdges sourceSinkGraph).edgeToId 3 = none ∧
    3 ∉ (enumerateEdges sourceSinkGraph).idToEdge ∧
    ∀ v : GraphNode, nodeCoefficients sourceSinkGraph (enumerateEdges sourceSinkGraph) v =
      nodeCoefficients sourceSinkGraph (enumerateEdges sourceSinkGraph)
        ⟨v.inEdges.filter (fun e => decide (e ≠ 3)), v.outEdges.filter (fun e => decide (e ≠ 3)),
          v.neighbors⟩) :=
  ⟨by decide,
   looped_edges_untouched rowsLinearlyIndependent (solvedWith sourceSinkSolution) sourceSinkGraph
    (fun e _ h => h) 3 (by decide)⟩

theorem nodeRow_length (g : RepeatGraph) (E : EdgeIds) (N : NodeIds) (id : Nat) :
    (nodeRow g E N id).length = E.numberEdges := by
  unfold nodeRow
  cases g.nodes[N.idToNode.getD id 0]? with
  | none => simp
  | some v => exact nodeCoefficients_length g E v

theorem ite_not_bool {α : Type} (b : Bool) (x y : α) :
    (if (!b) = true then x else y) = if b = true then y else x := by
  cases b <;> rfl

theorem rowAdmitted_eq (indep : List (List Int) → Bool) (g : RepeatGraph) (k : Nat) :
    rowAdmitted indep g k =
      indep ((nodeLoop indep g (enumerateEdges g) (enumerateNodes g) k).incorporatedEquations ++
        [nodeRow g (enumerateEdges g) (enumerateNodes g) k]) := rfl

theorem nodeStep_eq (indep : List (List Int) → Bool) (g : RepeatGraph) (E : EdgeIds)
    (N : NodeIds) (s : NodeLoop) (id : Nat) :
    nodeStep indep g E N s id =
      if indep (s.incorporatedEquations ++ [nodeRow g E N id]) = true then
        { variableNames := s.variableNames ++ [toString id ++ "_source", toString id ++ "_sink"]
          constraints := s.constraints ++
            [nonNegative (E.numberEdges + N.numberNodes * 2) (E.numberEdges + id * 2),
             nonNegative (E.numberEdges + N.numberNodes * 2) (E.numberEdges + id * 2 + 1)] ++
            [nodeEquality g E N id]
          incorporatedEquations := s.incorporatedEquations ++ [nodeRow g E N id] }
      else
        { variableNames := s.variableNames ++ [toString id ++ "_source", toString id ++ "_sink"]
          constraints := s.constraints ++
            [nonNegative (E.numberEdges + N.numberNodes * 2) (E.numberEdges + id * 2),
             nonNegative (E.numberEdges + N.numberNodes * 2) (E.numberEdges + id * 2 + 1)]
          incorporatedEquations := s.incorporatedEquations } := by
  unfold nodeStep
  dsimp only
  exact ite_not_bool _ _ _

/-- Every constraint of the model is a lower bound of an edge variable, the
sign constraint of a slack variable, or the equality of an admitted row. -/
theorem nodeLoop_constraints_cases (indep : List (List Int) → Bool) (g : RepeatGraph)
    (E : EdgeIds) (N : NodeIds) (k : Nat) (c : Constraint)
    (h : c ∈ (nodeLoop indep g E N k).constraints) :
    (∃ i, i < E.numberEdges ∧ c = edgeConstraint g E (E.numberEdges + N.numberNodes * 2) i) ∨
    (∃ n, n < k ∧ (c = nonNegative (E.numberEdges + N.numberNodes * 2) (E.numberEdges + n * 2) ∨
      c = nonNegative (E.numberEdges + N.numberNodes * 2) (E.numberEdges + n * 2 + 1) ∨
      (indep ((nodeLoop indep g E N n).incorporatedEquations ++ [nodeRow g E N n]) = true ∧
        c = nodeEquality g E N n))) := by
  induction k with
  | zero =>
    left
    unfold nodeLoop at h
    simp only [List.range_zero, List.foldl_nil, List.mem_map, List.mem_range] at h
    obtain ⟨i, hi, rfl⟩ := h
    exact ⟨i, hi, rfl⟩
  | succ k ih =>
    rw [nodeLoop_succ, nodeStep_eq] at h
    have hlift : ((∃ i, i < E.numberEdges ∧
          c = edgeConstraint g E (E.numberEdges + N.numberNodes * 2) i) ∨
        (∃ n, n < k ∧ (c = nonNegative (E.numberEdges + N.numberNodes * 2)
            (E.numberEdges + n * 2) ∨
          c = nonNegative (E.numberEdges + N.numberNodes * 2) (E.numberEdges + n * 2 + 1) ∨
          (indep ((nodeLoop indep g E N n).incorporatedEquations ++ [nodeRow g E N n]) = true ∧
            c = nodeEquality g E N n)))) →
        ((∃ i, i < E.numberEdges ∧
          c = edgeConstraint g E (E.numberEdges + N.numberNodes * 2) i) ∨
        (∃ n, n < k + 1 ∧ (c = nonNegative (E.numberEdges + N.numberNodes * 2)
            (E.numberEdges + n * 2) ∨
          c = nonNegative (E.numberEdges + N.numberNodes * 2) (E.numberEdges + n * 2 + 1) ∨
          (indep ((nodeLoop indep g E N n).incorporatedEquations ++ [nodeRow g E N n]) = true ∧
            c = nodeEquality g E N n)))) := by
      rintro (h1 | ⟨n, hn, h2⟩)
      · exact Or.inl h1
      · exact Or.inr ⟨n, by omega, h2⟩
    split_ifs at h with hadm
    · simp only [List.mem_append, List.mem_cons, List.mem_singleton, List.not_mem_nil,
        or_false] at h
      rcases h with (h | h | h) | h
      · exact hlift (ih h)
      · exact Or.inr ⟨k, by omega, Or.inl h⟩
      · exact Or.inr ⟨k, by omega, Or.inr (Or.inl h)⟩
      · exact Or.inr ⟨k, by omega, Or.inr (Or.inr ⟨hadm, h⟩)⟩
    · simp only [List.mem_append, List.mem_cons, List.mem_singleton, List.not_mem_nil,
        or_false] at h
      rcases h with h | h | h
      · exact hlift (ih h)
      · exact Or.inr ⟨k, by omega, Or.inl h⟩
      · exact Or.inr ⟨k, by omega, Or.inr (Or.inl h)⟩

theorem nodeLoop_variableNames (indep : List (List Int) → Bool) (g : RepeatGraph)
    (E : EdgeIds) (N : NodeIds) (k : Nat) :
    (nodeLoop indep g E N k).variableNames.length = E.numberEdges + k * 2 ∧
    (∀ i, i < E.numberEdges →
      (nodeLoop indep g E N k).variableNames[i]? = some (edgeVarName g E i)) ∧
    (∀ n, n < k →
      (nodeLoop indep g E N k).variableNames[E.numberEdges + n * 2]? =
        some (toString n ++ "_source") ∧
      (nodeLoop indep g E N k).variableNames[E.numberEdges + n * 2 + 1]? =
        some (toString n ++ "_sink")) := by
  induction k with
  | zero =>
    refine ⟨by simp [nodeLoop], ?_, fun n hn => absurd hn (Nat.not_lt_zero n)⟩
    intro i hi
    simp [nodeLoop, List.getElem?_range hi]
  | succ k ih =>
    obtain ⟨hlen, hedge, hnode⟩ := ih
    have hnames : (nodeLoop indep g E N (k + 1)).variableNames =
        (nodeLoop indep g E N k).variableNames ++
          [toString k ++ "_source", toString k ++ "_sink"] := by
      rw [nodeLoop_succ, nodeStep_eq]
      split_ifs <;> rfl
    rw [hnames]
    refine ⟨by simp [hlen]; omega, ?_, ?_⟩
    · intro i hi
      rw [List.getElem?_append_left (by omega)]
      exact hedge i hi
    · intro n hn
      by_cases hnk : n < k
      · rw [List.getElem?_append_left (by omega), List.getElem?_append_left (by omega)]
        exact hnode n hnk
      · have hnk' : n = k := by omega
        subst hnk'
        rw [List.getElem?_append_right (by omega), List.getElem?_append_right (by omega)]
        have e1 : E.numberEdges + n * 2 - (nodeLoop indep g E N n).variableNames.length = 0 := by
          omega
        have e2 : E.numberEdges + n * 2 + 1 -
            (nodeLoop indep g E N n).variableNames.length = 1 := by omega
        rw [e1, e2]
        exact ⟨rfl, rfl⟩

theorem unitRow_length (n i : Nat) : (unitRow n i).length = n := by
  simp [unitRow]

theorem unitRow_getD (n i j : Nat) (hi : i < n) :
    (unitRow n i).getD j 0 = if j = i then 1 else 0 := by
  unfold unitRow
  rw [List.getD_eq_getElem?_getD]
  by_cases hji : j = i
  · subst hji
    rw [List.getElem?_set_self (by simpa using hi), if_pos rfl]
    rfl
  · rw [List.getElem?_set_ne (Ne.symm hji), if_neg hji, ← List.getD_eq_getElem?_getD]
    exact getD_replicate_zero n j

theorem coefMatrix_length (numberEdges numVariables sourceId sinkId : Nat)
    (coefficients : List Int) (hlen : coefficients.length = numberEdges)
    (hle : numberEdges ≤ numVariables) :
    (coefMatrix numberEdges numVariables sourceId sinkId coefficients).length = numVariables := by
  simp [coefMatrix, hlen]
  omega

theorem coefMatrix_getD (numberEdges numVariables sourceId sinkId : Nat)
    (coefficients : List Int) (hlen : coefficients.length = numberEdges)
    (hsrc : numberEdges ≤ sourceId) (hsink : sinkId = sourceId + 1)
    (hnv : sinkId < numVariables) (j : Nat) :
    (coefMatrix numberEdges numVariables sourceId sinkId coefficients).getD j 0 =
      if j = sourceId then 1 else if j = sinkId then -1
      else if j < numberEdges then ((coefficients.getD j 0 : Int) : ℚ) else 0 := by
  unfold coefMatrix
  have hbase : ((coefficients.map (fun (c : Int) => (c : ℚ))) ++
      List.replicate (numVariables - numberEdges) 0).length = numVariables := by
    simp [hlen]; omega
  rw [List.getD_eq_getElem?_getD]
  by_cases h2 : j = sinkId
  · subst h2
    rw [List.getElem?_set_self (by rw [List.length_set, hbase]; exact hnv),
      if_neg (by omega), if_pos rfl]
    rfl
  · rw [List.getElem?_set_ne (Ne.symm h2)]
    by_cases h1 : j = sourceId
    · subst h1
      rw [List.getElem?_set_self (by rw [hbase]; omega), if_pos rfl]
      rfl
    · rw [List.getElem?_set_ne (Ne.symm h1), if_neg h1, if_neg h2]
      by_cases h3 : j < numberEdges
      · rw [if_pos h3, List.getElem?_append_left (by simpa [hlen] using h3),
          List.getElem?_map, List.getD_eq_getElem?_getD]
        cases coefficients[j]? <;> simp
      · rw [if_neg h3, ← List.getD_eq_getElem?_getD]
        exact getD_append_replicate_zero _ _ _ (by simp [hlen]; omega)

theorem costs_getElem? (numberEdges numVariables i : Nat) (hi : i < numVariables) :
    (costs numberEdges numVariables)[i]? = some (if i < numberEdges then 1 else 1000) := by
  unfold costs
  rw [List.getElem?_map, List.getElem?_range hi]
  rfl

theorem model_rows_length (indep : List (List Int) → Bool) (g : RepeatGraph) (c : Constraint)
    (hc : c ∈ (buildModel indep g).constraints) :
    c.coefficients.length =
      (enumerateEdges g).numberEdges + (enumerateNodes g).numberNodes * 2 := by
  unfold buildModel at hc
  dsimp only at hc
  rcases nodeLoop_constraints_cases indep g _ _ _ c hc with
    ⟨i, _, rfl⟩ | ⟨n, hn, rfl | rfl | ⟨_, rfl⟩⟩
  · exact unitRow_length _ _
  · exact unitRow_length _ _
  · exact unitRow_length _ _
  · exact coefMatrix_length _ _ _ _ _ (nodeRow_length g _ _ n) (by omega)

/-- C14. `balanceGraph` declares `E + 2N` variables, the cost row and every
constraint row have `E + 2N` columns, and declaration order and columns agree:
the variable declared at position `i < E` is named after the edge of canonical
id `i`, its lower bound has its only coefficient in column `i` and its cost 1
is in column `i`; for a canonical node id `n` the source slack is declared at
position `E + 2n` and the sink slack at `E + 2n + 1`, their sign constraints
and their costs 1000 are in these columns, and the equality of an admitted row
has `+1` and `-1` there. -/
theorem variable_layout (indep : List (List Int) → Bool) (g : RepeatGraph) :
    (buildModel indep g).variableNames.length =
      (enumerateEdges g).numberEdges + (enumerateNodes g).numberNodes * 2 ∧
    (buildModel indep g).costs.length =
      (enumerateEdges g).numberEdges + (enumerateNodes g).numberNodes * 2 ∧
    (∀ c ∈ (buildModel indep g).constraints, c.coefficients.length =
      (enumerateEdges g).numberEdges + (enumerateNodes g).numberNodes * 2) ∧
    (∀ i, i < (enumerateEdges g).numberEdges →
      (buildModel indep g).variableNames[i]? = some (edgeVarName g (enumerateEdges g) i) ∧
      (buildModel indep g).costs[i]? = some 1 ∧
      ∃ c ∈ (buildModel indep g).constraints, c.type = ConstraintType.CT_MORE_EQUAL ∧
        c.value = ((g.multiplicity ((enumerateEdges g).idToEdge.getD i 0) : Int) : ℚ) ∧
        ∀ j, c.coefficients.getD j 0 = if j = i then 1 else 0) ∧
    (∀ n, n < (enumerateNodes g).numberNodes →
      (buildModel indep g).variableNames[(enumerateEdges g).numberEdges + n * 2]? =
        some (toString n ++ "_source") ∧
      (buildModel indep g).variableNames[(enumerateEdges g).numberEdges + n * 2 + 1]? =
        some (toString n ++ "_sink") ∧
      (buildModel indep g).costs[(enumerateEdges g).numberEdges + n * 2]? = some 1000 ∧
      (buildModel indep g).costs[(enumerateEdges g).numberEdges + n * 2 + 1]? = some 1000 ∧
      (∃ c ∈ (buildModel indep g).constraints, c.type = ConstraintType.CT_MORE_EQUAL ∧
        c.value = 0 ∧
        ∀ j, c.coefficients.getD j 0 =
          if j = (enumerateEdges g).numberEdges + n * 2 then 1 else 0) ∧
      (∃ c ∈ (buildModel indep g).constraints, c.type = ConstraintType.CT_MORE_EQUAL ∧
        c.value = 0 ∧
        ∀ j, c.coefficients.getD j 0 =
          if j = (enumerateEdges g).numberEdges + n * 2 + 1 then 1 else 0) ∧
      (rowAdmitted indep g n = true →
        ∃ c ∈ (buildModel indep g).constraints, c.type = ConstraintType.CT_EQUAL ∧
          c.coefficients.getD ((enumerateEdges g).numberEdges + n * 2) 0 = 1 ∧
          c.coefficients.getD ((enumerateEdges g).numberEdges + n * 2 + 1) 0 = -1)) := by
  have hnames := nodeLoop_variableNames indep g (enumerateEdges g) (enumerateNodes g)
    (enumerateNodes g).numberNodes
  refine ⟨hnames.1, by simp [buildModel, costs], fun c hc => model_rows_length indep g c hc,
    ?_, ?_⟩
  · intro i hi
    refine ⟨hnames.2.1 i hi, ?_, _, edgeConstraint_mem indep g i hi, rfl, rfl, ?_⟩
    · show (costs _ _)[i]? = some 1
      rw [costs_getElem? _ _ _ (by omega), if_pos hi]
    · intro j
      exact unitRow_getD _ _ _ (by omega)
  · intro n hn
    obtain ⟨hsrc, hsink, heq⟩ := node_constraints_mem indep g n hn
    refine ⟨(hnames.2.2 n hn).1, (hnames.2.2 n hn).2, ?_, ?_, ⟨_, hsrc, rfl, rfl, ?_⟩,
      ⟨_, hsink, rfl, rfl, ?_⟩, ?_⟩
    · show (costs _ _)[_]? = some 1000
      rw [costs_getElem? _ _ _ (by omega), if_neg (by omega)]
    · show (costs _ _)[_]? = some 1000
      rw [costs_getElem? _ _ _ (by omega), if_neg (by omega)]
    · intro j
      exact unitRow_getD _ _ _ (by omega)
    · intro j
      exact unitRow_getD _ _ _ (by omega)
    · intro hadm
      refine ⟨_, heq hadm, rfl, ?_, ?_⟩
      · show (coefMatrix _ _ _ _ (nodeRow g _ _ n)).getD _ 0 = 1
        rw [coefMatrix_getD _ _ _ _ _ (nodeRow_length g _ _ n) (by omega) rfl (by omega),
          if_pos rfl]
      · show (coefMatrix _ _ _ _ (nodeRow g _ _ n)).getD _ 0 = -1
        rw [coefMatrix_getD _ _ _ _ _ (nodeRow_length g _ _ n) (by omega) rfl (by omega),
          if_neg (by omega), if_pos rfl]

/-! ## The dependent-row scenario -/

/-- The chain whose edges are their own complements: two edge variables, and
the row `[1, -1]` of the middle node is admitted. -/
theorem chain_scenario_self_complement :
    rowsLinearlyIndependent [[1, -1]] = true ∧
    (enumerateEdges unitChain).numberEdges = 2 ∧
    nodeRow unitChain (enumerateEdges unitChain) (enumerateNodes unitChain) 0 = [1, -1] ∧
    rowAdmitted rowsLinearlyIndependent unitChain 0 = true ∧
    (buildModel rowsLinearlyIndependent unitChain).constraints =
      [⟨[1, 0, 0, 0], ConstraintType.CT_MORE_EQUAL, ((1 : Int) : ℚ)⟩,
       ⟨[0, 1, 0, 0], ConstraintType.CT_MORE_EQUAL, ((1 : Int) : ℚ)⟩,
       ⟨[0, 0, 1, 0], ConstraintType.CT_MORE_EQUAL, 0⟩,
       ⟨[0, 0, 0, 1], ConstraintType.CT_MORE_EQUAL, 0⟩,
       ⟨[1, -1, 1, -1], ConstraintType.CT_EQUAL, 0⟩] := by
  refine ⟨by decide, by decide, by decide, by decide, by decide!⟩

/-- The two chains side by side. In `unitChain` the row `[1, -1]` of the
middle node is admitted and the model has its equality; in `pairedChain` the
row `[0]` of the middle node is discarded and the model has no equality. In
neither is a row built for the third node. -/
theorem chain_models :
    rowAdmitted rowsLinearlyIndependent unitChain 0 = true ∧
    equalityCount (buildModel rowsLinearlyIndependent unitChain).constraints = 1 ∧
    rowAdmitted rowsLinearlyIndependent pairedChain 0 = false ∧
    equalityCount (buildModel rowsLinearlyIndependent pairedChain).constraints = 0 ∧
    (enumerateNodes unitChain).idToNode = [1] ∧
    (enumerateNodes pairedChain).idToNode = [1] := by
  decide

/-! ## The claims on the canonical numbering -/

theorem getD_of_getElem? (l : List Nat) (i r : Nat) (h : l[i]? = some r) : l.getD i 0 = r := by
  rw [List.getD_eq_getElem?_getD, h]; rfl

theorem lt_length_of_getElem? (l : List Nat) (i r : Nat) (h : l[i]? = some r) :
    i < l.length := by
  by_contra hge
  rw [List.getElem?_eq_none (not_lt.mp hge)] at h
  cases h

/-- C12. With an involutive edge complement relation that preserves `isLooped`
(and maps edges of the graph to edges of the graph), after the edge
enumeration `edgeToId` is defined exactly on the edges that are not looped, its
values are exactly `0 .. numberEdges - 1`, two edges that are not looped have
the same id if and only if they are equal or complements of each other, and
`numberEdges` is the number of strand pairs of edges that are not looped. -/
theorem edge_numbering (g : RepeatGraph)
    (hinv : ∀ j, g.complementEdge (g.complementEdge j) = j)
    (hloop : ∀ j, j < g.edges.length → g.isLooped (g.complementEdge j) = g.isLooped j)
    (hrange : ∀ j, j < g.edges.length → g.complementEdge j < g.edges.length) :
    (∀ j, ((enumerateEdges g).edgeToId j).isSome = true ↔
      (j < g.edges.length ∧ g.isLooped j = false)) ∧
    (∀ j id, (enumerateEdges g).edgeToId j = some id → id < (enumerateEdges g).numberEdges) ∧
    (∀ id, id < (enumerateEdges g).numberEdges →
      ∃ j, j < g.edges.length ∧ g.isLooped j = false ∧
        (enumerateEdges g).edgeToId j = some id) ∧
    (∀ a b, a < g.edges.length → b < g.edges.length → g.isLooped a = false →
      g.isLooped b = false →
      ((enumerateEdges g).edgeToId a = (enumerateEdges g).edgeToId b ↔
        (b = a ∨ b = g.complementEdge a))) ∧
    (enumerateEdges g).numberEdges = (strandPairs g).card := by
  have hI := edgesUpTo_inv g g.edges.length le_rfl
  have hR := edgesUpTo_repId g g.edges.length le_rfl hinv
  have hS := edgesUpTo_compl g g.edges.length hinv
  have hD := fun j hj hl => edgesUpTo_isSome g g.edges.length j hj hl
  rw [← enumerateEdges_eq] at hI hR hS hD
  have hval : ∀ j id, (enumerateEdges g).edgeToId j = some id →
      id < (enumerateEdges g).numberEdges := by
    intro j id hj
    obtain ⟨r, hr, _⟩ := hI.rep j id hj
    rw [hI.count]
    exact lt_length_of_getElem? _ _ _ hr
  have hpair : ∀ r, ({g.complementEdge r, g.complementEdge (g.complementEdge r)} : Finset Nat) =
      {r, g.complementEdge r} := by
    intro r
    rw [hinv, Finset.pair_comm]
  refine ⟨?_, hval, ?_, ?_, ?_⟩
  · intro j
    constructor
    · intro hj
      cases hE : (enumerateEdges g).edgeToId j with
      | none => rw [hE] at hj; cases hj
      | some id =>
        obtain ⟨r, _, hrl, hrn, hrj⟩ := hI.rep j id hE
        rcases hrj with rfl | rfl
        · exact ⟨hrn, hrl⟩
        · exact ⟨hrange r hrn, by rw [hloop r hrn]; exact hrl⟩
    · rintro ⟨hj, hl⟩
      exact hD j hj hl
  · intro id hid
    have hlt : id < (enumerateEdges g).idToEdge.length := by rw [← hI.count]; exact hid
    have hr : (enumerateEdges g).idToEdge[id]? = some ((enumerateEdges g).idToEdge[id]) :=
      List.getElem?_eq_getElem hlt
    have hre := hR id _ hr
    obtain ⟨r', hr', hrl, hrn, _⟩ := hI.rep _ id hre
    rw [hr] at hr'
    rw [← Option.some.inj hr'] at hrl hrn
    exact ⟨_, hrn, hrl, hre⟩
  · intro a b ha hb hla hlb
    constructor
    · intro hab
      have hsa := hD a ha hla
      cases hE : (enumerateEdges g).edgeToId a with
      | none => rw [hE] at hsa; cases hsa
      | some id =>
        obtain ⟨r, hr, _, _, hra⟩ := hI.rep a id hE
        obtain ⟨r', hr', _, _, hrb⟩ := hI.rep b id (by rw [← hab]; exact hE)
        rw [hr] at hr'
        have hrr : r' = r := (Option.some.inj hr').symm
        subst hrr
        rcases hra with rfl | rfl <;> rcases hrb with rfl | rfl
        · exact Or.inl rfl
        · exact Or.inr rfl
        · exact Or.inr (hinv _).symm
        · exact Or.inl rfl
    · rintro (rfl | rfl)
      · rfl
      · exact (hS a).symm
  · have himg : strandPairs g = (Finset.range (enumerateEdges g).numberEdges).image
        (fun id => ({(enumerateEdges g).idToEdge.getD id 0,
          g.complementEdge ((enumerateEdges g).idToEdge.getD id 0)} : Finset Nat)) := by
      unfold strandPairs
      ext x
      simp only [Finset.mem_image, Finset.mem_filter, Finset.mem_range]
      constructor
      · rintro ⟨a, ⟨ha, hla⟩, rfl⟩
        have hsa := hD a ha hla
        cases hE : (enumerateEdges g).edgeToId a with
        | none => rw [hE] at hsa; cases hsa
        | some id =>
          obtain ⟨r, hr, _, _, hra⟩ := hI.rep a id hE
          refine ⟨id, hval a id hE, ?_⟩
          rw [getD_of_getElem? _ _ _ hr]
          rcases hra with rfl | rfl
          · rfl
          · exact (hpair r).symm
      · rintro ⟨id, hid, rfl⟩
        have hlt : id < (enumerateEdges g).idToEdge.length := by rw [← hI.count]; exact hid
        have hr : (enumerateEdges g).idToEdge[id]? = some ((enumerateEdges g).idToEdge[id]) :=
          List.getElem?_eq_getElem hlt
        obtain ⟨r', hr', hrl, hrn, _⟩ := hI.rep _ id (hR id _ hr)
        rw [hr] at hr'
        rw [← Option.some.inj hr'] at hrl hrn
        exact ⟨_, ⟨hrn, hrl⟩, by rw [getD_of_getElem? _ _ _ hr]⟩
    rw [himg, Finset.card_image_of_injOn, Finset.card_range]
    intro i hi j hj hij
    simp only [Finset.coe_range, Set.mem_Iio] at hi hj
    have hli : i < (enumerateEdges g).idToEdge.length := by rw [← hI.count]; exact hi
    have hlj : j < (enumerateEdges g).idToEdge.length := by rw [← hI.count]; exact hj
    have hri : (enumerateEdges g).idToEdge[i]? = some ((enumerateEdges g).idToEdge[i]) :=
      List.getElem?_eq_getElem hli
    have hrj : (enumerateEdges g).idToEdge[j]? = some ((enumerateEdges g).idToEdge[j]) :=
      List.getElem?_eq_getElem hlj
    dsimp only at hij
    rw [getD_of_getElem? _ _ _ hri, getD_of_getElem? _ _ _ hrj] at hij
    have hmem : (enumerateEdges g).idToEdge[j] ∈
        ({(enumerateEdges g).idToEdge[i], g.complementEdge ((enumerateEdges g).idToEdge[i])} :
          Finset Nat) := by
      rw [hij]; simp
    have hidi := hR i _ hri
    have hidj := hR j _ hrj
    simp only [Finset.mem_insert, Finset.mem_singleton] at hmem
    rcases hmem with h | h
    · rw [h, hidi] at hidj
      exact Option.some.inj hidj
    · rw [h, hS, hidi] at hidj
      exact Option.some.inj hidj

/-- C12, at the four edges of `strandSymmetricGraph`, which form two strand pairs. -/
theorem edge_numbering_witness :
    (enumerateEdges strandSymmetricGraph).numberEdges = 2 ∧
    ((∀ j, ((enumerateEdges strandSymmetricGraph).edgeToId j).isSome = true ↔
      (j < strandSymmetricGraph.edges.length ∧ strandSymmetricGraph.isLooped j = false)) ∧
    (∀ j id, (enumerateEdges strandSymmetricGraph).edgeToId j = some id →
      id < (enumerateEdges strandSymmetricGraph).numberEdges) ∧
    (∀ id, id < (enumerateEdges strandSymmetricGraph).numberEdges →
      ∃ j, j < strandSymmetricGraph.edges.length ∧ strandSymmetricGraph.isLooped j = false ∧
        (enumerateEdges strandSymmetricGraph).edgeToId j = some id) ∧
    (∀ a b, a < strandSymmetricGraph.edges.length → b < strandSymmetricGraph.edges.length →
      strandSymmetricGraph.isLooped a = false → strandSymmetricGraph.isLooped b = false →
      ((enumerateEdges strandSymmetricGraph).edgeToId a =
          (enumerateEdges strandSymmetricGraph).edgeToId b ↔
        (b = a ∨ b = strandSymmetricGraph.complementEdge a))) ∧
    (enumerateEdges strandSymmetricGraph).numberEdges = (strandPairs strandSymmetricGraph).card) :=
  ⟨by decide,
   edge_numbering strandSymmetricGraph
    fourEdgeComplement_involutive
    (by
      intro j hj
      have hj4 : j < 4 := hj
      interval_cases j <;> decide)
    (by
      intro j hj
      have hj4 : j < 4 := hj
      interval_cases j <;> decide)⟩

theorem enumNodeStep_eq (g : RepeatGraph) (s : NodeIds) (node : Nat) :
    enumNodeStep g s node =
      if g.eligible node = true then
        (if s.nodeToId.count node = true then s
         else
          { nodeToId := (s.nodeToId.set (g.complementNode node) s.numberNodes).set node
              s.numberNodes
            idToNode := s.idToNode ++ [node]
            numberNodes := s.numberNodes + 1 })
      else s := by
  unfold enumNodeStep RepeatGraph.eligible GraphNode.eligible
  cases g.nodes[node]? with
  | none => simp
  | some v =>
    dsimp only
    by_cases h1 : (v.inEdges.isEmpty || v.outEdges.isEmpty) = true
    · simp [h1]
    · by_cases h2 : v.neighbors.length < 2
      · simp [h1, h2]
      · simp [h1, h2]

theorem lt_length_of_eligible (g : RepeatGraph) (v : Nat) (h : g.eligible v = true) :
    v < g.nodes.length := by
  by_contra hge
  unfold RepeatGraph.eligible at h
  rw [List.getElem?_eq_none (not_lt.mp hge)] at h
  cases h

theorem enumNodeStep_inv (g : RepeatGraph) (s : NodeIds) (node : Nat) (h : NodeIdsInv g s) :
    NodeIdsInv g (enumNodeStep g s node) := by
  rw [enumNodeStep_eq]
  by_cases hel : g.eligible node = true
  · rw [if_pos hel]
    by_cases hc : s.nodeToId.count node = true
    · rw [if_pos hc]; exact h
    · rw [if_neg hc]
      refine ⟨by simp [h.count], ?_⟩
      intro j id hj
      simp only [IdTable.set] at hj
      have hnew : (s.idToNode ++ [node])[s.numberNodes]? = some node := by
        rw [h.count]; simp
      have hlt := lt_length_of_eligible g node hel
      by_cases h1 : j = node
      · rw [if_pos h1] at hj
        have hid : id = s.numberNodes := (Option.some.inj hj).symm
        exact ⟨node, by rw [hid]; exact hnew, hel, hlt, Or.inl h1⟩
      · rw [if_neg h1] at hj
        by_cases h2 : j = g.complementNode node
        · rw [if_pos h2] at hj
          have hid : id = s.numberNodes := (Option.some.inj hj).symm
          exact ⟨node, by rw [hid]; exact hnew, hel, hlt, Or.inr h2⟩
        · rw [if_neg h2] at hj
          obtain ⟨r, hr, hre, hrn, hrj⟩ := h.rep j id hj
          refine ⟨r, ?_, hre, hrn, hrj⟩
          rw [List.getElem?_append_left (lt_length_of_getElem? _ _ _ hr)]
          exact hr
  · rw [if_neg hel]; exact h

theorem nodesUpTo_inv (g : RepeatGraph) (k : Nat) : NodeIdsInv g (nodesUpTo g k) := by
  induction k with
  | zero =>
    refine ⟨rfl, ?_⟩
    intro j id hj
    cases hj
  | succ k ih =>
    rw [nodesUpTo_succ]
    exact enumNodeStep_inv g _ k ih

theorem enumNodeStep_isSome (g : RepeatGraph) (s : NodeIds) (node j : Nat)
    (h : (s.nodeToId j).isSome = true) :
    ((enumNodeStep g s node).nodeToId j).isSome = true := by
  rw [enumNodeStep_eq]
  split_ifs
  · exact h
  · simp only [IdTable.set]
    split_ifs <;> simp [h]
  · exact h

theorem enumNodeStep_self (g : RepeatGraph) (s : NodeIds) (node : Nat)
    (hel : g.eligible node = true) :
    ((enumNodeStep g s node).nodeToId node).isSome = true := by
  rw [enumNodeStep_eq, if_pos hel]
  by_cases hc : s.nodeToId.count node = true
  · rw [if_pos hc]; exact hc
  · rw [if_neg hc]
    simp [IdTable.set]

theorem nodesUpTo_isSome (g : RepeatGraph) (k j : Nat) (hj : j < k)
    (hel : g.eligible j = true) : ((nodesUpTo g k).nodeToId j).isSome = true := by
  induction k with
  | zero => omega
  | succ k ih =>
    rw [nodesUpTo_succ]
    by_cases hjk : j = k
    · subst hjk
      exact enumNodeStep_self g _ j hel
    · exact enumNodeStep_isSome g _ k j (ih (by omega))

theorem enumNodeStep_compl (g : RepeatGraph) (s : NodeIds) (node : Nat)
    (hinv : ∀ j, g.complementNode (g.complementNode j) = j)
    (h : ∀ j, s.nodeToId (g.complementNode j) = s.nodeToId j) :
    ∀ j, (enumNodeStep g s node).nodeToId (g.complementNode j) =
      (enumNodeStep g s node).nodeToId j := by
  intro j
  rw [enumNodeStep_eq]
  split_ifs
  · exact h j
  · simp only [IdTable.set]
    by_cases h1 : j = node
    · subst h1
      simp
    · by_cases h2 : j = g.complementNode node
      · subst h2
        simp [hinv]
      · have h3 : g.complementNode j ≠ g.complementNode node := by
          intro hc
          apply h1
          rw [← hinv j, hc, hinv]
        have h4 : g.complementNode j ≠ node := by
          intro hc
          apply h2
          rw [← hc, hinv]
        simp [h1, h2, h3, h4, h j]
  · exact h j

theorem nodesUpTo_compl (g : RepeatGraph) (k : Nat)
    (hinv : ∀ j, g.complementNode (g.complementNode j) = j) :
    ∀ j, (nodesUpTo g k).nodeToId (g.complementNode j) = (nodesUpTo g k).nodeToId j := by
  induction k with
  | zero => intro j; rfl
  | succ k ih =>
    rw [nodesUpTo_succ]
    exact enumNodeStep_compl g _ k hinv ih

theorem enumNodeStep_repId (g : RepeatGraph) (s : NodeIds) (node : Nat)
    (hcount : s.numberNodes = s.idToNode.length)
    (hsym : ∀ j, s.nodeToId (g.complementNode j) = s.nodeToId j)
    (h : ∀ id r, s.idToNode[id]? = some r → s.nodeToId r = some id) :
    ∀ id r, (enumNodeStep g s node).idToNode[id]? = some r →
      (enumNodeStep g s node).nodeToId r = some id := by
  rw [enumNodeStep_eq]
  split_ifs with hel hc
  · exact h
  · intro id r hr
    have hnone : s.nodeToId node = none := by
      simpa [IdTable.count] using hc
    have hnone' : s.nodeToId (g.complementNode node) = none := by rw [hsym]; exact hnone
    dsimp only at hr ⊢
    simp only [IdTable.set]
    by_cases hid : id < s.idToNode.length
    · rw [List.getElem?_append_left hid] at hr
      have hold := h id r hr
      have h1 : r ≠ g.complementNode node := by
        intro heq; rw [heq, hnone'] at hold; cases hold
      have h2 : r ≠ node := by
        intro heq; rw [heq, hnone] at hold; cases hold
      rw [if_neg h2, if_neg h1]
      exact hold
    · have hge : s.idToNode.length ≤ id := not_lt.mp hid
      rw [List.getElem?_append_right hge] at hr
      have hz : id - s.idToNode.length = 0 := by
        by_contra hne
        obtain ⟨m, hm⟩ := Nat.exists_eq_succ_of_ne_zero hne
        rw [hm] at hr
        simp at hr
      rw [hz] at hr
      simp only [List.getElem?_cons_zero, Option.some.injEq] at hr
      subst hr
      have hidv : id = s.numberNodes := by omega
      rw [hidv, if_pos rfl]
  · exact h

theorem nodesUpTo_repId (g : RepeatGraph) (k : Nat)
    (hinv : ∀ j, g.complementNode (g.complementNode j) = j) :
    ∀ id r, (nodesUpTo g k).idToNode[id]? = some r → (nodesUpTo g k).nodeToId r = some id := by
  induction k with
  | zero => intro id r hr; simp [nodesUpTo] at hr
  | succ k ih =>
    rw [nodesUpTo_succ]
    exact enumNodeStep_repId g _ k (nodesUpTo_inv g k).count (nodesUpTo_compl g k hinv) ih

theorem enumerateNodes_inv (g : RepeatGraph) : NodeIdsInv g (enumerateNodes g) := by
  rw [enumerateNodes_eq]; exact nodesUpTo_inv g _

theorem nodeEligible_iff (v : GraphNode) :
    v.eligible = true ↔ v.inEdges ≠ [] ∧ v.outEdges ≠ [] ∧ 2 ≤ v.neighbors.length := by
  unfold GraphNode.eligible
  cases hin : v.inEdges <;> cases hout : v.outEdges <;> simp

theorem eligible_iff (g : RepeatGraph) (v : Nat) :
    g.eligible v = true ↔ ∃ node, g.nodes[v]? = some node ∧ node.inEdges ≠ [] ∧
      node.outEdges ≠ [] ∧ 2 ≤ node.neighbors.length := by
  unfold RepeatGraph.eligible
  cases g.nodes[v]? with
  | none => simp
  | some node => simp [nodeEligible_iff]

/-- C13. With an involutive node complement relation: the node stored for a
canonical node id has an incoming edge, an outgoing edge and at least two
neighbours, and a node has an id only if it or its complement is such a node;
every eligible node and its complement have the same id; the ids are exactly
`0 .. numberNodes - 1`, each of them the id of the node stored for it. -/
theorem node_numbering (g : RepeatGraph)
    (hinv : ∀ v, g.complementNode (g.complementNode v) = v) :
    (∀ (id r : Nat), (enumerateNodes g).idToNode[id]? = some r →
      ∃ node : GraphNode, g.nodes[r]? = some node ∧ node.inEdges ≠ [] ∧ node.outEdges ≠ [] ∧
        2 ≤ node.neighbors.length) ∧
    (∀ v id, (enumerateNodes g).nodeToId v = some id →
      g.eligible v = true ∨ g.eligible (g.complementNode v) = true) ∧
    (∀ v node, g.nodes[v]? = some node → node.inEdges ≠ [] → node.outEdges ≠ [] →
      2 ≤ node.neighbors.length →
      ∃ id, (enumerateNodes g).nodeToId v = some id ∧
        (enumerateNodes g).nodeToId (g.complementNode v) = some id) ∧
    (∀ v id, (enumerateNodes g).nodeToId v = some id → id < (enumerateNodes g).numberNodes) ∧
    (∀ id, id < (enumerateNodes g).numberNodes →
      ∃ r, (enumerateNodes g).idToNode[id]? = some r ∧
        (enumerateNodes g).nodeToId r = some id) ∧
    (enumerateNodes g).numberNodes = (enumerateNodes g).idToNode.length := by
  have hI := enumerateNodes_inv g
  have hR := nodesUpTo_repId g g.nodes.length hinv
  have hS := nodesUpTo_compl g g.nodes.length hinv
  have hD := fun j hj hl => nodesUpTo_isSome g g.nodes.length j hj hl
  rw [← enumerateNodes_eq] at hR hS hD
  refine ⟨?_, ?_, ?_, ?_, ?_, hI.count⟩
  · intro id r hr
    obtain ⟨r', hr', hre, _, _⟩ := hI.rep r id (hR id r hr)
    rw [hr] at hr'
    rw [← Option.some.inj hr'] at hre
    exact (eligible_iff g r).mp hre
  · intro v id hv
    obtain ⟨r, _, hre, _, hrv⟩ := hI.rep v id hv
    rcases hrv with rfl | rfl
    · exact Or.inl hre
    · right; rw [hinv]; exact hre
  · intro v node hv h1 h2 h3
    have hel : g.eligible v = true := (eligible_iff g v).mpr ⟨node, hv, h1, h2, h3⟩
    have hsome := hD v (lt_length_of_eligible g v hel) hel
    cases hE : (enumerateNodes g).nodeToId v with
    | none => rw [hE] at hsome; cases hsome
    | some id => exact ⟨id, rfl, by rw [hS]; exact hE⟩
  · intro v id hv
    obtain ⟨r, hr, _⟩ := hI.rep v id hv
    rw [hI.count]
    exact lt_length_of_getElem? _ _ _ hr
  · intro id hid
    have hlt : id < (enumerateNodes g).idToNode.length := by rw [← hI.count]; exact hid
    have hr : (enumerateNodes g).idToNode[id]? = some ((enumerateNodes g).idToNode[id]) :=
      List.getElem?_eq_getElem hlt
    exact ⟨_, hr, hR id _ hr⟩

/-- C13, at the two nodes of `strandSymmetricGraph`, complements of each other. -/
theorem node_numbering_witness :
    (enumerateNodes strandSymmetricGraph).nodeToId 0 = some 0 ∧
    (enumerateNodes strandSymmetricGraph).nodeToId 1 = some 0 ∧
    ((∀ (id r : Nat), (enumerateNodes strandSymmetricGraph).idToNode[id]? = some r →
      ∃ node : GraphNode, strandSymmetricGraph.nodes[r]? = some node ∧ node.inEdges ≠ [] ∧
        node.outEdges ≠ [] ∧ 2 ≤ node.neighbors.length) ∧
    (∀ v id, (enumerateNodes strandSymmetricGraph).nodeToId v = some id →
      strandSymmetricGraph.eligible v = true ∨
        strandSymmetricGraph.eligible (strandSymmetricGraph.complementNode v) = true) ∧
    (∀ v node, strandSymmetricGraph.nodes[v]? = some node → node.inEdges ≠ [] →
      node.outEdges ≠ [] → 2 ≤ node.neighbors.length →
      ∃ id, (enumerateNodes strandSymmetricGraph).nodeToId v = some id ∧
        (enumerateNodes strandSymmetricGraph).nodeToId
          (strandSymmetricGraph.complementNode v) = some id) ∧
    (∀ v id, (enumerateNodes strandSymmetricGraph).nodeToId v = some id →
      id < (enumerateNodes strandSymmetricGraph).numberNodes) ∧
    (∀ id, id < (enumerateNodes strandSymmetricGraph).numberNodes →
      ∃ r, (enumerateNodes strandSymmetricGraph).idToNode[id]? = some r ∧
        (enumerateNodes strandSymmetricGraph).nodeToId r = some id) ∧
    (enumerateNodes strandSymmetricGraph).numberNodes =
      (enumerateNodes strandSymmetricGraph).idToNode.length) :=
  ⟨by decide, by decide, node_numbering strandSymmetricGraph swapComplement_involutive⟩

/-! ## The content of the conservation rows -/

theorem getD_modify_add (l : List Int) (i j : Nat) (d : Int) :
    (l.modify (fun c => c + d) i).getD j 0 =
      l.getD j 0 + (if j = i ∧ j < l.length then d else 0) := by
  induction l generalizing i j with
  | nil => simp
  | cons a l ih =>
    cases i with
    | zero =>
      cases j with
      | zero => simp
      | succ j => simp
    | succ i =>
      cases j with
      | zero => simp
      | succ j =>
        simp only [List.modify_succ_cons, List.getD_cons_succ, ih i j, List.length_cons,
          Nat.add_lt_add_iff_right, Nat.add_right_cancel_iff]

theorem addCoefficients_getD (g : RepeatGraph) (E : EdgeIds) (d : Int)
    (coefficients : List Int) (es : List Nat) (col : Nat) :
    (addCoefficients g E d coefficients es).getD col 0 =
      coefficients.getD col 0 +
        (if col < coefficients.length then d * columnCount g E es col else 0) := by
  induction es generalizing coefficients with
  | nil => simp [addCoefficients, columnCount]
  | cons e es ih =>
    unfold addCoefficients
    by_cases hl : g.isLooped e = true
    · rw [if_pos hl, ih]
      simp [columnCount, List.filter_cons, hl]
    · have hlf : g.isLooped e = false := by simpa using hl
      rw [if_neg hl, ih, getD_modify_add, List.length_modify]
      by_cases hcol : col < coefficients.length
      · simp only [hcol, if_true, and_true]
        by_cases he : E.edgeToId.get e = col
        · subst he
          simp only [columnCount, List.filter_cons, hlf, Bool.not_false, decide_True,
            Bool.and_self, if_true, List.length_cons]
          push_cast
          ring
        · have hne : ¬ (col = E.edgeToId.get e) := fun h => he h.symm
          simp only [columnCount, List.filter_cons, hlf, he, hne, Bool.not_false, decide_False,
            Bool.and_false, Bool.false_eq_true, if_false]
          ring
      · simp only [hcol, if_false, and_false]
        ring

theorem nodeCoefficients_getD (g : RepeatGraph) (E : EdgeIds) (v : GraphNode) (col : Nat) :
    (nodeCoefficients g E v).getD col 0 =
      if col < E.numberEdges then
        columnCount g E v.inEdges col - columnCount g E v.outEdges col
      else 0 := by
  unfold nodeCoefficients
  rw [addCoefficients_getD, addCoefficients_getD, addCoefficients_length,
    List.length_replicate]
  have h0 : (List.replicate E.numberEdges (0 : Int)).getD col 0 = 0 := by
    rw [List.getD_eq_getElem?_getD, List.getElem?_replicate]
    split_ifs <;> rfl
  rw [h0]
  split_ifs <;> ring

theorem columnCount_eq_canonicalCount (g : RepeatGraph) (es : List Nat) (col : Nat)
    (hes : ∀ e ∈ es, e < g.edges.length) :
    columnCount g (enumerateEdges g) es col = canonicalCount g (enumerateEdges g) es col := by
  unfold columnCount canonicalCount
  congr 2
  apply List.filter_congr
  intro e he
  by_cases hl : g.isLooped e = true
  · simp [hl]
  · have hlf : g.isLooped e = false := by simpa using hl
    obtain ⟨id, hid, _⟩ := edgeToId_of_not_looped g e (hes e he) hlf
    simp [hlf, IdTable.get, hid]

theorem list_eq_of_getD (l₁ l₂ : List Int) (hlen : l₁.length = l₂.length)
    (h : ∀ i, l₁.getD i 0 = l₂.getD i 0) : l₁ = l₂ := by
  apply List.ext_getElem hlen
  intro i h1 h2
  have := h i
  rw [List.getD_eq_getElem _ _ h1, List.getD_eq_getElem _ _ h2] at this
  exact this

/-- C15. For a canonical node id whose row is admitted (the edges of its node
being edges of the graph), the model has the equality constraint with
right-hand side 0 whose coefficient in an edge column `col` is the number of
incoming edges of the node that are not looped and have canonical id `col`
minus the number of such outgoing edges, whose coefficient is `+1` in the
source column and `-1` in the sink column of the node, and `0` in the slack
columns of every other node. -/
theorem conservation_row_content (indep : List (List Int) → Bool) (g : RepeatGraph)
    (k : Nat) (hk : k < (enumerateNodes g).numberNodes)
    (hadm : rowAdmitted indep g k = true)
    (v : GraphNode) (hv : g.nodes[(enumerateNodes g).idToNode.getD k 0]? = some v)
    (hwf : ∀ e ∈ v.inEdges ++ v.outEdges, e < g.edges.length) :
    ∃ c ∈ (buildModel indep g).constraints,
      c.type = ConstraintType.CT_EQUAL ∧ c.value = 0 ∧
      c.coefficients.length =
        (enumerateEdges g).numberEdges + (enumerateNodes g).numberNodes * 2 ∧
      (∀ col, col < (enumerateEdges g).numberEdges →
        c.coefficients.getD col 0 =
          ((canonicalCount g (enumerateEdges g) v.inEdges col -
            canonicalCount g (enumerateEdges g) v.outEdges col : Int) : ℚ)) ∧
      c.coefficients.getD ((enumerateEdges g).numberEdges + k * 2) 0 = 1 ∧
      c.coefficients.getD ((enumerateEdges g).numberEdges + k * 2 + 1) 0 = -1 ∧
      (∀ n, n < (enumerateNodes g).numberNodes → n ≠ k →
        c.coefficients.getD ((enumerateEdges g).numberEdges + n * 2) 0 = 0 ∧
        c.coefficients.getD ((enumerateEdges g).numberEdges + n * 2 + 1) 0 = 0) := by
  obtain ⟨_, _, heq⟩ := node_constraints_mem indep g k hk
  have hrow : nodeRow g (enumerateEdges g) (enumerateNodes g) k =
      nodeCoefficients g (enumerateEdges g) v := by
    unfold nodeRow; rw [hv]
  have hget := fun j => coefMatrix_getD (enumerateEdges g).numberEdges
    ((enumerateEdges g).numberEdges + (enumerateNodes g).numberNodes * 2)
    ((enumerateEdges g).numberEdges + k * 2) ((enumerateEdges g).numberEdges + k * 2 + 1)
    (nodeRow g (enumerateEdges g) (enumerateNodes g) k) (nodeRow_length g _ _ k)
    (by omega) rfl (by omega) j
  refine ⟨_, heq hadm, rfl, rfl, ?_, ?_, ?_, ?_, ?_⟩
  · exact coefMatrix_length _ _ _ _ _ (nodeRow_length g _ _ k) (by omega)
  · intro col hcol
    show (coefMatrix _ _ _ _ (nodeRow g _ _ k)).getD col 0 = _
    rw [hget col, if_neg (by omega), if_neg (by omega), if_pos hcol, hrow,
      nodeCoefficients_getD, if_pos hcol,
      columnCount_eq_canonicalCount g v.inEdges col
        (fun e he => hwf e (List.mem_append_left _ he)),
      columnCount_eq_canonicalCount g v.outEdges col
        (fun e he => hwf e (List.mem_append_right _ he))]
  · show (coefMatrix _ _ _ _ (nodeRow g _ _ k)).getD _ 0 = _
    rw [hget, if_pos rfl]
  · show (coefMatrix _ _ _ _ (nodeRow g _ _ k)).getD _ 0 = _
    rw [hget, if_neg (by omega), if_pos rfl]
  · intro n hn hnk
    constructor
    · show (coefMatrix _ _ _ _ (nodeRow g _ _ k)).getD _ 0 = _
      rw [hget, if_neg (by omega), if_neg (by omega), if_neg (by omega)]
    · show (coefMatrix _ _ _ _ (nodeRow g _ _ k)).getD _ 0 = _
      rw [hget, if_neg (by omega), if_neg (by omega), if_neg (by omega)]

/-- C15, at the node `P` of `sourceSinkGraph` (canonical node id 0). -/
theorem conservation_row_content_witness :
    rowAdmitted rowsLinearlyIndependent sourceSinkGraph 0 = true ∧
    ∃ c ∈ (buildModel rowsLinearlyIndependent sourceSinkGraph).constraints,
      c.type = ConstraintType.CT_EQUAL ∧ c.value = 0 ∧
      c.coefficients.length =
        (enumerateEdges sourceSinkGraph).numberEdges +
          (enumerateNodes sourceSinkGraph).numberNodes * 2 ∧
      (∀ col, col < (enumerateEdges sourceSinkGraph).numberEdges →
        c.coefficients.getD col 0 =
          ((canonicalCount sourceSinkGraph (enumerateEdges sourceSinkGraph)
              (GraphNode.mk [3] [0, 2, 3] [1, 2]).inEdges col -
            canonicalCount sourceSinkGraph (enumerateEdges sourceSinkGraph)
              (GraphNode.mk [3] [0, 2, 3] [1, 2]).outEdges col : Int) : ℚ)) ∧
      c.coefficients.getD ((enumerateEdges sourceSinkGraph).numberEdges + 0 * 2) 0 = 1 ∧
      c.coefficients.getD ((enumerateEdges sourceSinkGraph).numberEdges + 0 * 2 + 1) 0 = -1 ∧
      (∀ n, n < (enumerateNodes sourceSinkGraph).numberNodes → n ≠ 0 →
        c.coefficients.getD ((enumerateEdges sourceSinkGraph).numberEdges + n * 2) 0 = 0 ∧
        c.coefficients.getD ((enumerateEdges sourceSinkGraph).numberEdges + n * 2 + 1) 0 = 0) :=
  ⟨by decide,
   conservation_row_content rowsLinearlyIndependent sourceSinkGraph 0 (by decide) (by decide)
    ⟨[3], [0, 2, 3], [1, 2]⟩ (by decide) (by decide)⟩

theorem columnCount_perm (g : RepeatGraph) (E : EdgeIds) (l₁ l₂ : List Nat) (col : Nat)
    (h : l₁.Perm l₂) : columnCount g E l₁ col = columnCount g E l₂ col := by
  unfold columnCount
  rw [(h.filter _).length_eq]

theorem columnCount_map_complement (g : RepeatGraph) (E : EdgeIds) (es : List Nat) (col : Nat)
    (hloop : ∀ e ∈ es, g.isLooped (g.complementEdge e) = g.isLooped e)
    (hsym : ∀ e, E.edgeToId (g.complementEdge e) = E.edgeToId e) :
    columnCount g E (es.map g.complementEdge) col = columnCount g E es col := by
  induction es with
  | nil => rfl
  | cons e es ih =>
    have ih' := ih (fun e' he' => hloop e' (List.mem_cons_of_mem _ he'))
    have h1 := hloop e (List.mem_cons_self _ _)
    have h2 : E.edgeToId.get (g.complementEdge e) = E.edgeToId.get e := by
      unfold IdTable.get; rw [hsym]
    unfold columnCount at ih' ⊢
    simp only [List.map_cons, List.filter_cons, h1, h2]
    split_ifs
    · simp only [List.length_cons]; push_cast; rw [ih']
    · exact ih'

theorem dot_map_neg (l : List Int) (x : List ℚ) :
    dot ((l.map (fun c => -c)).map (fun (c : Int) => (c : ℚ))) x =
      -dot (l.map (fun (c : Int) => (c : ℚ))) x := by
  induction l generalizing x with
  | nil => simp [dot]
  | cons a l ih =>
    cases x with
    | nil => simp [dot_nil_right]
    | cons y x =>
      simp only [List.map_cons, dot_cons_cons, ih]
      push_cast
      ring

/-- C20. In a strand-symmetric graph (involutive edge complement that keeps
`isLooped`; the incoming edges of the complement node are the complements of
the outgoing edges of the node, and the outgoing ones the complements of the
incoming ones) the coefficient vector built for the complement of a node is the
negation of the vector built for the node: the two rows add up to zero, and
edge values that are conserved at the node are conserved at its complement. -/
theorem complement_row_negated (g : RepeatGraph)
    (hinv : ∀ e, g.complementEdge (g.complementEdge e) = e)
    (p : Nat) (v v' : GraphNode) (_hv : g.nodes[p]? = some v)
    (_hv' : g.nodes[g.complementNode p]? = some v')
    (hloop : ∀ e ∈ v.inEdges ++ v.outEdges, g.isLooped (g.complementEdge e) = g.isLooped e)
    (hin : v'.inEdges.Perm (v.outEdges.map g.complementEdge))
    (hout : v'.outEdges.Perm (v.inEdges.map g.complementEdge)) :
    nodeCoefficients g (enumerateEdges g) v' =
      (nodeCoefficients g (enumerateEdges g) v).map (fun c => -c) ∧
    (∀ col, (nodeCoefficients g (enumerateEdges g) v).getD col 0 +
      (nodeCoefficients g (enumerateEdges g) v').getD col 0 = 0) ∧
    (∀ x : List ℚ,
      dot ((nodeCoefficients g (enumerateEdges g) v').map (fun (c : Int) => (c : ℚ))) x =
        -dot ((nodeCoefficients g (enumerateEdges g) v).map (fun (c : Int) => (c : ℚ))) x) ∧
    (∀ x : List ℚ,
      dot ((nodeCoefficients g (enumerateEdges g) v).map (fun (c : Int) => (c : ℚ))) x = 0 →
      dot ((nodeCoefficients g (enumerateEdges g) v').map (fun (c : Int) => (c : ℚ))) x = 0) := by
  have hS := edgesUpTo_compl g g.edges.length hinv
  rw [← enumerateEdges_eq] at hS
  have hcol : ∀ col, (nodeCoefficients g (enumerateEdges g) v').getD col 0 =
      -(nodeCoefficients g (enumerateEdges g) v).getD col 0 := by
    intro col
    rw [nodeCoefficients_getD, nodeCoefficients_getD,
      columnCount_perm g _ _ _ col hin, columnCount_perm g _ _ _ col hout,
      columnCount_map_complement g _ v.outEdges col
        (fun e he => hloop e (List.mem_append_right _ he)) hS,
      columnCount_map_complement g _ v.inEdges col
        (fun e he => hloop e (List.mem_append_left _ he)) hS]
    split_ifs <;> ring
  have hlist : nodeCoefficients g (enumerateEdges g) v' =
      (nodeCoefficients g (enumerateEdges g) v).map (fun c => -c) := by
    apply list_eq_of_getD
    · rw [List.length_map, nodeCoefficients_length, nodeCoefficients_length]
    · intro i
      rw [hcol i, List.getD_eq_getElem?_getD, List.getD_eq_getElem?_getD, List.getElem?_map]
      cases (nodeCoefficients g (enumerateEdges g) v)[i]? <;> simp
  refine ⟨hlist, fun col => by rw [hcol col]; ring, fun x => ?_, fun x hx => ?_⟩
  · rw [hlist, dot_map_neg]
  · rw [hlist, dot_map_neg, hx, neg_zero]

/-- C20, at the node `V` of `strandSymmetricGraph` and its complement `V'`. -/
theorem complement_row_negated_witness :
    nodeCoefficients strandSymmetricGraph (enumerateEdges strandSymmetricGraph)
        ⟨[3], [1], [4, 5]⟩ =
      (nodeCoefficients strandSymmetricGraph (enumerateEdges strandSymmetricGraph)
        ⟨[0], [2], [2, 3]⟩).map (fun c => -c) ∧
    (∀ col, (nodeCoefficients strandSymmetricGraph (enumerateEdges strandSymmetricGraph)
        ⟨[0], [2], [2, 3]⟩).getD col 0 +
      (nodeCoefficients strandSymmetricGraph (enumerateEdges strandSymmetricGraph)
        ⟨[3], [1], [4, 5]⟩).getD col 0 = 0) ∧
    (∀ x : List ℚ,
      dot ((nodeCoefficients strandSymmetricGraph (enumerateEdges strandSymmetricGraph)
          ⟨[3], [1], [4, 5]⟩).map (fun (c : Int) => (c : ℚ))) x =
        -dot ((nodeCoefficients strandSymmetricGraph (enumerateEdges strandSymmetricGraph)
          ⟨[0], [2], [2, 3]⟩).map (fun (c : Int) => (c : ℚ))) x) ∧
    (∀ x : List ℚ,
      dot ((nodeCoefficients strandSymmetricGraph (enumerateEdges strandSymmetricGraph)
          ⟨[0], [2], [2, 3]⟩).map (fun (c : Int) => (c : ℚ))) x = 0 →
      dot ((nodeCoefficients strandSymmetricGraph (enumerateEdges strandSymmetricGraph)
          ⟨[3], [1], [4, 5]⟩).map (fun (c : Int) => (c : ℚ))) x = 0) :=
  complement_row_negated strandSymmetricGraph fourEdgeComplement_involutive 0
    ⟨[0], [2], [2, 3]⟩ ⟨[3], [1], [4, 5]⟩ (by decide) (by decide) (by decide)
    (List.Perm.refl _) (List.Perm.refl _)

/-! ## Feasibility of the model -/

theorem dot_append_right_of_le (row x y : List ℚ) (h : row.length ≤ x.length) :
    dot row (x ++ y) = dot row x := by
  induction row generalizing x with
  | nil => simp [dot]
  | cons a row ih =>
    cases x with
    | nil => simp at h
    | cons b x =>
      have h' : row.length ≤ x.length := by simpa using h
      simp only [List.cons_append, dot_cons_cons, ih x h']

theorem lowerBounds_length (g : RepeatGraph) :
    (lowerBounds g).length = (enumerateEdges g).numberEdges := by
  simp [lowerBounds]

theorem lowerBoundPoint_edge (indep : List (List Int) → Bool) (g : RepeatGraph) (i : Nat)
    (hi : i < (enumerateEdges g).numberEdges) :
    (lowerBoundPoint indep g).getD i 0 =
      ((g.multiplicity ((enumerateEdges g).idToEdge.getD i 0) : Int) : ℚ) := by
  unfold lowerBoundPoint
  rw [List.getD_eq_getElem?_getD,
    List.getElem?_append_left (by rw [lowerBounds_length]; exact hi)]
  unfold lowerBounds
  rw [List.getElem?_map, List.getElem?_range hi]
  rfl

theorem lowerBoundPoint_slack (indep : List (List Int) → Bool) (g : RepeatGraph) (j : Nat)
    (hj : j < (enumerateNodes g).numberNodes * 2) :
    (lowerBoundPoint indep g).getD ((enumerateEdges g).numberEdges + j) 0 =
      absorbingSlack indep g j := by
  unfold lowerBoundPoint
  rw [List.getD_eq_getElem?_getD,
    List.getElem?_append_right (by rw [lowerBounds_length]; omega), lowerBounds_length,
    Nat.add_sub_cancel_left, List.getElem?_map, List.getElem?_range hj]
  rfl

theorem absorbingSlack_nonneg (indep : List (List Int) → Bool) (g : RepeatGraph) (j : Nat) :
    0 ≤ absorbingSlack indep g j := by
  unfold absorbingSlack
  split_ifs
  · exact le_max_left _ _
  · exact le_max_left _ _
  · exact le_rfl

/-- The point `lowerBoundPoint` satisfies every constraint of the model. -/
theorem lowerBoundPoint_feasible (indep : List (List Int) → Bool) (g : RepeatGraph) :
    (buildModel indep g).feasible (lowerBoundPoint indep g) := by
  intro c hc
  unfold buildModel at hc
  dsimp only at hc
  rcases nodeLoop_constraints_cases indep g _ _ _ c hc with
    ⟨i, hi, rfl⟩ | ⟨n, hn, rfl | rfl | ⟨hadm, rfl⟩⟩
  · simp only [Constraint.holds, edgeConstraint]
    rw [dot_unitRow _ _ _ (by omega), lowerBoundPoint_edge indep g i hi]
  · simp only [Constraint.holds, nonNegative]
    rw [dot_unitRow _ _ _ (by omega), lowerBoundPoint_slack indep g (n * 2) (by omega)]
    exact absorbingSlack_nonneg indep g _
  · simp only [Constraint.holds, nonNegative]
    rw [dot_unitRow _ _ _ (by omega), Nat.add_assoc,
      lowerBoundPoint_slack indep g (n * 2 + 1) (by omega)]
    exact absorbingSlack_nonneg indep g _
  · simp only [Constraint.holds, nodeEquality]
    rw [coefMatrix_dot _ _ _ _ _ _ (nodeRow_length g _ _ n) (by omega) rfl (by omega),
      lowerBoundPoint_slack indep g (n * 2) (by omega), Nat.add_assoc,
      lowerBoundPoint_slack indep g (n * 2 + 1) (by omega)]
    have hdot : dot ((nodeRow g (enumerateEdges g) (enumerateNodes g) n).map
        (fun (c : Int) => (c : ℚ))) (lowerBoundPoint indep g) = imbalance g n := by
      unfold lowerBoundPoint imbalance
      exact dot_append_right_of_le _ _ _ (by
        rw [List.length_map, nodeRow_length, lowerBounds_length])
    have hadm' : rowAdmitted indep g n = true := by rw [rowAdmitted_eq]; exact hadm
    have h1 : n * 2 / 2 = n := by omega
    have h2 : (n * 2 + 1) / 2 = n := by omega
    have h3 : n * 2 % 2 = 0 := by omega
    have h4 : ¬ ((n * 2 + 1) % 2 = 0) := by omega
    rw [hdot]
    unfold absorbingSlack
    rw [h1, h2, if_pos hadm', if_pos hadm', if_pos h3, if_neg h4]
    rcases le_total 0 (imbalance g n) with h | h
    · rw [max_eq_left (by linarith), max_eq_right h]; ring
    · rw [max_eq_right (by linarith), max_eq_left h]; ring

theorem dot_eq_sum_range (row x : List ℚ) :
    dot row x = ((List.range row.length).map (fun i => row.getD i 0 * x.getD i 0)).sum := by
  induction row generalizing x with
  | nil => simp [dot]
  | cons a row ih =>
    cases x with
    | nil => simp [dot_nil_right]
    | cons b x =>
      rw [dot_cons_cons, ih x, List.length_cons, List.range_succ_eq_map, List.map_cons,
        List.sum_cons, List.map_map]
      rfl

theorem multiplicity_nonneg (g : RepeatGraph) (hnn : ∀ e ∈ g.edges, 0 ≤ e.multiplicity)
    (i : Nat) : 0 ≤ g.multiplicity i := by
  unfold RepeatGraph.multiplicity
  cases h : g.edges[i]? with
  | none => exact le_rfl
  | some e => exact hnn e (List.getElem?_mem h)

/-- C19. For a graph whose edge multiplicities are not negative, the
constraints of the model have a solution: every edge variable at its lower
bound, the slacks of each admitted row absorbing the imbalance; and the
objective is not negative at any vector that satisfies the constraints, so it
is bounded below on the feasible set. -/
theorem model_feasible_and_bounded (indep : List (List Int) → Bool) (g : RepeatGraph)
    (hnn : ∀ e ∈ g.edges, 0 ≤ e.multiplicity) :
    (buildModel indep g).feasible (lowerBoundPoint indep g) ∧
    (∀ i, i < (enumerateEdges g).numberEdges →
      (lowerBoundPoint indep g).getD i 0 =
        ((g.multiplicity ((enumerateEdges g).idToEdge.getD i 0) : Int) : ℚ)) ∧
    (∃ x, (buildModel indep g).feasible x) ∧
    (∀ x, (buildModel indep g).feasible x → 0 ≤ (buildModel indep g).cost x) := by
  refine ⟨lowerBoundPoint_feasible indep g, fun i hi => lowerBoundPoint_edge indep g i hi,
    ⟨_, lowerBoundPoint_feasible indep g⟩, ?_⟩
  intro x hx
  unfold Simplex.cost
  rw [dot_eq_sum_range]
  apply List.sum_nonneg
  intro t ht
  obtain ⟨i, hi, rfl⟩ := List.mem_map.mp ht
  have hlen : (buildModel indep g).costs.length =
      (enumerateEdges g).numberEdges + (enumerateNodes g).numberNodes * 2 := by
    simp [buildModel, costs]
  rw [List.mem_range, hlen] at hi
  have hcost : (buildModel indep g).costs.getD i 0 =
      if i < (enumerateEdges g).numberEdges then 1 else 1000 := by
    rw [List.getD_eq_getElem?_getD]
    show ((costs _ _)[i]?).getD 0 = _
    rw [costs_getElem? _ _ _ hi]
    rfl
  have hxi : 0 ≤ x.getD i 0 := by
    by_cases hE : i < (enumerateEdges g).numberEdges
    · have hc := hx _ (edgeConstraint_mem indep g i hE)
      simp only [Constraint.holds, edgeConstraint] at hc
      rw [dot_unitRow _ _ _ (by omega)] at hc
      have : (0 : ℚ) ≤ ((g.multiplicity ((enumerateEdges g).idToEdge.getD i 0) : Int) : ℚ) := by
        exact_mod_cast multiplicity_nonneg g hnn _
      linarith
    · have hn : (i - (enumerateEdges g).numberEdges) / 2 < (enumerateNodes g).numberNodes := by
        omega
      obtain ⟨hsrc, hsink, _⟩ := node_constraints_mem indep g _ hn
      have hs := hx _ hsrc
      have ht' := hx _ hsink
      simp only [Constraint.holds] at hs ht'
      rw [dot_unitRow _ _ _ (by omega)] at hs ht'
      rcases Nat.mod_two_eq_zero_or_one (i - (enumerateEdges g).numberEdges) with hpar | hpar
      · have : (enumerateEdges g).numberEdges +
            (i - (enumerateEdges g).numberEdges) / 2 * 2 = i := by omega
        rw [this] at hs
        exact hs
      · have : (enumerateEdges g).numberEdges +
            (i - (enumerateEdges g).numberEdges) / 2 * 2 + 1 = i := by omega
        rw [this] at ht'
        exact ht'
  rw [hcost]
  split_ifs
  · linarith
  · positivity

/-- C19, at `sourceSinkGraph`, where the lower bounds cannot be conserved at
`P` and the source slack of `P` takes the imbalance 2. -/
theorem model_feasible_and_bounded_witness :
    lowerBoundPoint rowsLinearlyIndependent sourceSinkGraph = sourceSinkSolution ∧
    ((buildModel rowsLinearlyIndependent sourceSinkGraph).feasible
      (lowerBoundPoint rowsLinearlyIndependent sourceSinkGraph) ∧
    (∀ i, i < (enumerateEdges sourceSinkGraph).numberEdges →
      (lowerBoundPoint rowsLinearlyIndependent sourceSinkGraph).getD i 0 =
        ((sourceSinkGraph.multiplicity
          ((enumerateEdges sourceSinkGraph).idToEdge.getD i 0) : Int) : ℚ)) ∧
    (∃ x, (buildModel rowsLinearlyIndependent sourceSinkGraph).feasible x) ∧
    (∀ x, (buildModel rowsLinearlyIndependent sourceSinkGraph).feasible x →
      0 ≤ (buildModel rowsLinearlyIndependent sourceSinkGraph).cost x)) :=
  ⟨by decide!, model_feasible_and_bounded rowsLinearlyIndependent sourceSinkGraph (by decide)⟩

/-! ## The independence filter -/

theorem range_rows (n : Nat) (rows : List (List Int)) :
    Set.range (fun (i : Fin rows.length) => rowVec n (rows.get i)) =
      {v | ∃ r, r ∈ rows ∧ rowVec n r = v} := by
  ext v
  constructor
  · rintro ⟨i, rfl⟩
    exact ⟨rows.get i, List.get_mem _ _ _, rfl⟩
  · rintro ⟨r, hr, rfl⟩
    obtain ⟨i, rfl⟩ := List.mem_iff_get.mp hr
    exact ⟨i, rfl⟩

theorem rowSpace_eq_span_range (n : Nat) (rows : List (List Int)) :
    rowSpace n rows =
      Submodule.span ℚ (Set.range (fun (i : Fin rows.length) => rowVec n (rows.get i))) := by
  rw [range_rows]; rfl

theorem rowSpace_append_singleton (n : Nat) (rows : List (List Int)) (r : List Int) :
    rowSpace n (rows ++ [r]) = rowSpace n rows ⊔ Submodule.span ℚ {rowVec n r} := by
  unfold rowSpace
  rw [← Submodule.span_union]
  congr 1
  ext v
  simp only [List.mem_append, List.mem_singleton, Set.mem_setOf_eq, Set.mem_union,
    Set.mem_singleton_iff]
  constructor
  · rintro ⟨x, hx | hx, rfl⟩
    · exact Or.inl ⟨x, hx, rfl⟩
    · right; rw [hx]
  · rintro (⟨x, hx, rfl⟩ | h)
    · exact ⟨x, Or.inl hx, rfl⟩
    · exact ⟨r, Or.inr rfl, h.symm⟩

theorem rowsIndependent_nil (n : Nat) : RowsIndependent n [] := by
  unfold RowsIndependent
  haveI : IsEmpty (Fin ([] : List (List Int)).length) := inferInstanceAs (IsEmpty (Fin 0))
  exact linearIndependent_empty_type

theorem rowsIndependent_append_singleton (n : Nat) (rows : List (List Int)) (r : List Int) :
    RowsIndependent n (rows ++ [r]) ↔
      RowsIndependent n rows ∧ rowVec n r ∉ rowSpace n rows := by
  rw [rowSpace_eq_span_range]
  unfold RowsIndependent
  rw [← linearIndependent_fin_snoc]
  have hlen : rows.length + 1 = (rows ++ [r]).length := by simp
  refine (linearIndependent_equiv' (finCongr hlen) ?_).symm
  funext i
  refine Fin.lastCases ?_ (fun j => ?_) i
  · simp [Fin.snoc_last, List.get_eq_getElem]
  · simp [Fin.snoc_castSucc, List.get_eq_getElem, List.getElem_append_left]

theorem nodeLoop_incorporated_succ (indep : List (List Int) → Bool) (g : RepeatGraph)
    (E : EdgeIds) (N : NodeIds) (k : Nat) :
    (nodeLoop indep g E N (k + 1)).incorporatedEquations =
      if indep ((nodeLoop indep g E N k).incorporatedEquations ++ [nodeRow g E N k]) = true then
        (nodeLoop indep g E N k).incorporatedEquations ++ [nodeRow g E N k]
      else (nodeLoop indep g E N k).incorporatedEquations := by
  rw [nodeLoop_succ, nodeStep_eq]
  split_ifs <;> rfl

theorem nodeLoop_constraints_succ (indep : List (List Int) → Bool) (g : RepeatGraph)
    (E : EdgeIds) (N : NodeIds) (k : Nat) :
    (nodeLoop indep g E N (k + 1)).constraints =
      if indep ((nodeLoop indep g E N k).incorporatedEquations ++ [nodeRow g E N k]) = true then
        (nodeLoop indep g E N k).constraints ++
          [nonNegative (E.numberEdges + N.numberNodes * 2) (E.numberEdges + k * 2),
           nonNegative (E.numberEdges + N.numberNodes * 2) (E.numberEdges + k * 2 + 1)] ++
          [nodeEquality g E N k]
      else
        (nodeLoop indep g E N k).constraints ++
          [nonNegative (E.numberEdges + N.numberNodes * 2) (E.numberEdges + k * 2),
           nonNegative (E.numberEdges + N.numberNodes * 2) (E.numberEdges + k * 2 + 1)] := by
  rw [nodeLoop_succ, nodeStep_eq]
  split_ifs <;> rfl

theorem equalityCount_append (xs ys : List Constraint) :
    equalityCount (xs ++ ys) = equalityCount xs + equalityCount ys := by
  unfold equalityCount
  rw [List.filter_append, List.length_append]

theorem nodeLoop_equalityCount (indep : List (List Int) → Bool) (g : RepeatGraph)
    (E : EdgeIds) (N : NodeIds) (k : Nat) :
    equalityCount (nodeLoop indep g E N k).constraints =
      (nodeLoop indep g E N k).incorporatedEquations.length := by
  induction k with
  | zero =>
    unfold nodeLoop equalityCount
    simp only [List.range_zero, List.foldl_nil, List.length_nil, List.length_eq_zero,
      List.filter_eq_nil_iff, List.mem_map, List.mem_range]
    rintro c ⟨i, _, rfl⟩
    simp [edgeConstraint]
  | succ k ih =>
    rw [nodeLoop_constraints_succ, nodeLoop_incorporated_succ]
    split_ifs
    · rw [equalityCount_append, equalityCount_append, ih]
      simp [equalityCount, nonNegative, nodeEquality]
    · rw [equalityCount_append, ih]
      simp [equalityCount, nonNegative]

/-- When the independence test is right on the matrices the loop hands to it,
the rows admitted so far are linearly independent at every round. -/
theorem nodeLoop_independent (indep : List (List Int) → Bool) (g : RepeatGraph)
    (E : EdgeIds) (N : NodeIds) (n m : Nat)
    (hdec : ∀ k, k < m →
      (indep ((nodeLoop indep g E N k).incorporatedEquations ++ [nodeRow g E N k]) = true ↔
        RowsIndependent n ((nodeLoop indep g E N k).incorporatedEquations ++ [nodeRow g E N k])))
    (k : Nat) (hk : k ≤ m) :
    RowsIndependent n (nodeLoop indep g E N k).incorporatedEquations := by
  induction k with
  | zero => exact rowsIndependent_nil n
  | succ k ih =>
    rw [nodeLoop_incorporated_succ]
    split_ifs with h
    · exact (hdec k (by omega)).mp h
    · exact ih (by omega)

/-- The test of a round fails exactly when the row of the round lies in the
span of the rows admitted before it. -/
theorem nodeLoop_discard_iff (indep : List (List Int) → Bool) (g : RepeatGraph)
    (E : EdgeIds) (N : NodeIds) (n m : Nat)
    (hdec : ∀ k, k < m →
      (indep ((nodeLoop indep g E N k).incorporatedEquations ++ [nodeRow g E N k]) = true ↔
        RowsIndependent n ((nodeLoop indep g E N k).incorporatedEquations ++ [nodeRow g E N k])))
    (k : Nat) (hk : k < m) :
    indep ((nodeLoop indep g E N k).incorporatedEquations ++ [nodeRow g E N k]) = false ↔
      rowVec n (nodeRow g E N k) ∈ rowSpace n (nodeLoop indep g E N k).incorporatedEquations := by
  have hind := nodeLoop_independent indep g E N n m hdec k (by omega)
  have h := hdec k hk
  rw [rowsIndependent_append_singleton] at h
  constructor
  · intro hf
    by_contra hmem
    have := h.mpr ⟨hind, hmem⟩
    rw [hf] at this
    exact Bool.false_ne_true this
  · intro hmem
    cases hb : indep ((nodeLoop indep g E N k).incorporatedEquations ++ [nodeRow g E N k]) with
    | false => rfl
    | true => exact absurd hmem (h.mp hb).2

/-- The rows admitted up to a round span the same space as the rows of all the
nodes visited up to that round. -/
theorem nodeLoop_rowSpace (indep : List (List Int) → Bool) (g : RepeatGraph)
    (E : EdgeIds) (N : NodeIds) (n m : Nat)
    (hdec : ∀ k, k < m →
      (indep ((nodeLoop indep g E N k).incorporatedEquations ++ [nodeRow g E N k]) = true ↔
        RowsIndependent n ((nodeLoop indep g E N k).incorporatedEquations ++ [nodeRow g E N k])))
    (k : Nat) (hk : k ≤ m) :
    rowSpace n (nodeLoop indep g E N k).incorporatedEquations =
      rowSpace n ((List.range k).map (nodeRow g E N)) := by
  induction k with
  | zero => rfl
  | succ k ih =>
    rw [List.range_succ, List.map_append, List.map_singleton, rowSpace_append_singleton,
      ← ih (by omega), nodeLoop_incorporated_succ]
    split_ifs with h
    · exact rowSpace_append_singleton n _ _
    · have hf : indep ((nodeLoop indep g E N k).incorporatedEquations ++ [nodeRow g E N k]) =
          false := by simpa using h
      have hmem := (nodeLoop_discard_iff indep g E N n m hdec k (by omega)).mp hf
      symm
      rw [sup_eq_left, Submodule.span_le, Set.singleton_subset_iff]
      exact hmem

theorem rowVec_zero (n : Nat) (r : List Int) (h : ∀ i, r.getD i 0 = 0) : rowVec n r = 0 := by
  funext i
  show ((r.getD i.val 0 : Int) : ℚ) = 0
  rw [h i.val]
  rfl

theorem finrank_rowSpace (n : Nat) (rows : List (List Int)) (h : RowsIndependent n rows) :
    Module.finrank ℚ (rowSpace n rows) = rows.length := by
  rw [rowSpace_eq_span_range, finrank_span_eq_card h, Fintype.card_fin]

theorem rowSpace_nil (n : Nat) : rowSpace n [] = ⊥ := by
  unfold rowSpace
  simp

theorem rowVec_mem_rowSpace (n : Nat) (rows : List (List Int)) (r : List Int) (h : r ∈ rows) :
    rowVec n r ∈ rowSpace n rows :=
  Submodule.subset_span ⟨r, h, rfl⟩

/-- C16. Linear-independence filter. Suppose that on every matrix the node
loop of `balanceGraph` hands to it, `rows_linearly_independent` answers true
exactly when the rows of the matrix are linearly independent. Then the rows
admitted before any round are linearly independent; in each round the row of
the node is discarded (the round adds the two sign constraints of the slack
variables and no equality constraint) exactly when it lies in the span of the
rows admitted before it, in particular when all its entries are zero, and is
admitted with its equality constraint otherwise; at the end of the loop the
admitted rows span the row space of the rows of all canonical nodes, and the
number of equality constraints of the model is the number of admitted rows and
the dimension of that row space. -/
theorem independence_filter (indep : List (List Int) → Bool) (g : RepeatGraph)
    (hdec : ∀ k, k < (enumerateNodes g).numberNodes →
      (indep (admittedRows indep g k ++ [canonicalRow g k]) = true ↔
        RowsIndependent (enumerateEdges g).numberEdges
          (admittedRows indep g k ++ [canonicalRow g k]))) :
    (∀ k, k ≤ (enumerateNodes g).numberNodes →
      RowsIndependent (enumerateEdges g).numberEdges (admittedRows indep g k)) ∧
    (∀ k, k < (enumerateNodes g).numberNodes →
      (rowAdmitted indep g k = false ↔
        rowVec (enumerateEdges g).numberEdges (canonicalRow g k) ∈
          rowSpace (enumerateEdges g).numberEdges (admittedRows indep g k)) ∧
      (rowAdmitted indep g k = false →
        constraintsBefore indep g (k + 1) = constraintsBefore indep g k ++
          [nonNegative ((enumerateEdges g).numberEdges + (enumerateNodes g).numberNodes * 2)
              ((enumerateEdges g).numberEdges + k * 2),
           nonNegative ((enumerateEdges g).numberEdges + (enumerateNodes g).numberNodes * 2)
              ((enumerateEdges g).numberEdges + k * 2 + 1)] ∧
        admittedRows indep g (k + 1) = admittedRows indep g k) ∧
      (rowAdmitted indep g k = true →
        constraintsBefore indep g (k + 1) = constraintsBefore indep g k ++
          [nonNegative ((enumerateEdges g).numberEdges + (enumerateNodes g).numberNodes * 2)
              ((enumerateEdges g).numberEdges + k * 2),
           nonNegative ((enumerateEdges g).numberEdges + (enumerateNodes g).numberNodes * 2)
              ((enumerateEdges g).numberEdges + k * 2 + 1)] ++
          [nodeEquality g (enumerateEdges g) (enumerateNodes g) k] ∧
        admittedRows indep g (k + 1) = admittedRows indep g k ++ [canonicalRow g k]) ∧
      ((∀ i, (canonicalRow g k).getD i 0 = 0) → rowAdmitted indep g k = false)) ∧
    rowSpace (enumerateEdges g).numberEdges
        (admittedRows indep g (enumerateNodes g).numberNodes) =
      rowSpace (enumerateEdges g).numberEdges (allNodeRows g) ∧
    (buildModel indep g).constraints =
      constraintsBefore indep g (enumerateNodes g).numberNodes ∧
    equalityCount (buildModel indep g).constraints =
      (admittedRows indep g (enumerateNodes g).numberNodes).length ∧
    equalityCount (buildModel indep g).constraints =
      Module.finrank ℚ (rowSpace (enumerateEdges g).numberEdges (allNodeRows g)) := by
  have hind := nodeLoop_independent indep g (enumerateEdges g) (enumerateNodes g)
    (enumerateEdges g).numberEdges (enumerateNodes g).numberNodes hdec
  have hdis := nodeLoop_discard_iff indep g (enumerateEdges g) (enumerateNodes g)
    (enumerateEdges g).numberEdges (enumerateNodes g).numberNodes hdec
  have hspace := nodeLoop_rowSpace indep g (enumerateEdges g) (enumerateNodes g)
    (enumerateEdges g).numberEdges (enumerateNodes g).numberNodes hdec
    (enumerateNodes g).numberNodes (le_refl _)
  have hcount := nodeLoop_equalityCount indep g (enumerateEdges g) (enumerateNodes g)
    (enumerateNodes g).numberNodes
  refine ⟨hind, ?_, hspace, rfl, hcount, ?_⟩
  · intro k hk
    refine ⟨hdis k hk, ?_, ?_, ?_⟩
    · intro h
      rw [rowAdmitted_eq] at h
      unfold constraintsBefore admittedRows
      rw [nodeLoop_constraints_succ, nodeLoop_incorporated_succ, h]
      exact ⟨rfl, rfl⟩
    · intro h
      rw [rowAdmitted_eq] at h
      unfold constraintsBefore admittedRows canonicalRow
      rw [nodeLoop_constraints_succ, nodeLoop_incorporated_succ, h]
      exact ⟨rfl, rfl⟩
    · intro hz
      refine (hdis k hk).mpr ?_
      have h0 := rowVec_zero (enumerateEdges g).numberEdges (canonicalRow g k) hz
      unfold canonicalRow at h0
      rw [h0]
      exact Submodule.zero_mem _
  · have hfin := finrank_rowSpace (enumerateEdges g).numberEdges _
      (hind (enumerateNodes g).numberNodes (le_refl _))
    rw [hspace] at hfin
    calc equalityCount (buildModel indep g).constraints
        = (admittedRows indep g (enumerateNodes g).numberNodes).length := hcount
      _ = _ := hfin.symm

theorem sourceSink_rows_first : RowsIndependent 3 [[-1, 0, -1]] := by
  refine (rowsIndependent_append_singleton 3 [] [-1, 0, -1]).mpr ⟨rowsIndependent_nil 3, ?_⟩
  rw [rowSpace_nil, Submodule.mem_bot]
  intro h
  have h0 := congrFun h (0 : Fin 3)
  simp [rowVec] at h0

theorem sourceSink_rows_second : RowsIndependent 3 [[-1, 0, -1], [1, -1, 0]] := by
  refine (rowsIndependent_append_singleton 3 [[-1, 0, -1]] [1, -1, 0]).mpr
    ⟨sourceSink_rows_first, ?_⟩
  have hs : rowSpace 3 [[-1, 0, -1]] = Submodule.span ℚ {rowVec 3 [-1, 0, -1]} := by
    have := rowSpace_append_singleton 3 [] [-1, 0, -1]
    rw [rowSpace_nil, bot_sup_eq] at this
    exact this
  rw [hs, Submodule.mem_span_singleton]
  rintro ⟨a, ha⟩
  have h1 := congrFun ha (1 : Fin 3)
  simp [rowVec] at h1

theorem sourceSink_rows_third :
    ¬ RowsIndependent 3 [[-1, 0, -1], [1, -1, 0], [0, 1, 1]] := by
  intro h
  have h2 := ((rowsIndependent_append_singleton 3 [[-1, 0, -1], [1, -1, 0]] [0, 1, 1]).mp h).2
  apply h2
  have he : rowVec 3 [0, 1, 1] = -(rowVec 3 [-1, 0, -1] + rowVec 3 [1, -1, 0]) := by
    funext i
    fin_cases i <;> simp [rowVec]
  rw [he]
  exact Submodule.neg_mem _ (Submodule.add_mem _
    (rowVec_mem_rowSpace 3 _ _ (by simp)) (rowVec_mem_rowSpace 3 _ _ (by simp)))

theorem sourceSink_filter_decides (k : Nat)
    (hk : k < (enumerateNodes sourceSinkGraph).numberNodes) :
    rowsLinearlyIndependent (admittedRows rowsLinearlyIndependent sourceSinkGraph k ++
        [canonicalRow sourceSinkGraph k]) = true ↔
      RowsIndependent (enumerateEdges sourceSinkGraph).numberEdges
        (admittedRows rowsLinearlyIndependent sourceSinkGraph k ++
          [canonicalRow sourceSinkGraph k]) := by
  have h3 : (enumerateNodes sourceSinkGraph).numberNodes = 3 := by decide
  have hn : (enumerateEdges sourceSinkGraph).numberEdges = 3 := by decide
  rw [h3] at hk
  rw [hn]
  interval_cases k
  · have hr : admittedRows rowsLinearlyIndependent sourceSinkGraph 0 ++
        [canonicalRow sourceSinkGraph 0] = [[-1, 0, -1]] := by decide
    rw [hr]
    exact ⟨fun _ => sourceSink_rows_first, fun _ => by decide⟩
  · have hr : admittedRows rowsLinearlyIndependent sourceSinkGraph 1 ++
        [canonicalRow sourceSinkGraph 1] = [[-1, 0, -1], [1, -1, 0]] := by decide
    rw [hr]
    exact ⟨fun _ => sourceSink_rows_second, fun _ => by decide⟩
  · have hr : admittedRows rowsLinearlyIndependent sourceSinkGraph 2 ++
        [canonicalRow sourceSinkGraph 2] = [[-1, 0, -1], [1, -1, 0], [0, 1, 1]] := by decide
    rw [hr]
    exact ⟨fun h => absurd h (by decide), fun h => absurd h sourceSink_rows_third⟩

/-- C16, at `sourceSinkGraph` with the elimination test `rowsLinearlyIndependent`:
the rows of `P` and `Q` are admitted, the row of `R` is their negated sum and
is discarded. -/
theorem independence_filter_witness :
    (∀ k, k < (enumerateNodes sourceSinkGraph).numberNodes →
      (rowsLinearlyIndependent (admittedRows rowsLinearlyIndependent sourceSinkGraph k ++
          [canonicalRow sourceSinkGraph k]) = true ↔
        RowsIndependent (enumerateEdges sourceSinkGraph).numberEdges
          (admittedRows rowsLinearlyIndependent sourceSinkGraph k ++
            [canonicalRow sourceSinkGraph k]))) ∧
    (∀ k, k ≤ (enumerateNodes sourceSinkGraph).numberNodes →
      RowsIndependent (enumerateEdges sourceSinkGraph).numberEdges
        (admittedRows rowsLinearlyIndependent sourceSinkGraph k)) ∧
    (∀ k, k < (enumerateNodes sourceSinkGraph).numberNodes →
      (rowAdmitted rowsLinearlyIndependent sourceSinkGraph k = false ↔
        rowVec (enumerateEdges sourceSinkGraph).numberEdges (canonicalRow sourceSinkGraph k) ∈
          rowSpace (enumerateEdges sourceSinkGraph).numberEdges
            (admittedRows rowsLinearlyIndependent sourceSinkGraph k)) ∧
      (rowAdmitted rowsLinearlyIndependent sourceSinkGraph k = false →
        constraintsBefore rowsLinearlyIndependent sourceSinkGraph (k + 1) =
          constraintsBefore rowsLinearlyIndependent sourceSinkGraph k ++
          [nonNegative ((enumerateEdges sourceSinkGraph).numberEdges +
              (enumerateNodes sourceSinkGraph).numberNodes * 2)
              ((enumerateEdges sourceSinkGraph).numberEdges + k * 2),
           nonNegative ((enumerateEdges sourceSinkGraph).numberEdges +
              (enumerateNodes sourceSinkGraph).numberNodes * 2)
              ((enumerateEdges sourceSinkGraph).numberEdges + k * 2 + 1)] ∧
        admittedRows rowsLinearlyIndependent sourceSinkGraph (k + 1) =
          admittedRows rowsLinearlyIndependent sourceSinkGraph k) ∧
      (rowAdmitted rowsLinearlyIndependent sourceSinkGraph k = true →
        constraintsBefore rowsLinearlyIndependent sourceSinkGraph (k + 1) =
          constraintsBefore rowsLinearlyIndependent sourceSinkGraph k ++
          [nonNegative ((enumerateEdges sourceSinkGraph).numberEdges +
              (enumerateNodes sourceSinkGraph).numberNodes * 2)
              ((enumerateEdges sourceSinkGraph).numberEdges + k * 2),
           nonNegative ((enumerateEdges sourceSinkGraph).numberEdges +
              (enumerateNodes sourceSinkGraph).numberNodes * 2)
              ((enumerateEdges sourceSinkGraph).numberEdges + k * 2 + 1)] ++
          [nodeEquality sourceSinkGraph (enumerateEdges sourceSinkGraph)
            (enumerateNodes sourceSinkGraph) k] ∧
        admittedRows rowsLinearlyIndependent sourceSinkGraph (k + 1) =
          admittedRows rowsLinearlyIndependent sourceSinkGraph k ++
            [canonicalRow sourceSinkGraph k]) ∧
      ((∀ i, (canonicalRow sourceSinkGraph k).getD i 0 = 0) →
        rowAdmitted rowsLinearlyIndependent sourceSinkGraph k = false)) ∧
    rowSpace (enumerateEdges sourceSinkGraph).numberEdges
        (admittedRows rowsLinearlyIndependent sourceSinkGraph
          (enumerateNodes sourceSinkGraph).numberNodes) =
      rowSpace (enumerateEdges sourceSinkGraph).numberEdges (allNodeRows sourceSinkGraph) ∧
    (buildModel rowsLinearlyIndependent sourceSinkGraph).constraints =
      constraintsBefore rowsLinearlyIndependent sourceSinkGraph
        (enumerateNodes sourceSinkGraph).numberNodes ∧
    equalityCount (buildModel rowsLinearlyIndependent sourceSinkGraph).constraints =
      (admittedRows rowsLinearlyIndependent sourceSinkGraph
        (enumerateNodes sourceSinkGraph).numberNodes).length ∧
    equalityCount (buildModel rowsLinearlyIndependent sourceSinkGraph).constraints =
      Module.finrank ℚ
        (rowSpace (enumerateEdges sourceSinkGraph).numberEdges (allNodeRows sourceSinkGraph)) :=
  ⟨sourceSink_filter_decides,
   independence_filter rowsLinearlyIndependent sourceSinkGraph sourceSink_filter_decides⟩

/-- In the model of `sourceSinkGraph` the filter leaves two equality
constraints: the rows of the three nodes have rank two. -/
theorem sourceSink_equality_count :
    equalityCount (buildModel rowsLinearlyIndependent sourceSinkGraph).constraints = 2 ∧
    rowAdmitted rowsLinearlyIndependent sourceSinkGraph 2 = false := by
  decide

end MultiplicityInferer
